import Mathlib

/-!
Request pipeline of the gateway: HMAC verification, OAuth2 key check,
listen-path routing and the loop dispatcher.

A shallow embedding of `gateway/mw_hmac.go`, `gateway/mw_oauth2_key_exists.go`,
`gateway/api_loader.go` and `ctx/ctx.go`.

Go strings are byte strings; they are modelled as lists of characters, one
character per byte.  Case mapping, white space and the escaping rules are the
ASCII ones of the Go standard library.
-/

namespace Tyk

/-- Go `string`, as the list of its bytes. -/
abbrev Str := List Char

/-! ## The `strings` package -/

/-- `strings.ToLower` (ASCII letters). -/
def ToLower (s : Str) : Str := s.map Char.toLower

/-- `strings.ToUpper` (ASCII letters). -/
def ToUpper (s : Str) : Str := s.map Char.toUpper

/-- White space as `strings.TrimSpace` sees it on a byte string. -/
def isSpace (c : Char) : Bool :=
  c = ' ' || c = '\t' || c = '\n' || c = '\r' || c.toNat = 11 || c.toNat = 12 ||
    c.toNat = 133 || c.toNat = 160

/-- `strings.TrimLeft`/`TrimRight` for a set of characters given as a predicate. -/
def trimBoth (p : Char → Bool) (s : Str) : Str :=
  ((s.dropWhile p).reverse.dropWhile p).reverse

/-- `strings.TrimSpace`. -/
def TrimSpace (s : Str) : Str := trimBoth isSpace s

/-- `strings.Trim(s, cutset)` for a one-character cutset. -/
def Trim (s : Str) (cut : Char) : Str := trimBoth (fun c => c = cut) s

/-- `strings.TrimPrefix`. -/
def TrimPrefix (s pre : Str) : Str :=
  if pre.isPrefixOf s then s.drop pre.length else s

/-- `strings.Split(s, sep)` for a one-character separator: never empty, the
empty string gives one empty part. -/
def Split (sep : Char) : Str → List Str
  | [] => [[]]
  | c :: cs =>
    if c = sep then [] :: Split sep cs
    else
      match Split sep cs with
      | [] => [[c]]
      | w :: ws => (c :: w) :: ws

/-- `strings.Join(parts, sep)` for a one-character separator. -/
def Join (sep : Char) : List Str → Str
  | [] => []
  | [a] => a
  | a :: b :: rest => a ++ sep :: Join sep (b :: rest)

/-- The scan of `strings.Replace(s, old, new, -1)` for a non-empty `old`:
`skip` counts the bytes of a matched `old` still to be passed over. -/
def replaceScan (old new : Str) : Nat → Str → Str
  | _, [] => []
  | skip + 1, _ :: s => replaceScan old new skip s
  | 0, c :: s =>
    if old.isPrefixOf (c :: s) then new ++ replaceScan old new (old.length - 1) s
    else c :: replaceScan old new 0 s

/-- `strings.Replace(s, old, new, -1)`: every non-overlapping occurrence of
`old`, leftmost first; an empty `old` matches before every byte and at the end. -/
def Replace (s old new : Str) : Str :=
  if old = new then s
  else if old = [] then new ++ s.flatMap (fun c => c :: new)
  else replaceScan old new 0 s

/-! ## `encoding/base64` and `net/url` -/

/-- The alphabet of `base64.StdEncoding`. -/
def encodeStd : Str :=
  "ABCDEFGHIJKLMNOPQRSTUVWXYZabcdefghijklmnopqrstuvwxyz0123456789+/".toList

/-- The character of a six-bit value. -/
def b64Char (n : Nat) : Char := encodeStd.getD (n % 64) 'A'

/-- `base64.StdEncoding.EncodeToString`, on bytes given as numbers (read
modulo 256), with `=` padding. -/
def base64Encode : List Nat → Str
  | [] => []
  | [a] =>
    let a := a % 256
    [b64Char (a / 4), b64Char ((a % 4) * 16), '=', '=']
  | [a, b] =>
    let a := a % 256
    let b := b % 256
    [b64Char (a / 4), b64Char ((a % 4) * 16 + b / 16), b64Char ((b % 16) * 4), '=']
  | a :: b :: c :: rest =>
    let a := a % 256
    let b := b % 256
    let c := c % 256
    b64Char (a / 4) :: b64Char ((a % 4) * 16 + b / 16) ::
      b64Char ((b % 16) * 4 + c / 64) :: b64Char (c % 64) :: base64Encode rest

/-- The digits of `upperhex` in `net/url`. -/
def upperhex (n : Nat) : Char := "0123456789ABCDEF".toList.getD (n % 16) '0'

/-- `shouldEscape(c, encodeQueryComponent)` of `net/url`: only letters, digits
and `-`, `_`, `.`, `~` pass unescaped. -/
def shouldEscape (c : Char) : Bool :=
  !(c.isAlphanum || c = '-' || c = '_' || c = '.' || c = '~')

/-- One byte of `url.QueryEscape`. -/
def escapeByte (c : Char) : Str :=
  if shouldEscape c then
    if c = ' ' then ['+']
    else ['%', upperhex (c.toNat / 16), upperhex c.toNat]
  else [c]

/-- `url.QueryEscape`. -/
def QueryEscape (s : Str) : Str := s.flatMap escapeByte

/-! ## `crypto/hmac` -/

/-- The hash constructors `generateEncodedSignature` chooses from. -/
inductive HashFunction
  | sha1
  | sha256
  | sha384
  | sha512
  deriving DecidableEq, Repr

/-- The digest `hmac.New(hashFunction, key)` yields for a message: the
cryptographic library is a parameter of the development. -/
abbrev Mac := HashFunction → Str → Str → List Nat

/-- `generateEncodedSignature`. -/
def generateEncodedSignature (mac : Mac) (signatureString secret algorithm : Str) : Str :=
  let hashFunction :=
    if algorithm = "hmac-sha256".toList then HashFunction.sha256
    else if algorithm = "hmac-sha384".toList then HashFunction.sha384
    else if algorithm = "hmac-sha512".toList then HashFunction.sha512
    else HashFunction.sha1
  QueryEscape (base64Encode (mac hashFunction secret signatureString))

/-! ## Sessions, request context and requests -/

/-- The fields of `user.SessionState` the pipeline reads here. -/
structure SessionState where
  KeyHash : Str := []
  HmacSecret : Str := []
  HMACEnabled : Bool := false
  OauthClientID : Str := []
  QuotaRemaining : Int := 0
  QuotaMax : Int := 0
  deriving DecidableEq, Repr

/-- `url.URL`, with the query in parsed form (`URL.Query()`). -/
structure URL where
  Scheme : Str := []
  Host : Str := []
  Path : Str := []
  Query : List (Str × Str) := []
  deriving DecidableEq, Repr

/-- The values of the request context, one field per key of `ctx/ctx.go` that
the code below reads or writes; `none` is a key that was never set. -/
structure Context where
  SessionData : Option SessionState := none
  UpdateSession : Bool := false
  AuthToken : Option Str := none
  VersionData : Option Str := none
  ContextData : Option (List (Str × Str)) := none
  OrigRequestURL : Option URL := none
  LoopLevel : Int := 0
  LoopLevelLimit : Int := 0
  CheckLoopLimits : Bool := false
  deriving DecidableEq, Repr

/-- `http.Request`: method, URL, headers and the context it carries. -/
structure Request where
  Method : Str := []
  URL : URL := {}
  Header : List (Str × Str) := []
  ctx : Context := {}
  deriving DecidableEq, Repr

/-- `r.Header.Get(key)`: the first value stored under the name, compared without
regard to case (the map is keyed by canonical names), `""` when absent. -/
def Request.HeaderGet (r : Request) (key : Str) : Str :=
  match r.Header.find? (fun kv => ToLower kv.1 = ToLower key) with
  | some kv => kv.2
  | none => []

/-- `(error, int)` as the middleware returns it: the error text, if any, and the
status code. -/
abbrev Result := Option Str × Nat

/-- `http.StatusOK`. -/
def StatusOK : Nat := 200
/-- `http.StatusBadRequest`. -/
def StatusBadRequest : Nat := 400
/-- `http.StatusForbidden`. -/
def StatusForbidden : Nat := 403
/-- `http.StatusInternalServerError`. -/
def StatusInternalServerError : Nat := 500

/-- `GetAuthToken`. -/
def GetAuthToken (r : Request) : Str :=
  match r.ctx.AuthToken with
  | some v => v
  | none => []

/-- `GetSession`. -/
def GetSession (r : Request) : Option SessionState := r.ctx.SessionData

/-- The body of `ctxSetSession` for a session that is not nil; `hashKey` is
`storage.HashKey`. -/
def setSessionValue (hashKey : Str → Str) (r : Request) (s : SessionState) (token : Str)
    (scheduleUpdate : Bool) : Request :=
  let token := if token = [] then GetAuthToken r else token
  let s := if s.KeyHash = [] then { s with KeyHash := hashKey token } else s
  let ctx := { r.ctx with SessionData := some s, AuthToken := some token }
  let ctx := if scheduleUpdate then { ctx with UpdateSession := true } else ctx
  { r with ctx := ctx }

/-- `ctxSetSession`: a nil session panics (`none`). -/
def ctxSetSession (hashKey : Str → Str) (r : Request) (s : Option SessionState) (token : Str)
    (scheduleUpdate : Bool) : Option Request :=
  match s with
  | none => none
  | some s => some (setSessionValue hashKey r s token scheduleUpdate)

/-- `SetSession`. -/
def SetSession (hashKey : Str → Str) (r : Request) (s : Option SessionState) (token : Str)
    (scheduleUpdate : Bool) : Option Request :=
  ctxSetSession hashKey r s token scheduleUpdate

/-! ## API definitions -/

/-- `apidef.HMACKey`. -/
def HMACKey : Str := "hmac_key".toList
/-- `apidef.OAuthKey`. -/
def OAuthKey : Str := "oauth_key".toList
/-- `apidef.AuthToken`. -/
def AuthTokenType : Str := "auth_token".toList
/-- `apidef.BasicAuthUser`. -/
def BasicAuthUser : Str := "basic_auth_user".toList
/-- `apidef.UnsetAuth`. -/
def UnsetAuth : Str := []

/-- The fields of `APISpec` read by the code below. -/
structure APISpec where
  APIID : Str := []
  Name : Str := []
  Domain : Str := []
  ListenPath : Str := []
  TargetURL : Str := []
  Internal : Bool := false
  UseKeylessAccess : Bool := false
  EnableSignatureChecking : Bool := false
  UseOauth2 : Bool := false
  EnableContextVars : Bool := false
  HmacAllowedAlgorithms : List Str := []
  HmacAllowedClockSkew : ℚ := 0
  BaseIdentityProvidedBy : Str := []
  EnableCoProcessAuth : Bool := false
  UseGoPluginAuth : Bool := false
  UseStandardAuth : Bool := false
  deriving DecidableEq

/-- What the middleware shares per API: the spec and the session lookup
`CheckSessionAndIdentityForValidKey` (the found session, or `none`), together
with the libraries it calls: `storage.HashKey`, `crypto/hmac`, `time.Parse`
(layout, text to `UnixNano`). -/
structure BaseMiddleware where
  Spec : APISpec := {}
  CheckSessionAndIdentityForValidKey : Str → Option SessionState := fun _ => none
  HashKey : Str → Str := fun k => k
  mac : Mac := fun _ _ _ => []
  timeParse : Str → Str → Option Int := fun _ _ => none

/-! ## `mw_hmac.go` -/

/-- `dateHeaderSpec`. -/
def dateHeaderSpec : Str := "Date".toList
/-- `altHeaderSpec`. -/
def altHeaderSpec : Str := "x-aux-date".toList

/-- `HMACFieldValues`. -/
structure HMACFieldValues where
  KeyID : Str := []
  Algorthm : Str := []
  Headers : List Str := []
  Signature : Str := []
  deriving DecidableEq, Repr

/-- `stripSignature`. -/
def stripSignature (token : Str) : Str :=
  let token := TrimPrefix token "Signature".toList
  let token := TrimPrefix token "signature".toList
  TrimSpace token

/-- The class `[a-f0-9]` of `lowercasePattern`. -/
def isLowerHex (c : Char) : Bool :=
  (decide (48 ≤ c.toNat) && decide (c.toNat ≤ 57)) ||
    (decide (97 ≤ c.toNat) && decide (c.toNat ≤ 102))

/-- The scan of `FindAllString` for the pattern `%[a-f0-9][a-f0-9]`: `skip`
counts the bytes of the last match still to be passed over. -/
def findAllScan : Nat → Str → List Str
  | _, [] => []
  | skip + 1, _ :: s => findAllScan skip s
  | 0, c :: s =>
    match s with
    | x :: y :: _ =>
      if c = '%' ∧ isLowerHex x = true ∧ isLowerHex y = true then [c, x, y] :: findAllScan 2 s
      else findAllScan 0 s
    | _ => findAllScan 0 s

/-- `lowercasePattern.FindAllString(signature, -1)` for the pattern
`%[a-f0-9][a-f0-9]` of `Init`: the non-overlapping matches, leftmost first. -/
def FindAllString (signature : Str) : List Str := findAllScan 0 signature

/-- `HMACMiddleware.hasLowerCaseEscaped`. -/
def hasLowerCaseEscaped (signature : Str) : Bool × List Str :=
  let foundList := FindAllString signature
  (decide (foundList.length > 0), foundList)

/-- `HMACMiddleware.replaceWithUpperCase`. -/
def replaceWithUpperCase (originalSignature : Str) (lowercaseList : List Str) : Str :=
  lowercaseList.foldl (fun newSignature lStr => Replace newSignature lStr (ToUpper lStr))
    originalSignature

/-- `getDateHeader`. -/
def getDateHeader (r : Request) : Str × Str :=
  let auxHeaderVal := r.HeaderGet altHeaderSpec
  if auxHeaderVal ≠ [] then (ToLower altHeaderSpec, auxHeaderVal)
  else
    let dateHeaderVal := r.HeaderGet dateHeaderSpec
    if dateHeaderVal ≠ [] then (ToLower dateHeaderSpec, dateHeaderVal)
    else ([], [])

/-- The loop of `getFieldValues` over the comma-separated elements. -/
def getFieldValuesLoop : List Str → HMACFieldValues → Except Str HMACFieldValues
  | [], set => .ok set
  | element :: rest, set =>
    match Split '=' element with
    | [k, v] =>
      let key := ToLower k
      let value := Trim v '"'
      if key = "keyid".toList then getFieldValuesLoop rest { set with KeyID := value }
      else if key = "algorithm".toList then getFieldValuesLoop rest { set with Algorthm := value }
      else if key = "headers".toList then
        getFieldValuesLoop rest { set with Headers := Split ' ' value }
      else if key = "signature".toList then
        getFieldValuesLoop rest { set with Signature := value }
      else .error "Header key is not valid, not in allowed parameter list".toList
    | _ => .error "Header field value malformed (need two elements in field)".toList

/-- `getFieldValues`. -/
def getFieldValues (authHeader : Str) : Except Str HMACFieldValues :=
  match getFieldValuesLoop (Split ',' authHeader) {} with
  | .error e => .error e
  | .ok set =>
    if set.Headers.length = 0 then .ok { set with Headers := set.Headers ++ ["date".toList] }
    else .ok set

/-- One turn of the loop of `generateHMACSignatureStringFromRequest`: the text
appended for one header name, `last` saying whether it is the final one. -/
def signatureLine (r : Request) (header : Str) (last : Bool) : Str :=
  let loweredHeader := TrimSpace (ToLower header)
  let line :=
    if loweredHeader = "(request-target)".toList then
      "(request-target): ".toList ++ ToLower r.Method ++ " ".toList ++ r.URL.Path
    else
      let headerVal := r.HeaderGet loweredHeader
      let p := if loweredHeader = "date".toList then getDateHeader r else (loweredHeader, headerVal)
      TrimSpace p.1 ++ ": ".toList ++ TrimSpace p.2
  if last then line else line ++ ['\n']

/-- The loop of `generateHMACSignatureStringFromRequest`. -/
def signatureLines (r : Request) : List Str → Str
  | [] => []
  | [header] => signatureLine r header true
  | header :: rest => signatureLine r header false ++ signatureLines r rest

/-- `generateHMACSignatureStringFromRequest`; its error is always nil. -/
def generateHMACSignatureStringFromRequest (r : Request) (fieldValues : HMACFieldValues) :
    Except Str Str :=
  .ok (signatureLines r fieldValues.Headers)

/-- `int64` wrap-around. -/
def wrapInt64 (x : Int) : Int := (x + 2 ^ 63) % 2 ^ 64 - 2 ^ 63

/-- `HMACMiddleware`. -/
structure HMACMiddleware extends BaseMiddleware

/-- `HMACMiddleware.checkClockSkew`, with `time.Now().UnixNano()` as `now`. -/
def HMACMiddleware.checkClockSkew (hm : HMACMiddleware) (now : Int) (dateHeaderValue : Str) :
    Bool :=
  let refDate := "Mon, 02 Jan 2006 15:04:05 MST".toList
  let refDateNumeric := "Mon, 02 Jan 2006 15:04:05 -07".toList
  let tim :=
    match hm.timeParse refDate dateHeaderValue with
    | some t => some t
    | none => hm.timeParse refDateNumeric dateHeaderValue
  match tim with
  | none => false
  | some inSec =>
    let diff := wrapInt64 (now - inSec)
    let in_ms := Int.tdiv diff 1000000
    if hm.Spec.HmacAllowedClockSkew ≤ 0 then true
    else if ((|in_ms| : Int) : ℚ) > hm.Spec.HmacAllowedClockSkew then false
    else true

/-- `HMACMiddleware.authorizationError`. -/
def HMACMiddleware.authorizationError (_hm : HMACMiddleware) (_r : Request) : Result :=
  (some "Authorization field missing, malformed or invalid".toList, StatusBadRequest)

/-- `HMACMiddleware.getSecretAndSessionForKeyID`. -/
def HMACMiddleware.getSecretAndSessionForKeyID (hm : HMACMiddleware) (_r : Request)
    (keyId : Str) : Except Str (Str × SessionState) :=
  match hm.CheckSessionAndIdentityForValidKey keyId with
  | none => .error "Key ID does not exist".toList
  | some session =>
    if session.HmacSecret = [] ∨ session.HMACEnabled = false then
      .error "This key ID is invalid".toList
    else .ok (session.HmacSecret, session)

/-- `HMACMiddleware.setContextVars`: the context data (`ctxGetData`), when there
is one, gets the entry `token`. -/
def HMACMiddleware.setContextVars (hm : HMACMiddleware) (r : Request) (token : Str) : Request :=
  if hm.Spec.EnableContextVars = false then r
  else
    match r.ctx.ContextData with
    | none => r
    | some cnt =>
      let cnt := ("token".toList, token) :: cnt.filter (fun kv => kv.1 ≠ "token".toList)
      { r with ctx := { r.ctx with ContextData := some cnt } }

/-- The comparison of `ProcessRequest`: equal at once, or equal after the lower
case escapes of the presented signature were put in upper case. -/
def signatureMatches (encodedSignature signature : Str) : Bool :=
  let matchPass := decide (encodedSignature = signature)
  if !matchPass then
    let (isLower, lowerList) := hasLowerCaseEscaped signature
    if isLower then
      let upperedSignature := replaceWithUpperCase signature lowerList
      decide (encodedSignature = upperedSignature)
    else matchPass
  else matchPass

/-- `HMACMiddleware.ProcessRequest`: the result and the request as it leaves. -/
def HMACMiddleware.ProcessRequest (hm : HMACMiddleware) (now : Int) (r : Request) :
    Result × Request :=
  let token := r.HeaderGet "Authorization".toList
  if token = [] then (hm.authorizationError r, r)
  else
    let token := stripSignature token
    match getFieldValues token with
    | .error _ => (hm.authorizationError r, r)
    | .ok fieldValues =>
      match generateHMACSignatureStringFromRequest r fieldValues with
      | .error _ => (hm.authorizationError r, r)
      | .ok signatureString =>
        match hm.getSecretAndSessionForKeyID r fieldValues.KeyID with
        | .error _ => (hm.authorizationError r, r)
        | .ok (secret, session) =>
          if hm.Spec.HmacAllowedAlgorithms.length > 0 ∧
              ¬ fieldValues.Algorthm ∈ hm.Spec.HmacAllowedAlgorithms then
            (hm.authorizationError r, r)
          else
            let encodedSignature :=
              generateEncodedSignature hm.mac signatureString secret fieldValues.Algorthm
            if signatureMatches encodedSignature fieldValues.Signature = false then
              (hm.authorizationError r, r)
            else if hm.checkClockSkew now (getDateHeader r).2 = false then
              (hm.authorizationError r, r)
            else if hm.Spec.BaseIdentityProvidedBy = HMACKey ∨
                hm.Spec.BaseIdentityProvidedBy = UnsetAuth then
              let r := setSessionValue hm.HashKey r session fieldValues.KeyID false
              ((none, StatusOK), hm.setContextVars r fieldValues.KeyID)
            else ((none, StatusOK), r)

/-! ## Wording of the upper-case retry -/

/-- Whether the text starts with a match of `%[a-f0-9][a-f0-9]`. -/
def startsEsc : Str → Bool
  | c :: x :: y :: _ => decide (c = '%') && isLowerHex x && isLowerHex y
  | _ => false

/-- One pass over the text that replaces every match of `%[a-f0-9][a-f0-9]`,
leftmost first, by its image under `f` and copies every other byte. -/
def mapEscapes (f : Str → Str) : Nat → Str → Str
  | _, [] => []
  | skip + 1, _ :: s => mapEscapes f skip s
  | 0, c :: s =>
    if startsEsc (c :: s) then f ((c :: s).take 3) ++ mapEscapes f 2 s
    else c :: mapEscapes f 0 s

/-- The presented signature with exactly its matched escapes in upper case and
every byte outside them unchanged. -/
def upperEscapes (s : Str) : Str := mapEscapes ToUpper 0 s

/-- A hexadecimal digit of either case. -/
def isHexDigit (c : Char) : Bool :=
  (decide (48 ≤ c.toNat) && decide (c.toNat ≤ 57)) ||
    (decide (97 ≤ c.toNat) && decide (c.toNat ≤ 102)) ||
    (decide (65 ≤ c.toNat) && decide (c.toNat ≤ 70))

/-- Whether the text starts with an escape `%hh`, the digits in either case. -/
def startsAnyEsc : Str → Bool
  | c :: x :: y :: _ => decide (c = '%') && isHexDigit x && isHexDigit y
  | _ => false

/-- Two bytes that are equal or the two cases of one letter (`A`..`Z` is
65..90, the lower case letter 32 above). -/
def caseTwin (a b : Char) : Bool :=
  decide (a = b) ||
    (decide (65 ≤ a.toNat) && decide (a.toNat ≤ 90) && decide (a.toNat + 32 = b.toNat)) ||
    (decide (65 ≤ b.toNat) && decide (b.toNat ≤ 90) && decide (b.toNat + 32 = a.toNat))

/-- `escCaseVariant 0 e s`: the text `s` differs from `e` only in the letter
case of the hex digits inside the `%hh` escapes of `e`; `skip` counts the hex
digits of the current escape still to come. -/
def escCaseVariant : Nat → Str → Str → Bool
  | _, [], [] => true
  | _, [], _ :: _ => false
  | _, _ :: _, [] => false
  | skip + 1, e :: es, s :: ss => caseTwin e s && escCaseVariant skip es ss
  | 0, e :: es, s :: ss =>
    decide (e = s) &&
      (if startsAnyEsc (e :: es) then escCaseVariant 2 es ss else escCaseVariant 0 es ss)

/-- The text `q` in upper case when it is one of `l`, else unchanged: what the
replacements for the matches `l` make of one escape. -/
def upperIn (l : List Str) (q : Str) : Str := if q ∈ l then ToUpper q else q

/-! ## The signing side, as the comment in `mw_hmac.go` words the header -/

/-- One `name="value"` element of the `Signature` header. -/
def fieldElement (name value : Str) : Str := name ++ '=' :: '"' :: (value ++ ['"'])

/-- The `Authorization` value of a signed request (the format of the comment
above `generateHMACSignatureStringFromRequest`):
`Signature keyId="..",algorithm="..",headers="h1 h2",signature=".."`. -/
def signatureHeader (keyId algorithm : Str) (headers : List Str) (signature : Str) : Str :=
  "Signature ".toList ++
    (fieldElement "keyId".toList keyId ++ ',' ::
      (fieldElement "algorithm".toList algorithm ++ ',' ::
        (fieldElement "headers".toList (Join ' ' headers) ++ ',' ::
          fieldElement "signature".toList signature)))

/-! ## Concrete runs -/

/-- A stand-in digest for concrete runs: the bytes of the key, then of the
message. -/
def sampleMac : Mac := fun _ key msg => (key ++ msg).map Char.toNat

/-- The date header of the concrete runs. -/
def sampleDate : Str := "Mon, 02 Jan 2006 15:04:05 MST".toList

/-- A middleware whose store holds one key, `9876`, with the given HMAC secret
and HMAC enabled; no allow-list, no clock-skew limit. -/
def sampleHMAC (secret : Str) : HMACMiddleware :=
  { mac := sampleMac
    CheckSessionAndIdentityForValidKey := fun k =>
      if k = "9876".toList then some { HmacSecret := secret, HMACEnabled := true } else none
    timeParse := fun _ v => if v = sampleDate then some 1136239445000000000 else none }

/-- `GET /a` with a `Date` header, signed for the given keyId, secret and
header names: the signature is computed over the request itself. -/
def sampleSigned (keyId secret : Str) (headers : List Str) : Request :=
  let base : Request :=
    { Method := "GET".toList, URL := { Path := "/a".toList },
      Header := [("Date".toList, sampleDate)] }
  let signature :=
    generateEncodedSignature sampleMac (signatureLines base headers) secret "hmac-sha1".toList
  { base with
    Header := ("Authorization".toList,
      signatureHeader keyId "hmac-sha1".toList headers signature) :: base.Header }

/-! ## `api_loader.go`: the loop dispatcher -/

/-- `defaultLoopLevelLimit`. -/
def defaultLoopLevelLimit : Int := 5

/-- `ctxLoopLevel`: the value under `LoopLevel`, `0` when never set. -/
def ctxLoopLevel (r : Request) : Int := r.ctx.LoopLevel

/-- `ctxLoopLevelLimit`: the value under `LoopLevelLimit`, `0` when never set. -/
def ctxLoopLevelLimit (r : Request) : Int := r.ctx.LoopLevelLimit

/-- The text `fmt.Errorf` gives the loop error for a limit. -/
def loopLevelError (limit : Int) : Str :=
  "Loop level too deep. Found more than ".toList ++ (toString limit).toList ++
    " loops in single request".toList

/-- `isLoop`: whether the request is a loop, and the error when it is too deep. -/
def isLoop (r : Request) : Bool × Option Str :=
  if r.URL.Scheme ≠ "tyk".toList then (false, none)
  else
    let limit := ctxLoopLevelLimit r
    let limit := if limit = 0 then defaultLoopLevelLimit else limit
    if ctxLoopLevel r > limit then (true, some (loopLevelError limit))
    else (true, none)

/-- `trimCategories`: `name[:i-1]` for the first `#` at index `i`; the slice
bound `-1` for `i = 0` is a run-time panic (`none`). -/
def trimCategories (name : Str) : Option Str :=
  match name.indexOf? '#' with
  | some i => if i = 0 then none else some (name.take (i - 1))
  | none => some name

/-- An entry of the register `apisByID`: what `fuzzyFindAPI` compares an API
with (`IdHex` is `api.Id.Hex()`) and whether its `middlewareChain` is set.
`loadApps` stores the handler of the chain object there and keeps every spec in
the register, so the chain of a spec skipped as invalid is nil (`false`). -/
structure LoadedAPI where
  Spec : APISpec := {}
  IdHex : Str := []
  middlewareChain : Bool := true
  deriving DecidableEq

/-- The loop of `fuzzyFindAPI` over `apisByID` (in the order the map yields
them); `normalize` is `replaceNonAlphaNumeric`.  The outer `none` is the panic
of `trimCategories`. -/
def fuzzyFindLoop (normalize : Str → Str) (search : Str) :
    List LoadedAPI → Option (Option LoadedAPI)
  | [] => some none
  | api :: rest =>
    if api.Spec.APIID = search ∨ api.IdHex = search then some (some api)
    else
      match trimCategories api.Spec.Name with
      | none => none
      | some name =>
        if normalize name = search then some (some api)
        else fuzzyFindLoop normalize search rest

/-- `fuzzyFindAPI`. -/
def fuzzyFindAPI (normalize : Str → Str) (apisByID : List LoadedAPI) (search : Str) :
    Option (Option LoadedAPI) :=
  if search = [] then some none else fuzzyFindLoop normalize search apisByID

/-- `URL.Hostname()`: the host without its port (`stripPort` of `net/url`). -/
def URL.Hostname (u : URL) : Str :=
  match u.Host.indexOf? ':' with
  | none => u.Host
  | some colon =>
    match u.Host.indexOf? ']' with
    | some i => TrimPrefix (u.Host.take i) ['[']
    | none => u.Host.take colon

/-- `URL.Query().Get(key)`: the first value of the key, `""` when absent. -/
def URL.QueryGet (u : URL) (key : Str) : Str :=
  match u.Query.find? (fun kv => kv.1 = key) with
  | some kv => kv.2
  | none => []

/-- The digit loop of `strconv.ParseUint` for base 10 and 64 bits, `n` being
the value so far: `none` is the syntax error at a byte that is no digit, and
`2 ^ 64 - 1` the result of the range error, which is returned at the first digit
that takes the value above it, whatever follows. -/
def parseUintLoop : Str → Nat → Option Nat
  | [], n => some n
  | c :: s, n =>
    if c.isDigit then
      if n * 10 + (c.toNat - 48) > 2 ^ 64 - 1 then some (2 ^ 64 - 1)
      else parseUintLoop s (n * 10 + (c.toNat - 48))
    else none

/-- `strconv.Atoi` with the error dropped, as `ServeHTTP` calls it: `0` for a
text that is no numeral, the nearest `int` for one that is out of range. -/
def AtoiOrZero (s : Str) : Int :=
  let (neg, body) :=
    match s with
    | '-' :: t => (true, t)
    | '+' :: t => (false, t)
    | t => (false, t)
  if body = [] then 0
  else
    match parseUintLoop body 0 with
    | none => 0
    | some n =>
      if neg then (if n > 2 ^ 63 then -(2 ^ 63 : Int) else -(n : Int))
      else (if n > 2 ^ 63 - 1 then (2 ^ 63 - 1 : Int) else (n : Int))

/-- `ctxSetVersionInfo`: the version binding of the request. -/
def ctxSetVersionInfo (r : Request) (v : Option Str) : Request :=
  { r with ctx := { r.ctx with VersionData := v } }

/-- `ctxSetCheckLoopLimits`. -/
def ctxSetCheckLoopLimits (r : Request) (b : Bool) : Request :=
  { r with ctx := { r.ctx with CheckLoopLimits := b } }

/-- `ctxGetOrigRequestURL`. -/
def ctxGetOrigRequestURL (r : Request) : Option URL := r.ctx.OrigRequestURL

/-- `ctxSetOrigRequestURL`. -/
def ctxSetOrigRequestURL (r : Request) (u : Option URL) : Request :=
  { r with ctx := { r.ctx with OrigRequestURL := u } }

/-- Modelled from the spec: `ctxIncLoopLevel` is not among the sources.  The
spec has the dispatcher "increment loop depth" and the `loop_limit` parameter
"override" the depth ceiling: a limit given in the URL becomes the ceiling in
the context, without one (`0`, which is what `ServeHTTP` passes then) the
ceiling of the context stays as it is, and the depth grows by one. -/
def ctxIncLoopLevel (r : Request) (loopLimit : Int) : Request :=
  { r with
    ctx :=
      { r.ctx with
        LoopLevelLimit := if loopLimit = 0 then r.ctx.LoopLevelLimit else loopLimit,
        LoopLevel := r.ctx.LoopLevel + 1 } }

/-- `DummyProxyHandler`: the API it ends the chain of (`d.SH.Spec`) and whether
the `middlewareChain` of that API is set, with the register `apisByID` and
`replaceNonAlphaNumeric` that `fuzzyFindAPI` uses. -/
structure DummyProxyHandler where
  Spec : APISpec := {}
  middlewareChain : Bool := true
  apisByID : List LoadedAPI := []
  replaceNonAlphaNumeric : Str → Str := fun s => s

/-- What `ServeHTTP` does with the request. -/
inductive Served
  /-- `ErrorHandler.HandleError` with a message and a status; no chain runs. -/
  | error (msg : Str) (code : Nat) (r : Request)
  /-- The middleware chain of an API is handed the request. -/
  | chain (target : APISpec) (r : Request)
  /-- The success handler forwards the request upstream. -/
  | proxied (r : Request)
  /-- A run-time panic. -/
  | crashed
  deriving DecidableEq

/-- The tail of `ServeHTTP` once the handler is chosen, `middlewareChain` saying
whether the chain of the target is set: the limits of the URL are read, the
original host and query restored, the depth incremented and the request handed
to the chain; `handler.ServeHTTP` on a nil chain is a run-time panic. -/
def loopDispatch (target : APISpec) (middlewareChain : Bool) (r : Request) : Served :=
  let loopLevelLimit := AtoiOrZero (r.URL.QueryGet "loop_limit".toList)
  let r := ctxSetCheckLoopLimits r
    (decide (r.URL.QueryGet "check_limits".toList = "true".toList))
  let r :=
    match ctxGetOrigRequestURL r with
    | some origURL =>
      ctxSetOrigRequestURL
        { r with URL := { r.URL with Host := origURL.Host, Query := origURL.Query } } none
    | none => r
  let r := ctxIncLoopLevel r loopLevelLimit
  if middlewareChain then .chain target r else .crashed

/-- The start of the loop branch of `ServeHTTP`: the scheme becomes `http` and
the `method` parameter, when given, replaces the method. -/
def loopRewrite (r : Request) : Request :=
  let r := { r with URL := { r.URL with Scheme := "http".toList } }
  let methodOverride := r.URL.QueryGet "method".toList
  if methodOverride ≠ [] then { r with Method := methodOverride } else r

/-- `DummyProxyHandler.ServeHTTP`. -/
def DummyProxyHandler.ServeHTTP (d : DummyProxyHandler) (r : Request) : Served :=
  match isLoop r with
  | (true, some err) => .error err StatusInternalServerError r
  | (true, none) =>
    let r := loopRewrite r
    if r.URL.Hostname = "self".toList then loopDispatch d.Spec d.middlewareChain r
    else
      let r := ctxSetVersionInfo r none
      match fuzzyFindAPI d.replaceNonAlphaNumeric d.apisByID r.URL.Hostname with
      | none => .crashed
      | some (some targetAPI) => loopDispatch targetAPI.Spec targetAPI.middlewareChain r
      | some none => .error "Can't detect loop target".toList StatusInternalServerError r
  | (false, _) => .proxied r

/-! ## `api_loader.go`: loading the API definitions -/

/-- `ChainObject`, the handler standing for the API whose chain it is: `Spec`
is the spec as `processSpec` leaves it, `ThisHandler` the chain built for it
(`none` is the nil handler). -/
structure ChainObject where
  Domain : Str := []
  ListenOn : Str := []
  ThisHandler : Option APISpec := none
  RateLimitPath : Str := []
  Open : Bool := false
  Skip : Bool := false
  Subrouter : Str := []
  Spec : APISpec := {}
  deriving DecidableEq

/-- `skipSpecBecauseInvalid`; `urlParseOk` says whether `url.Parse` accepts the
target URL. -/
def skipSpecBecauseInvalid (urlParseOk : Str → Bool) (spec : APISpec) : Bool :=
  if spec.ListenPath = [] then true
  else if ' ' ∈ spec.ListenPath then true
  else if urlParseOk spec.TargetURL = false then true
  else false

/-- `generateDomainPath`. -/
def generateDomainPath (hostname listenPath : Str) : Str := hostname ++ listenPath

/-- `count[key]` of a Go `map[string]int`: `0` for a key that is absent. -/
def mapGet (count : List (Str × Nat)) (key : Str) : Nat :=
  match count.find? (fun kv => kv.1 = key) with
  | some kv => kv.2
  | none => 0

/-- `count[key]++`. -/
def mapIncr : List (Str × Nat) → Str → List (Str × Nat)
  | [], key => [(key, 1)]
  | (k, n) :: rest, key =>
    if k = key then (k, n + 1) :: rest else (k, n) :: mapIncr rest key

/-- `countApisByListenHash`. -/
def countApisByListenHash (specs : List APISpec) : List (Str × Nat) :=
  specs.foldl (fun count spec =>
    mapIncr count (generateDomainPath spec.Domain spec.ListenPath)) []

/-- `getApiSpec`: the spec registered under the API id, if any. -/
def getApiSpec (apisByID : List LoadedAPI) (apiID : Str) : Option APISpec :=
  (apisByID.find? (fun api => api.Spec.APIID = apiID)).map (fun api => api.Spec)

/-- The test `prev != nil && prev.Proxy.ListenPath == spec.Proxy.ListenPath`. -/
def prevHasListenPath (prev : Option APISpec) (listenPath : Str) : Bool :=
  match prev with
  | some p => decide (p.ListenPath = listenPath)
  | none => false

/-- The collision loop of `processSpec`, run for at most `fuel` turns: the
listen path it ends with, `none` when the turns run out. -/
def collisionLoop (apisByListen : List (Str × Nat)) (prev : Option APISpec)
    (domain apiID : Str) : Nat → Bool → Str → Option Str
  | 0, _, _ => none
  | fuel + 1, pathModified, listenPath =>
    if mapGet apisByListen (generateDomainPath domain listenPath) < 2 then some listenPath
    else if pathModified = false then
      if prevHasListenPath prev listenPath then some listenPath
      else collisionLoop apisByListen prev domain apiID fuel true
        (listenPath ++ '-' :: apiID)
    else collisionLoop apisByListen prev domain apiID fuel true (listenPath ++ ['_'])

/-- The length of the longest key of the map. -/
def maxKeyLength (count : List (Str × Nat)) : Nat :=
  count.foldr (fun kv acc => max kv.1.length acc) 0

/-- The listen path the collision loop of `processSpec` ends with.  The loop
stops at the latest once the path is longer than every key of the map, so the
turns given here are never used up (`collisionLoop_terminates`). -/
def resolveListenPath (apisByListen : List (Str × Nat)) (apisByID : List LoadedAPI)
    (spec : APISpec) : Str :=
  (collisionLoop apisByListen (getApiSpec apisByID spec.APIID) spec.Domain spec.APIID
    (maxKeyLength apisByListen + 2) false spec.ListenPath).getD spec.ListenPath

/-- `processSpec`, as far as routing goes: the chain object, whose `Spec` is
the spec with the listen path the loop gave it. -/
def processSpec (urlParseOk : Str → Bool) (apisByID : List LoadedAPI) (spec : APISpec)
    (apisByListen : List (Str × Nat)) (subrouter : Str) : ChainObject :=
  if skipSpecBecauseInvalid urlParseOk spec then
    { Subrouter := subrouter, Skip := true, Spec := spec }
  else
    let spec := { spec with ListenPath := resolveListenPath apisByListen apisByID spec }
    { Subrouter := subrouter
      Skip := spec.Internal
      Open := spec.UseKeylessAccess
      RateLimitPath :=
        if spec.UseKeylessAccess then [] else spec.ListenPath ++ "tyk/rate-limits/".toList
      ThisHandler := some spec
      ListenOn := spec.ListenPath ++ "\x7brest:.*\x7d".toList
      Domain := spec.Domain
      Spec := spec }

/-- The `less` of the first `sort.Slice` of `loadApps`, as an order: a longer
listen path comes first. -/
def longerListenPath (a b : APISpec) : Prop := a.ListenPath.length ≥ b.ListenPath.length

instance : DecidableRel longerListenPath := fun a b =>
  inferInstanceAs (Decidable (a.ListenPath.length ≥ b.ListenPath.length))

/-- `sort.Slice` by listen path, longer first.  The library leaves the order of
paths of equal length open; here they keep their order. -/
def sortByListenPath (specs : List APISpec) : List APISpec :=
  specs.insertionSort longerListenPath

/-- The router a spec is loaded on: the sub-router of its domain when custom
domains are enabled (`hostRouters[spec.Domain]`), else the root router `""`. -/
def routerFor (enableCustomDomains : Bool) (spec : APISpec) : Str :=
  if enableCustomDomains then spec.Domain else []

/-- The second loop of `loadApps`, over the sorted specs: each spec with the
chain object `processSpec` gives it (`loadList`). -/
def loadList (urlParseOk : Str → Bool) (enableCustomDomains : Bool)
    (apisByID : List LoadedAPI) (specs : List APISpec) : List (APISpec × ChainObject) :=
  let apisByListen := countApisByListenHash specs
  specs.map (fun spec =>
    (spec, processSpec urlParseOk apisByID spec apisByListen
      (routerFor enableCustomDomains spec)))

/-- A route of a router: a path template and the handler of a chain object. -/
structure Route where
  Router : Str := []
  Template : Str := []
  RateLimit : Bool := false
  Handler : ChainObject := {}
  deriving DecidableEq

/-- The last loop of `loadApps`: the routes registered, in order; a skipped
chain object registers none, one that is not open registers its rate-limit path
first. -/
def registerRoutes : List ChainObject → List Route
  | [] => []
  | chainObj :: rest =>
    if chainObj.Skip then registerRoutes rest
    else
      let main : Route :=
        { Router := chainObj.Subrouter, Template := chainObj.ListenOn, Handler := chainObj }
      if chainObj.Open then main :: registerRoutes rest
      else
        { Router := chainObj.Subrouter, Template := chainObj.RateLimitPath, RateLimit := true,
          Handler := chainObj } :: main :: registerRoutes rest

/-- `loadApps` on specs already in the order the sort left them: the routes
registered. -/
def loadAppsSorted (urlParseOk : Str → Bool) (enableCustomDomains : Bool)
    (apisByID : List LoadedAPI) (specs : List APISpec) : List Route :=
  registerRoutes ((loadList urlParseOk enableCustomDomains apisByID specs).map (fun p => p.2))

/-- `loadApps`: the routes registered for a list of specs, `apisByID` being the
register of the specs loaded before. -/
def loadApps (urlParseOk : Str → Bool) (enableCustomDomains : Bool)
    (apisByID : List LoadedAPI) (specs : List APISpec) : List Route :=
  loadAppsSorted urlParseOk enableCustomDomains apisByID (sortByListenPath specs)

/-- The listen paths registered on a router, in registration order (the
templates without the catch-all). -/
def registeredPaths (routes : List Route) (router : Str) : List Str :=
  (routes.filter (fun rt => rt.Router = router ∧ rt.RateLimit = false)).map
    (fun rt => rt.Handler.Spec.ListenPath)

/-- Whether a route takes a request path: the catch-all `{rest:.*}` after the
listen path takes every path the listen path starts, the rate-limit path only
itself. -/
def Route.takes (rt : Route) (path : Str) : Bool :=
  if rt.RateLimit then decide (rt.Template = path)
  else rt.Handler.Spec.ListenPath.isPrefixOf path

/-- The router's choice: the first route registered on it that takes the path. -/
def routeRequest (routes : List Route) (router path : Str) : Option Route :=
  (routes.filter (fun rt => rt.Router = router)).find? (fun rt => rt.takes path)

/-- A valid spec on the default host for the concrete runs. -/
def sampleSpec (apiID listenPath : String) : APISpec :=
  { APIID := apiID.toList, ListenPath := listenPath.toList,
    TargetURL := "http://upstream".toList }

/-- The routes `loadApps` registers for the specs with nothing loaded before,
custom domains enabled and every target URL accepted. -/
def sampleLoad (specs : List APISpec) : List Route :=
  loadApps (fun _ => true) true [] specs

instance : IsTotal APISpec longerListenPath :=
  ⟨fun a b => Nat.le_total b.ListenPath.length a.ListenPath.length⟩

instance : IsTrans APISpec longerListenPath :=
  ⟨fun _ _ _ hab hbc => Nat.le_trans hbc hab⟩

/-! ## `mw_oauth2_key_exists.go` -/

/-- `checkOAuthClientDeletedInetrval`, one second, in nanoseconds. -/
def checkOAuthClientDeletedInetrval : Int := 1000000000

/-- An entry of the utility cache: the flag stored and the instant it expires
(`UnixNano`), `0` for an entry that never expires. -/
structure CacheItem where
  Object : Bool := false
  Expiration : Int := 0
  deriving DecidableEq, Repr

/-- Modelled from the spec: `UtilCache` is not among the sources.  The spec has
it "a thread-safe map with per-entry TTL"; the entries written here are flags. -/
abbrev UtilCache := List (Str × CacheItem)

/-- Modelled from the spec: `UtilCache.Get` at the instant `now`, an entry past
its expiry not being found. -/
def UtilCache.Get (c : UtilCache) (now : Int) (key : Str) : Option Bool :=
  match c.find? (fun kv => kv.1 = key) with
  | some kv =>
    if kv.2.Expiration > 0 ∧ now > kv.2.Expiration then none else some kv.2.Object
  | none => none

/-- Modelled from the spec: `UtilCache.Set(key, value, d)` at the instant `now`:
the entry replaces the one of the key; a negative `d` is no expiry, a positive
one expires `d` after `now`. -/
def UtilCache.Set (c : UtilCache) (now : Int) (key : Str) (value : Bool) (d : Int) :
    UtilCache :=
  (key, { Object := value, Expiration := if d > 0 then now + d else 0 }) ::
    c.filter (fun kv => kv.1 ≠ key)

/-- `Oauth2KeyExists`: the base and `OAuthManager.OsinServer.Storage.GetClient`,
which yields the client or an error. -/
structure Oauth2KeyExists extends BaseMiddleware where
  GetClient : Str → Except Str Unit := fun _ => .ok ()

/-- What one run of `Oauth2KeyExists.ProcessRequest` leaves: the result, the
request, the utility cache, and the client ids `GetClient` was called with. -/
structure OAuthRun where
  result : Result
  request : Request
  cache : UtilCache
  getClientCalls : List Str

/-- The key of the "client deleted" flag: `"oauth-del-" + apiID + clientID`. -/
def oauthClientDeletedKey (k : Oauth2KeyExists) (session : SessionState) : Str :=
  "oauth-del-".toList ++ k.Spec.APIID ++ session.OauthClientID

/-- The check of `ProcessRequest` that the OAuth client is still present: the
flag `oauthClientDeleted`, the cache as it is left, and the calls of `GetClient`. -/
def oauthClientDeletedCheck (k : Oauth2KeyExists) (cache : UtilCache) (now : Int)
    (session : SessionState) : Bool × UtilCache × List Str :=
  match UtilCache.Get cache now (oauthClientDeletedKey k session) with
  | some val => (val, cache, [])
  | none =>
    match k.GetClient session.OauthClientID with
    | .error _ =>
      (true, UtilCache.Set cache now (oauthClientDeletedKey k session) true (-1),
        [session.OauthClientID])
    | .ok _ =>
      (false,
        UtilCache.Set cache now (oauthClientDeletedKey k session) false
          checkOAuthClientDeletedInetrval,
        [session.OauthClientID])

/-- `Oauth2KeyExists.ProcessRequest`, at the instant `now`. -/
def Oauth2KeyExists.ProcessRequest (k : Oauth2KeyExists) (cache : UtilCache) (now : Int)
    (r : Request) : OAuthRun :=
  let token := r.HeaderGet "Authorization".toList
  let parts := Split ' ' token
  match parts with
  | part0 :: accessToken :: _ =>
    if ToLower part0 ≠ "bearer".toList then
      ⟨(some "Bearer token malformed".toList, StatusBadRequest), r, cache, []⟩
    else
      match k.CheckSessionAndIdentityForValidKey accessToken with
      | none => ⟨(some "Key not authorised".toList, StatusForbidden), r, cache, []⟩
      | some session =>
        let check := oauthClientDeletedCheck k cache now session
        if check.1 then
          ⟨(some "Key not authorised. OAuth client access was revoked".toList, StatusForbidden),
            r, check.2.1, check.2.2⟩
        else if k.Spec.BaseIdentityProvidedBy = OAuthKey ∨
            k.Spec.BaseIdentityProvidedBy = UnsetAuth then
          ⟨(none, StatusOK), setSessionValue k.HashKey r session accessToken false,
            check.2.1, check.2.2⟩
        else ⟨(none, StatusOK), r, check.2.1, check.2.2⟩
  | _ => ⟨(some "Authorization field missing".toList, StatusBadRequest), r, cache, []⟩

/-! ## Basic and standard-token authentication -/

/-- `http.StatusUnauthorized`. -/
def StatusUnauthorized : Nat := 401

/-- Modelled from the spec: `BasicAuthKeyIsValid` and `AuthKey` are not among
the sources.  The spec has them "follow the same shape: parse header, verify
credential, bind session", each scheme writing its session to the context only
when `base_identity_provided_by` names it or is unset, and failing with its own
status.  `verified` is the session and key the credential of the request was
verified for, `none` when it was not. -/
def schemeProcessRequest (base : BaseMiddleware) (scheme : Str) (failStatus : Nat)
    (verified : Option (SessionState × Str)) (r : Request) : Result × Request :=
  match verified with
  | none => ((some "Key not authorised".toList, failStatus), r)
  | some (session, key) =>
    if base.Spec.BaseIdentityProvidedBy = scheme ∨ base.Spec.BaseIdentityProvidedBy = UnsetAuth
    then ((none, StatusOK), setSessionValue base.HashKey r session key false)
    else ((none, StatusOK), r)

/-- Modelled from the spec: the Basic processor. -/
def basicAuthProcessRequest (base : BaseMiddleware) (verified : Option (SessionState × Str))
    (r : Request) : Result × Request :=
  schemeProcessRequest base BasicAuthUser StatusUnauthorized verified r

/-- Modelled from the spec: the standard-token processor. -/
def authKeyProcessRequest (base : BaseMiddleware) (verified : Option (SessionState × Str))
    (r : Request) : Result × Request :=
  schemeProcessRequest base AuthTokenType StatusForbidden verified r

/-- The session as `ctxSetSession` stores it for a token: the key hash is
filled in when it was empty. -/
def withKeyHash (hashKey : Str → Str) (s : SessionState) (token : Str) : SessionState :=
  if s.KeyHash = [] then { s with KeyHash := hashKey token } else s

/-- An OAuth2 middleware for the concrete runs: API `api`, one bearer token
`tok` whose session belongs to the client `cl`, and a client storage that has
lost the client. -/
def sampleOAuth : Oauth2KeyExists :=
  { Spec := { APIID := "api".toList }
    CheckSessionAndIdentityForValidKey := fun key =>
      if key = "tok".toList then some { OauthClientID := "cl".toList } else none
    GetClient := fun _ => .error "not found".toList }

/-- A request carrying the bearer token. -/
def sampleBearer (token : String) : Request :=
  { Method := "GET".toList, URL := { Path := "/a".toList },
    Header := [("Authorization".toList, "Bearer ".toList ++ token.toList)] }

set_option maxRecDepth 100000

/-! ## Runs of the OAuth2 key check over time -/

/-- Requests served one after the other through the same utility cache: each
step names the middleware (with the client storage as it is then), the instant
and the request; the runs come out in order. -/
def oauthTrace (cache : UtilCache) : List (Oauth2KeyExists × Int × Request) → List OAuthRun
  | [] => []
  | step :: rest =>
    (step.1.ProcessRequest cache step.2.1 step.2.2) ::
      oauthTrace (step.1.ProcessRequest cache step.2.1 step.2.2).cache rest

/-- The cache holds the flag true under the key at every instant: the entry is
there and does not expire. -/
def heldDeleted (cache : UtilCache) (key : Str) : Prop :=
  ∀ t, UtilCache.Get cache t key = some true

/-- An OAuth2 middleware like `sampleOAuth` whose client storage answers with
the given result. -/
def sampleOAuthWith (getClient : Except Str Unit) : Oauth2KeyExists :=
  { sampleOAuth with GetClient := fun _ => getClient }

deriving instance DecidableEq for Except

/-- A middleware like `sampleHMAC` that admits only the given algorithms. -/
def sampleHMACAllowing (secret : Str) (algorithms : List Str) : HMACMiddleware :=
  { sampleHMAC secret with Spec := { HmacAllowedAlgorithms := algorithms } }

/-! ## Wording of the canonical signing string -/

/-- The line of the signing string for the date: the auxiliary header under its
own name when it is there, else the `Date` header, else a line with neither name
nor value. -/
def dateLine (r : Request) : Str :=
  if r.HeaderGet "x-aux-date".toList ≠ [] then
    "x-aux-date: ".toList ++ TrimSpace (r.HeaderGet "x-aux-date".toList)
  else if r.HeaderGet "Date".toList ≠ [] then
    "date: ".toList ++ TrimSpace (r.HeaderGet "Date".toList)
  else ": ".toList

/-- The line of the signing string for one header name, read in lower case and
without surrounding white space. -/
def canonicalLine (r : Request) (header : Str) : Str :=
  if TrimSpace (ToLower header) = "(request-target)".toList then
    "(request-target): ".toList ++ ToLower r.Method ++ " ".toList ++ r.URL.Path
  else if TrimSpace (ToLower header) = "date".toList then dateLine r
  else TrimSpace (ToLower header) ++ ": ".toList ++
    TrimSpace (r.HeaderGet (TrimSpace (ToLower header)))

/-- A request with a `Date` header and the auxiliary date header. -/
def sampleAuxRequest : Request :=
  { Method := "GET".toList, URL := { Path := "/a".toList },
    Header := [("Date".toList, sampleDate),
      ("X-Aux-Date".toList, "Tue, 03 Jan 2006 15:04:05 MST".toList)] }

/-! ## The fields of a `Signature` header, in the words of the specification -/

/-- The field names a `Signature` header may carry, in lower case. -/
def fieldNames : List Str :=
  ["keyid".toList, "algorithm".toList, "headers".toList, "signature".toList]

/-- Specification wording: the element splits on `=` into exactly two parts. -/
def splitsInTwo (element : Str) : Prop := (Split '=' element).length = 2

instance (element : Str) : Decidable (splitsInTwo element) := by
  unfold splitsInTwo
  infer_instance

/-- Specification wording: the lower-cased text before the `=` of an element. -/
def keyText (element : Str) : Str := ToLower ((Split '=' element).headD [])

/-- Specification wording: the value of an element, the text after its `=`
with leading and trailing double quotes removed. -/
def valueText (element : Str) : Str := Trim ((Split '=' element).getD 1 []) '"'

/-- Specification wording: the last of the elements carrying the key. -/
def lastCarrying (key : Str) (elements : List Str) : Option Str :=
  (elements.filter (fun e => decide (keyText e = key))).getLast?

/-- Specification wording: the value of the last element carrying the key,
empty if no element carries it. -/
def lastValue (key : Str) (elements : List Str) : Str :=
  ((lastCarrying key elements).map valueText).getD []

/-- A middleware with a clock-skew limit of 9 000 000 000 000 ms (some 285
years) whose `time.Parse` reads `Fri, 01 Jan 1700 00:00:00 GMT` as the instant
−8 520 336 000 s, in nanoseconds. -/
def sampleOldDateHMAC : HMACMiddleware :=
  { Spec := { HmacAllowedClockSkew := 9000000000000 }
    timeParse := fun _ v =>
      if v = "Fri, 01 Jan 1700 00:00:00 GMT".toList then some (-8520336000000000000) else none }

/-! ## Nested loop dispatches -/

/-- A sequence of nested loop dispatches: at each stage the chain that was
handed the request turns it into the next loop request (`rewrite`, the work of
its middleware) and its `DummyProxyHandler` serves that; the list holds the
requests handed to a target chain, in order, and ends at the first stage that
hands none on. -/
def nestedDispatches : List ((Request → Request) × DummyProxyHandler) → Request → List Request
  | [], _ => []
  | (rewrite, d) :: rest, r =>
    match d.ServeHTTP (rewrite r) with
    | .chain _ r2 => r2 :: nestedDispatches rest r2
    | _ => []

/-- The loop request `tyk://self/a?loop_limit=0` at depth 0, no limit in its
context. -/
def sampleLoopZero : Request :=
  { Method := "GET".toList,
    URL :=
      { Scheme := "tyk".toList, Host := "self".toList, Path := "/a".toList,
        Query := [("loop_limit".toList, "0".toList)] } }

/-- The loop request `tyk://self/a` with the version `v1` bound in its context. -/
def sampleLoopVersioned : Request :=
  { Method := "GET".toList,
    URL := { Scheme := "tyk".toList, Host := "self".toList, Path := "/a".toList },
    ctx := { VersionData := some "v1".toList } }

/-- The rewrite of a chain that loops to `tyk://self/a` again. -/
def sampleLoopAgain (r : Request) : Request :=
  { r with URL := { r.URL with Scheme := "tyk".toList, Host := "self".toList } }

/-- `len(count)` of a Go `map[string]int`: the number of its keys. -/
def mapLen (count : List (Str × Nat)) : Nat := (count.map Prod.fst).dedup.length

/-! ## `api_loader.go`: the host sub-routers -/

/-- The comparison `s < t` of two Go strings: byte by byte, a proper prefix
coming first. -/
def strLess : Str → Str → Bool
  | [], [] => false
  | [], _ :: _ => true
  | _ :: _, [] => false
  | a :: s, b :: t =>
    if a.toNat < b.toNat then true
    else if b.toNat < a.toNat then false
    else strLess s t

/-- The `less` of the second `sort.Slice` of `loadApps`: a longer host comes
first, and of two hosts of one length the greater (`h1 > h2`). -/
def hostLess (h1 h2 : Str) : Prop :=
  if h1.length ≠ h2.length then h1.length > h2.length else strLess h2 h1 = true

instance : DecidableRel hostLess := fun h1 h2 => by
  unfold hostLess
  infer_instance

/-- The order `sort.Slice` leaves two hosts in: the second is not less than the
first. -/
def hostBefore (h1 h2 : Str) : Prop := ¬ hostLess h2 h1

instance : DecidableRel hostBefore := fun h1 h2 => by
  unfold hostBefore
  infer_instance

/-- `sort.Slice(hosts, ...)`. -/
def sortHosts (hosts : List Str) : List Str := hosts.insertionSort hostBefore

/-- The loop of `loadApps` over the sorted hosts: the hosts a sub-router is
created for (`muxer.Host(host).Subrouter()`), in order; `hostRouters` holds the
keys of the map of that name. -/
def createHostRouters (enableCustomDomains : Bool) : List Str → List Str → List Str
  | [], _ => []
  | host :: rest, hostRouters =>
    if enableCustomDomains = false then createHostRouters enableCustomDomains rest hostRouters
    else if host ∈ hostRouters then createHostRouters enableCustomDomains rest hostRouters
    else host :: createHostRouters enableCustomDomains rest (host :: hostRouters)

/-- The host sub-routers `loadApps` creates for a list of specs, in the order of
creation: `hosts` is filled from the specs as the first sort left them, and the
map starts with the root router under the empty host. -/
def hostSubRouters (enableCustomDomains : Bool) (specs : List APISpec) : List Str :=
  createHostRouters enableCustomDomains
    (sortHosts ((sortByListenPath specs).map (fun spec => spec.Domain))) [[]]

/-! ## `api_loader.go`: the auth sub-chain -/

/-- The processors `processSpec` may append to `authArray`: `Oauth2KeyExists`,
`BasicAuthKeyIsValid`, `HMACMiddleware`, `JWTMiddleware`, `OpenIDMW`, the
`CoProcessMiddleware` of the hook `CustomKeyCheck`, the dynamic (JS) middleware
of `createDynamicMiddleware`, `GoPluginMiddleware` and `AuthKey`. -/
inductive AuthProcessor
  | oauth2
  | basic
  | hmac
  | jwt
  | openID
  | coprocess
  | dynamic
  | goplugin
  | authKey
  deriving DecidableEq, Repr

/-- What `processSpec` reads beside the spec when it builds `authArray`: the
package variable `EnableCoProcess`, the driver `loadCustomMiddleware` returned,
the constants `apidef.OttoDriver` and `apidef.GoPluginDriver`, and
`EnabledForSpec()` of the processors whose code is not among the sources (of
`CoProcessMiddleware` the build without coprocess support, which is the one
among the sources, returns false). -/
structure AuthSetup where
  EnableCoProcess : Bool := false
  mwDriver : Str := []
  OttoDriver : Str := "otto".toList
  GoPluginDriver : Str := "goplugin".toList
  enabledForSpec : AuthProcessor → Bool := fun _ => false

/-- `EnabledForSpec()` of a processor: `Oauth2KeyExists` and `HMACMiddleware`
read the spec. -/
def EnabledForSpec (setup : AuthSetup) (spec : APISpec) : AuthProcessor → Bool
  | .oauth2 => spec.UseOauth2
  | .hmac => spec.EnableSignatureChecking
  | mw => setup.enabledForSpec mw

/-- Modelled from the spec: `mwAppendEnabled` is not among the sources.  The
spec has the multiplexer "append each enabled processor to the auth sub-chain":
the processor is appended when it is enabled for the spec, and the result says
whether it was (`processSpec` logs the policy when it is true). -/
def mwAppendEnabled (chain : List AuthProcessor) (mw : AuthProcessor) (enabled : Bool) :
    List AuthProcessor × Bool :=
  if enabled then (chain ++ [mw], true) else (chain, false)

/-- The `authArray` of `processSpec`: empty for a keyless spec, for which the
block that fills it is not run. -/
def authArray (setup : AuthSetup) (spec : APISpec) : List AuthProcessor :=
  if spec.UseKeylessAccess then []
  else
    let authArray : List AuthProcessor := []
    let authArray := (mwAppendEnabled authArray .oauth2 (EnabledForSpec setup spec .oauth2)).1
    let authArray := (mwAppendEnabled authArray .basic (EnabledForSpec setup spec .basic)).1
    let authArray := (mwAppendEnabled authArray .hmac (EnabledForSpec setup spec .hmac)).1
    let authArray := (mwAppendEnabled authArray .jwt (EnabledForSpec setup spec .jwt)).1
    let authArray := (mwAppendEnabled authArray .openID (EnabledForSpec setup spec .openID)).1
    let coprocessAuth :=
      setup.EnableCoProcess && (setup.mwDriver != setup.OttoDriver) && spec.EnableCoProcessAuth
    let ottoAuth :=
      !coprocessAuth && (setup.mwDriver == setup.OttoDriver) && spec.EnableCoProcessAuth
    let gopluginAuth :=
      !coprocessAuth && !ottoAuth && (setup.mwDriver == setup.GoPluginDriver) &&
        spec.UseGoPluginAuth
    let authArray :=
      if coprocessAuth then
        (mwAppendEnabled authArray .coprocess (EnabledForSpec setup spec .coprocess)).1
      else authArray
    let authArray := if ottoAuth then authArray ++ [.dynamic] else authArray
    let authArray :=
      if gopluginAuth then
        (mwAppendEnabled authArray .goplugin (EnabledForSpec setup spec .goplugin)).1
      else authArray
    if spec.UseStandardAuth || authArray.length == 0 then authArray ++ [.authKey]
    else authArray

/-- The places of the fixed order of the specification. -/
inductive AuthSlot
  | OAuth2
  | Basic
  | HMAC
  | JWT
  | OpenID
  | customKeyCheck
  | standardToken
  deriving DecidableEq, Repr

/-- The fixed order of the specification: OAuth2, Basic, HMAC, JWT, OpenID,
custom key-check hook, standard token. -/
def fixedOrder : List AuthSlot :=
  [.OAuth2, .Basic, .HMAC, .JWT, .OpenID, .customKeyCheck, .standardToken]

/-- The place of a processor in the fixed order; the coprocess, the scripted
and the native hook are the three custom key-check hooks. -/
def AuthProcessor.slot : AuthProcessor → AuthSlot
  | .oauth2 => .OAuth2
  | .basic => .Basic
  | .hmac => .HMAC
  | .jwt => .JWT
  | .openID => .OpenID
  | .coprocess => .customKeyCheck
  | .dynamic => .customKeyCheck
  | .goplugin => .customKeyCheck
  | .authKey => .standardToken

/-! # Theorems -/

/-! ## Bytes of the escape pattern -/

/-- The bytes of the class `[a-f0-9]`. -/
theorem isLowerHex_mem {x : Char} (h : isLowerHex x = true) :
    x ∈ "0123456789abcdef".toList := by
  simp only [isLowerHex, Bool.or_eq_true, Bool.and_eq_true, decide_eq_true_eq] at h
  rw [← Char.ofNat_toNat x]
  rcases h with ⟨h1, h2⟩ | ⟨h1, h2⟩
  · generalize x.toNat = n at h1 h2
    interval_cases n <;> decide
  · generalize x.toNat = n at h1 h2
    interval_cases n <;> decide

theorem lowerHex_ne_percent {x : Char} (h : isLowerHex x = true) : x ≠ '%' := by
  have key : ∀ c ∈ "0123456789abcdef".toList, c ≠ '%' := by decide
  exact key x (isLowerHex_mem h)

theorem lowerHex_upper_ne_percent {x : Char} (h : isLowerHex x = true) : x.toUpper ≠ '%' := by
  have key : ∀ c ∈ "0123456789abcdef".toList, c.toUpper ≠ '%' := by decide
  exact key x (isLowerHex_mem h)

theorem lowerHex_upper_fix {x : Char} (h : isLowerHex x = true)
    (hu : isLowerHex x.toUpper = true) : x.toUpper = x := by
  have key : ∀ c ∈ "0123456789abcdef".toList, isLowerHex c.toUpper = true → c.toUpper = c := by
    decide
  exact key x (isLowerHex_mem h) hu

theorem startsEsc_iff (s : Str) :
    startsEsc s = true ↔
      ∃ x y rest, s = '%' :: x :: y :: rest ∧ isLowerHex x = true ∧ isLowerHex y = true := by
  constructor
  · intro h
    match s, h with
    | c :: x :: y :: rest, h =>
      simp only [startsEsc, Bool.and_eq_true, decide_eq_true_eq] at h
      exact ⟨x, y, rest, by rw [h.1.1], h.1.2, h.2⟩
  · rintro ⟨x, y, rest, rfl, hx, hy⟩
    simp [startsEsc, hx, hy]

theorem startsEsc_esc {x y : Char} (rest : Str) (hx : isLowerHex x = true)
    (hy : isLowerHex y = true) : startsEsc ('%' :: x :: y :: rest) = true :=
  (startsEsc_iff _).2 ⟨x, y, rest, rfl, hx, hy⟩

theorem startsEsc_of_ne {c : Char} (s : Str) (h : c ≠ '%') : startsEsc (c :: s) = false := by
  cases hs : startsEsc (c :: s)
  · rfl
  · obtain ⟨x, y, rest, he, _, _⟩ := (startsEsc_iff _).1 hs
    exact absurd (List.cons.inj he).1 h

/-- Induction along the scan of the escape pattern: at a match the scan
continues after its three bytes, elsewhere after one byte. -/
theorem esc_induction {P : Str → Prop} (hnil : P [])
    (hesc : ∀ x y rest, isLowerHex x = true → isLowerHex y = true → P rest →
      P ('%' :: x :: y :: rest))
    (hplain : ∀ c s, startsEsc (c :: s) = false → P s → P (c :: s)) : ∀ s, P s := by
  have key : ∀ n (s : Str), s.length ≤ n → P s := by
    intro n
    induction n with
    | zero =>
      intro s hs
      cases s with
      | nil => exact hnil
      | cons c s => simp at hs
    | succ n ih =>
      intro s hs
      cases s with
      | nil => exact hnil
      | cons c s =>
        cases hc : startsEsc (c :: s)
        · exact hplain c s hc (ih s (by simpa using hs))
        · obtain ⟨x, y, rest, he, hx, hy⟩ := (startsEsc_iff _).1 hc
          rw [he]
          refine hesc x y rest hx hy (ih rest ?_)
          rw [he] at hs
          simp at hs
          omega
  exact fun s => key s.length s le_rfl

/-! ## The scans, one step at a time -/

theorem findAllScan_esc {x y : Char} (rest : Str) (hx : isLowerHex x = true)
    (hy : isLowerHex y = true) :
    findAllScan 0 ('%' :: x :: y :: rest) = ['%', x, y] :: findAllScan 0 rest := by
  simp [findAllScan, hx, hy]

theorem findAllScan_plain {c : Char} {s : Str} (h : startsEsc (c :: s) = false) :
    findAllScan 0 (c :: s) = findAllScan 0 s := by
  match s, h with
  | [], _ => simp [findAllScan]
  | [_], _ => simp [findAllScan]
  | x :: y :: rest, h =>
    have : ¬ (c = '%' ∧ isLowerHex x = true ∧ isLowerHex y = true) := by
      intro ⟨h1, h2, h3⟩
      simp [startsEsc, h1, h2, h3] at h
    simp [findAllScan, this]

theorem mapEscapes_esc (f : Str → Str) {x y : Char} (rest : Str) (hx : isLowerHex x = true)
    (hy : isLowerHex y = true) :
    mapEscapes f 0 ('%' :: x :: y :: rest) = f ['%', x, y] ++ mapEscapes f 0 rest := by
  simp [mapEscapes, startsEsc_esc rest hx hy]

theorem mapEscapes_plain (f : Str → Str) {c : Char} {s : Str}
    (h : startsEsc (c :: s) = false) : mapEscapes f 0 (c :: s) = c :: mapEscapes f 0 s := by
  simp [mapEscapes, h]

theorem replaceScan_drop (old new : Str) (k : Nat) (s : Str) :
    replaceScan old new k s = replaceScan old new 0 (s.drop k) := by
  induction s generalizing k with
  | nil => cases k <;> simp [replaceScan]
  | cons c s ih =>
    cases k with
    | zero => simp
    | succ k => simp [replaceScan, ih k]

theorem replaceScan_hit (old new rest : Str) (h : old ≠ []) :
    replaceScan old new 0 (old ++ rest) = new ++ replaceScan old new 0 rest := by
  cases old with
  | nil => exact absurd rfl h
  | cons a old =>
    have hp : (a :: old).isPrefixOf (a :: (old ++ rest)) = true := by
      rw [← List.cons_append]
      simp [List.isPrefixOf_iff_prefix]
    rw [List.cons_append, replaceScan, if_pos hp, replaceScan_drop]
    simp

theorem replaceScan_miss (old new : Str) {c : Char} {s : Str}
    (h : old.isPrefixOf (c :: s) = false) :
    replaceScan old new 0 (c :: s) = c :: replaceScan old new 0 s := by
  simp [replaceScan, h]

/-! ## `replaceWithUpperCase` is the single pass over the matched escapes -/

theorem toUpper_esc (x y : Char) : ToUpper ['%', x, y] = ['%', x.toUpper, y.toUpper] := by
  simp only [ToUpper, List.map_cons, List.map_nil]
  rfl

theorem mapEscapes_congr (f g : Str → Str) (s : Str)
    (h : ∀ q ∈ FindAllString s, f q = g q) : mapEscapes f 0 s = mapEscapes g 0 s := by
  induction s using esc_induction with
  | hnil => simp [mapEscapes]
  | hesc x y rest hx hy ih =>
    rw [mapEscapes_esc f rest hx hy, mapEscapes_esc g rest hx hy]
    rw [FindAllString, findAllScan_esc rest hx hy] at h
    rw [h _ (List.mem_cons_self _ _), ih (fun q hq => h q (List.mem_cons_of_mem _ hq))]
  | hplain c s hc ih =>
    rw [mapEscapes_plain f hc, mapEscapes_plain g hc]
    rw [FindAllString, findAllScan_plain hc] at h
    rw [ih h]

theorem mapEscapes_id (f : Str → Str) (s : Str) (h : ∀ q, f q = q) :
    mapEscapes f 0 s = s := by
  induction s using esc_induction with
  | hnil => simp [mapEscapes]
  | hesc x y rest hx hy ih => rw [mapEscapes_esc f rest hx hy, h, ih]; rfl
  | hplain c s hc ih => rw [mapEscapes_plain f hc, ih]

theorem findAllString_shape (s : Str) :
    ∀ q ∈ FindAllString s,
      ∃ x y, q = ['%', x, y] ∧ isLowerHex x = true ∧ isLowerHex y = true := by
  induction s using esc_induction with
  | hnil => simp [FindAllString, findAllScan]
  | hesc x y rest hx hy ih =>
    intro q hq
    rw [FindAllString, findAllScan_esc rest hx hy] at hq
    rcases List.mem_cons.1 hq with rfl | hq
    · exact ⟨x, y, rfl, hx, hy⟩
    · exact ih q hq
  | hplain c s hc ih =>
    intro q hq
    rw [FindAllString, findAllScan_plain hc] at hq
    exact ih q hq

/-- One replacement is the pass that puts that one escape in upper case. -/
theorem replace_eq_mapEscapes {x y : Char} (hx : isLowerHex x = true)
    (hy : isLowerHex y = true) (s : Str) :
    Replace s ['%', x, y] (ToUpper ['%', x, y]) = mapEscapes (upperIn [['%', x, y]]) 0 s := by
  by_cases hfix : ['%', x, y] = ToUpper ['%', x, y]
  · rw [Replace, if_pos hfix, mapEscapes_id]
    intro q
    unfold upperIn
    split
    · rename_i hq
      rw [List.mem_singleton.1 hq]
      exact hfix.symm
    · rfl
  · rw [Replace, if_neg hfix, if_neg (by simp)]
    induction s using esc_induction with
    | hnil => simp [replaceScan, mapEscapes]
    | hesc a b rest ha hb ih =>
      rw [mapEscapes_esc _ rest ha hb]
      by_cases hq : ['%', a, b] = ['%', x, y]
      · have h1 : ('%' :: a :: b :: rest) = ['%', x, y] ++ rest := by
          rw [← hq]; rfl
        rw [h1, replaceScan_hit _ _ _ (by simp), ih, ← hq]
        simp [upperIn]
      · have hab : ¬ (x = a ∧ y = b) := by
          rintro ⟨rfl, rfl⟩
          exact hq rfl
        have m1 : List.isPrefixOf ['%', x, y] ('%' :: a :: b :: rest) = false := by
          simp [List.isPrefixOf]
          exact fun h => fun h2 => hab ⟨h, h2⟩
        have m2 : List.isPrefixOf ['%', x, y] (a :: b :: rest) = false := by
          simp [List.isPrefixOf]
          intro h
          exact absurd h.symm (lowerHex_ne_percent ha)
        have m3 : List.isPrefixOf ['%', x, y] (b :: rest) = false := by
          simp [List.isPrefixOf]
          intro h
          exact absurd h.symm (lowerHex_ne_percent hb)
        rw [replaceScan_miss _ _ m1, replaceScan_miss _ _ m2, replaceScan_miss _ _ m3, ih]
        simp [upperIn, hq]
    | hplain c s hc ih =>
      rw [mapEscapes_plain _ hc]
      have m1 : List.isPrefixOf ['%', x, y] (c :: s) = false := by
        cases hp : List.isPrefixOf ['%', x, y] (c :: s)
        · rfl
        · rw [List.isPrefixOf_iff_prefix] at hp
          obtain ⟨t, ht⟩ := hp
          rw [← ht] at hc
          rw [show ['%', x, y] ++ t = '%' :: x :: y :: t from rfl, startsEsc_esc t hx hy] at hc
          exact absurd hc (by simp)
      rw [replaceScan_miss _ _ m1, ih]

theorem upperIn_esc_head (l : List Str) (x y : Char) :
    ∃ a b, upperIn l ['%', x, y] = ['%', a, b] := by
  unfold upperIn
  split
  · exact ⟨x.toUpper, y.toUpper, toUpper_esc x y⟩
  · exact ⟨x, y, rfl⟩

theorem startsEsc_percent_second (c : Char) (s : Str) : startsEsc (c :: '%' :: s) = false := by
  cases s with
  | nil => rfl
  | cons y rest => simp [startsEsc, isLowerHex]

theorem startsEsc_percent_third (c a : Char) (s : Str) :
    startsEsc (c :: a :: '%' :: s) = false := by
  simp [startsEsc, isLowerHex]

/-- The pass leaves the place of every match where it was: whether the text
starts with a match is not changed by passing over its tail. -/
theorem startsEsc_mapEscapes (l : List Str) (c : Char) (s : Str) :
    startsEsc (c :: mapEscapes (upperIn l) 0 s) = startsEsc (c :: s) := by
  cases s with
  | nil => simp [mapEscapes]
  | cons a t =>
    cases ha : startsEsc (a :: t)
    · rw [mapEscapes_plain _ ha]
      cases t with
      | nil => simp [mapEscapes, startsEsc]
      | cons b u =>
        cases hb : startsEsc (b :: u)
        · rw [mapEscapes_plain _ hb]
          simp [startsEsc]
        · obtain ⟨x, y, rest, he, hx, hy⟩ := (startsEsc_iff _).1 hb
          rw [he, mapEscapes_esc _ rest hx hy]
          obtain ⟨p, q, hpq⟩ := upperIn_esc_head l x y
          rw [hpq]
          simp only [List.cons_append, List.nil_append]
          rw [startsEsc_percent_third, startsEsc_percent_third]
    · obtain ⟨x, y, rest, he, hx, hy⟩ := (startsEsc_iff _).1 ha
      rw [he, mapEscapes_esc _ rest hx hy]
      obtain ⟨p, q, hpq⟩ := upperIn_esc_head l x y
      rw [hpq]
      simp only [List.cons_append, List.nil_append]
      rw [startsEsc_percent_second, startsEsc_percent_second]

/-- An escape already put in upper case is copied by every later pass. -/
theorem mapEscapes_upper (l : List Str) {x y : Char} (hx : isLowerHex x = true)
    (hy : isLowerHex y = true) (m : Str) :
    mapEscapes (upperIn l) 0 (ToUpper ['%', x, y] ++ m) =
      ToUpper ['%', x, y] ++ mapEscapes (upperIn l) 0 m := by
  rw [toUpper_esc]
  by_cases hu : isLowerHex x.toUpper = true ∧ isLowerHex y.toUpper = true
  · have h1 := lowerHex_upper_fix hx hu.1
    have h2 := lowerHex_upper_fix hy hu.2
    rw [h1, h2]
    show mapEscapes (upperIn l) 0 ('%' :: x :: y :: m) = _
    rw [mapEscapes_esc _ m hx hy]
    have : upperIn l ['%', x, y] = ['%', x, y] := by
      unfold upperIn
      split
      · rw [toUpper_esc, h1, h2]
      · rfl
    rw [this]
  · have n1 : startsEsc ('%' :: x.toUpper :: y.toUpper :: m) = false := by
      cases h : startsEsc ('%' :: x.toUpper :: y.toUpper :: m)
      · rfl
      · obtain ⟨a, b, rest, he, ha, hb⟩ := (startsEsc_iff _).1 h
        simp only [List.cons.injEq, true_and] at he
        rw [← he.1] at ha
        rw [← he.2.1] at hb
        exact absurd ⟨ha, hb⟩ hu
    have n2 := startsEsc_of_ne (y.toUpper :: m) (lowerHex_upper_ne_percent hx)
    have n3 := startsEsc_of_ne m (lowerHex_upper_ne_percent hy)
    show mapEscapes (upperIn l) 0 ('%' :: x.toUpper :: y.toUpper :: m) = _
    rw [mapEscapes_plain _ n1, mapEscapes_plain _ n2, mapEscapes_plain _ n3]
    rfl

/-- A pass for the matches `l` after the pass for one match `p` is the pass
for `p :: l`. -/
theorem mapEscapes_comp (l : List Str) (p : Str) (s : Str) :
    mapEscapes (upperIn l) 0 (mapEscapes (upperIn [p]) 0 s) =
      mapEscapes (upperIn (p :: l)) 0 s := by
  induction s using esc_induction with
  | hnil => simp [mapEscapes]
  | hesc x y rest hx hy ih =>
    rw [mapEscapes_esc _ rest hx hy, mapEscapes_esc _ rest hx hy]
    by_cases hq : ['%', x, y] = p
    · have e1 : upperIn [p] ['%', x, y] = ToUpper ['%', x, y] := by simp [upperIn, hq]
      have e2 : upperIn (p :: l) ['%', x, y] = ToUpper ['%', x, y] := by simp [upperIn, hq]
      rw [e1, e2, mapEscapes_upper l hx hy, ih]
    · have e1 : upperIn [p] ['%', x, y] = ['%', x, y] := by simp [upperIn, hq]
      have e2 : upperIn (p :: l) ['%', x, y] = upperIn l ['%', x, y] := by simp [upperIn, hq]
      rw [e1, e2]
      show mapEscapes (upperIn l) 0 ('%' :: x :: y :: mapEscapes (upperIn [p]) 0 rest) = _
      rw [mapEscapes_esc _ _ hx hy, ih]
  | hplain c s hc ih =>
    rw [mapEscapes_plain _ hc, mapEscapes_plain _ hc]
    have := startsEsc_mapEscapes [p] c s
    rw [hc] at this
    rw [mapEscapes_plain _ this, ih]

/-- The replacements for a list of matches are one pass that puts the escapes
of the list in upper case. -/
theorem replaceWithUpperCase_eq_mapEscapes (l : List Str)
    (hl : ∀ q ∈ l, ∃ x y, q = ['%', x, y] ∧ isLowerHex x = true ∧ isLowerHex y = true)
    (s : Str) : replaceWithUpperCase s l = mapEscapes (upperIn l) 0 s := by
  induction l generalizing s with
  | nil =>
    rw [mapEscapes_id]
    · rfl
    · intro q
      simp [upperIn]
  | cons p l ih =>
    obtain ⟨x, y, rfl, hx, hy⟩ := hl p (List.mem_cons_self _ _)
    have step : replaceWithUpperCase s (['%', x, y] :: l) =
        replaceWithUpperCase (Replace s ['%', x, y] (ToUpper ['%', x, y])) l := rfl
    rw [step, ih (fun q hq => hl q (List.mem_cons_of_mem _ hq)), replace_eq_mapEscapes hx hy,
      mapEscapes_comp]

/-- The retry of `ProcessRequest` puts exactly the matched escapes of the
presented signature in upper case, for every presented signature. -/
theorem replaceWithUpperCase_findAll (s : Str) :
    replaceWithUpperCase s (FindAllString s) = upperEscapes s := by
  rw [replaceWithUpperCase_eq_mapEscapes _ (findAllString_shape s), upperEscapes]
  apply mapEscapes_congr
  intro q hq
  simp [upperIn, hq]

/-! ## The signature text: escaped base64 -/

theorem b64Char_mem (n : Nat) : b64Char n ∈ encodeStd := by
  unfold b64Char
  have hlen : n % 64 < encodeStd.length := by
    have : encodeStd.length = 64 := by decide
    rw [this]
    exact Nat.mod_lt _ (by decide)
  rw [List.getD_eq_getElem _ _ hlen]
  exact List.getElem_mem hlen

theorem base64Encode_mem (d : List Nat) : ∀ c ∈ base64Encode d, c ∈ encodeStd ∨ c = '=' := by
  induction d using base64Encode.induct with
  | case1 => simp [base64Encode]
  | case2 a =>
    intro c hc
    simp only [base64Encode, List.mem_cons, List.mem_singleton, List.not_mem_nil, or_false] at hc
    rcases hc with rfl | rfl | rfl | rfl
    · exact Or.inl (b64Char_mem _)
    · exact Or.inl (b64Char_mem _)
    · exact Or.inr rfl
    · exact Or.inr rfl
  | case3 a b =>
    intro c hc
    simp only [base64Encode, List.mem_cons, List.mem_singleton, List.not_mem_nil, or_false] at hc
    rcases hc with rfl | rfl | rfl | rfl
    · exact Or.inl (b64Char_mem _)
    · exact Or.inl (b64Char_mem _)
    · exact Or.inl (b64Char_mem _)
    · exact Or.inr rfl
  | case4 a b c rest ih =>
    intro x hx
    simp only [base64Encode, List.mem_cons] at hx
    rcases hx with rfl | rfl | rfl | rfl | hx
    · exact Or.inl (b64Char_mem _)
    · exact Or.inl (b64Char_mem _)
    · exact Or.inl (b64Char_mem _)
    · exact Or.inl (b64Char_mem _)
    · exact ih x hx

/-- What `url.QueryEscape` makes of a byte of base64 text: itself, or one of
the three escapes `%2B`, `%2F`, `%3D`. -/
theorem escapeByte_base64 {c : Char} (h : c ∈ encodeStd ∨ c = '=') :
    (escapeByte c = [c] ∧ c ≠ '%') ∨
      ∃ d l, escapeByte c = ['%', d, l] ∧ (d, l) ∈ [('2', 'B'), ('2', 'F'), ('3', 'D')] := by
  have key : ∀ c ∈ encodeStd ++ ['='],
      (escapeByte c = [c] ∧ c ≠ '%') ∨
        (escapeByte c = ['%', '2', 'B'] ∨ escapeByte c = ['%', '2', 'F'] ∨
          escapeByte c = ['%', '3', 'D']) := by
    decide
  have hm : c ∈ encodeStd ++ ['='] := by
    rcases h with h | h
    · exact List.mem_append_left _ h
    · exact List.mem_append_right _ (by simp [h])
  rcases key c hm with h1 | h2 | h3 | h4
  · exact Or.inl h1
  · exact Or.inr ⟨'2', 'B', h2, by decide⟩
  · exact Or.inr ⟨'2', 'F', h3, by decide⟩
  · exact Or.inr ⟨'3', 'D', h4, by decide⟩

theorem char_eq_of_toNat {a b : Char} (h : a.toNat = b.toNat) : a = b := by
  rw [← Char.ofNat_toNat a, ← Char.ofNat_toNat b, h]

theorem caseTwin_digit {a b : Char} (h : caseTwin a b = true) (ha : a.toNat < 65) : b = a := by
  simp only [caseTwin, Bool.or_eq_true, Bool.and_eq_true, decide_eq_true_eq] at h
  rcases h with (h | h) | h
  · exact h.symm
  · omega
  · omega

theorem caseTwin_upper {a b : Char} (h : caseTwin a b = true) (h1 : 65 ≤ a.toNat)
    (h2 : a.toNat ≤ 90) : b = a ∨ b.toNat = a.toNat + 32 := by
  simp only [caseTwin, Bool.or_eq_true, Bool.and_eq_true, decide_eq_true_eq] at h
  rcases h with (h | h) | h
  · exact Or.inl h.symm
  · exact Or.inr h.2.symm
  · omega

/-- A case variant of one of the escapes `%2B`, `%2F`, `%3D` is put back in
upper case by the pass. -/
theorem upperEscapes_variant {d l s1 s2 : Char}
    (hm : (d, l) ∈ [('2', 'B'), ('2', 'F'), ('3', 'D')]) (h1 : caseTwin d s1 = true)
    (h2 : caseTwin l s2 = true) (rest : Str) :
    upperEscapes ('%' :: s1 :: s2 :: rest) = '%' :: d :: l :: upperEscapes rest := by
  have low : ∀ x y : Char, isLowerHex x = true → isLowerHex y = true →
      upperEscapes ('%' :: x :: y :: rest) = '%' :: x.toUpper :: y.toUpper :: upperEscapes rest := by
    intro x y hx hy
    rw [upperEscapes, mapEscapes_esc _ rest hx hy, toUpper_esc]
    rfl
  have up : ∀ x y : Char, x ≠ '%' → y ≠ '%' → isLowerHex y = false →
      upperEscapes ('%' :: x :: y :: rest) = '%' :: x :: y :: upperEscapes rest := by
    intro x y hx hy hl
    have n1 : startsEsc ('%' :: x :: y :: rest) = false := by simp [startsEsc, hl]
    rw [upperEscapes, mapEscapes_plain _ n1, mapEscapes_plain _ (startsEsc_of_ne _ hx),
      mapEscapes_plain _ (startsEsc_of_ne _ hy)]
    rfl
  simp only [List.mem_cons, Prod.mk.injEq, List.mem_singleton, List.not_mem_nil, or_false] at hm
  rcases hm with ⟨rfl, rfl⟩ | ⟨rfl, rfl⟩ | ⟨rfl, rfl⟩
  · have e1 := caseTwin_digit h1 (by decide)
    subst e1
    rcases caseTwin_upper h2 (by decide) (by decide) with e2 | e2
    · subst e2
      exact up _ _ (by decide) (by decide) (by decide)
    · have : s2 = 'b' := char_eq_of_toNat (by rw [e2]; rfl)
      subst this
      exact low _ _ (by decide) (by decide)
  · have e1 := caseTwin_digit h1 (by decide)
    subst e1
    rcases caseTwin_upper h2 (by decide) (by decide) with e2 | e2
    · subst e2
      exact up _ _ (by decide) (by decide) (by decide)
    · have : s2 = 'f' := char_eq_of_toNat (by rw [e2]; rfl)
      subst this
      exact low _ _ (by decide) (by decide)
  · have e1 := caseTwin_digit h1 (by decide)
    subst e1
    rcases caseTwin_upper h2 (by decide) (by decide) with e2 | e2
    · subst e2
      exact up _ _ (by decide) (by decide) (by decide)
    · have : s2 = 'd' := char_eq_of_toNat (by rw [e2]; rfl)
      subst this
      exact low _ _ (by decide) (by decide)

theorem escCaseVariant_zero (e s : Char) (es ss : Str) :
    escCaseVariant 0 (e :: es) (s :: ss) =
      (decide (e = s) &&
        (if startsAnyEsc (e :: es) then escCaseVariant 2 es ss else escCaseVariant 0 es ss)) := by
  rw [escCaseVariant]

theorem escCaseVariant_succ (k : Nat) (e s : Char) (es ss : Str) :
    escCaseVariant (k + 1) (e :: es) (s :: ss) = (caseTwin e s && escCaseVariant k es ss) := by
  rw [escCaseVariant]

theorem escCaseVariant_nil_right (k : Nat) (e : Char) (es : Str) :
    escCaseVariant k (e :: es) [] = false := by
  cases k <;> rfl

/-- Escaped base64 text is recovered from each of its case variants by putting
the matched escapes in upper case. -/
theorem upperEscapes_of_variant (cs : Str) (hcs : ∀ c ∈ cs, c ∈ encodeStd ∨ c = '=') (s : Str)
    (h : escCaseVariant 0 (QueryEscape cs) s = true) : upperEscapes s = QueryEscape cs := by
  induction cs generalizing s with
  | nil =>
    cases s with
    | nil => rfl
    | cons a s => simp [QueryEscape, escCaseVariant] at h
  | cons c cs ih =>
    have hq : QueryEscape (c :: cs) = escapeByte c ++ QueryEscape cs := by
      simp [QueryEscape]
    have ih2 := ih (fun x hx => hcs x (List.mem_cons_of_mem _ hx))
    rw [hq] at h ⊢
    rcases escapeByte_base64 (hcs c (List.mem_cons_self _ _)) with ⟨he, hne⟩ | ⟨d, l, he, hm⟩
    · rw [he] at h ⊢
      change escCaseVariant 0 (c :: QueryEscape cs) s = true at h
      change upperEscapes s = c :: QueryEscape cs
      cases s with
      | nil => rw [escCaseVariant_nil_right] at h; exact absurd h (by simp)
      | cons a s =>
        have hn : startsAnyEsc (c :: QueryEscape cs) = false := by
          cases hx : QueryEscape cs with
          | nil => rfl
          | cons x t =>
            cases t with
            | nil => rfl
            | cons y u => simp [startsAnyEsc, hne]
        rw [escCaseVariant_zero, hn] at h
        simp only [Bool.and_eq_true, decide_eq_true_eq, Bool.false_eq_true, if_false] at h
        obtain ⟨rfl, h⟩ := h
        rw [upperEscapes, mapEscapes_plain _ (startsEsc_of_ne _ hne)]
        have := ih2 s h
        rw [upperEscapes] at this
        rw [this]
    · rw [he] at h ⊢
      change escCaseVariant 0 ('%' :: d :: l :: QueryEscape cs) s = true at h
      change upperEscapes s = '%' :: d :: l :: QueryEscape cs
      have hd : isHexDigit d = true ∧ isHexDigit l = true := by
        simp only [List.mem_cons, Prod.mk.injEq, List.mem_singleton, List.not_mem_nil,
          or_false] at hm
        rcases hm with ⟨rfl, rfl⟩ | ⟨rfl, rfl⟩ | ⟨rfl, rfl⟩ <;> decide
      have hy : startsAnyEsc ('%' :: d :: l :: QueryEscape cs) = true := by
        simp [startsAnyEsc, hd.1, hd.2]
      cases s with
      | nil => rw [escCaseVariant_nil_right] at h; exact absurd h (by simp)
      | cons s0 s =>
        rw [escCaseVariant_zero, hy] at h
        simp only [Bool.and_eq_true, decide_eq_true_eq, if_true] at h
        obtain ⟨rfl, h⟩ := h
        cases s with
        | nil => rw [escCaseVariant_nil_right] at h; exact absurd h (by simp)
        | cons s1 s =>
          rw [escCaseVariant_succ, Bool.and_eq_true] at h
          obtain ⟨h1, h⟩ := h
          cases s with
          | nil => rw [escCaseVariant_nil_right] at h; exact absurd h (by simp)
          | cons s2 rest =>
            rw [escCaseVariant_succ, Bool.and_eq_true] at h
            obtain ⟨h2, h3⟩ := h
            rw [upperEscapes_variant hm h1 h2, ih2 rest h3]

theorem generateEncodedSignature_shape (mac : Mac) (signatureString secret algorithm : Str) :
    ∃ cs : Str, (∀ c ∈ cs, c ∈ encodeStd ∨ c = '=') ∧
      generateEncodedSignature mac signatureString secret algorithm = QueryEscape cs :=
  ⟨_, base64Encode_mem _, rfl⟩

/-- C2. Upper-case escape retry: for every expected signature produced by
`generateEncodedSignature` and every presented signature that differs from it
only in the letter case of the hex digits inside `%hh` escapes, the comparison
of `HMACMiddleware.ProcessRequest` accepts the presented signature:
`replaceWithUpperCase` applied to it and to all matches of `%[a-f0-9][a-f0-9]`
in it equals the expected signature, and it equals the presented signature with
exactly its matched escapes in upper case, every other byte unchanged. -/
theorem uppercase_escape_retry (mac : Mac) (signatureString secret algorithm presented : Str)
    (h : escCaseVariant 0 (generateEncodedSignature mac signatureString secret algorithm)
      presented = true) :
    signatureMatches (generateEncodedSignature mac signatureString secret algorithm)
        presented = true ∧
      replaceWithUpperCase presented (FindAllString presented) =
        generateEncodedSignature mac signatureString secret algorithm ∧
      replaceWithUpperCase presented (FindAllString presented) = upperEscapes presented := by
  obtain ⟨cs, hcs, he⟩ := generateEncodedSignature_shape mac signatureString secret algorithm
  rw [he] at h ⊢
  have hup := upperEscapes_of_variant cs hcs presented h
  have hrep := replaceWithUpperCase_findAll presented
  refine ⟨?_, by rw [hrep, hup], hrep⟩
  unfold signatureMatches hasLowerCaseEscaped
  by_cases heq : QueryEscape cs = presented
  · simp [heq]
  · have hne : FindAllString presented ≠ [] := by
      intro hnil
      rw [hnil] at hrep
      exact heq (by rw [← hup, ← hrep]; rfl)
    have hlen : (FindAllString presented).length > 0 := List.length_pos.2 hne
    simp [heq, hlen, hrep, hup]

/-- The retry at a concrete signature: `%2Bw%3D%3D` expected, `%2bw%3d%3D`
presented. -/
theorem uppercase_escape_retry_witness :
    escCaseVariant 0
        (generateEncodedSignature (fun _ _ _ => [251]) "date: x".toList "secret".toList
          "hmac-sha1".toList) "%2bw%3d%3D".toList = true ∧
      signatureMatches
          (generateEncodedSignature (fun _ _ _ => [251]) "date: x".toList "secret".toList
            "hmac-sha1".toList) "%2bw%3d%3D".toList = true ∧
      replaceWithUpperCase "%2bw%3d%3D".toList (FindAllString "%2bw%3d%3D".toList) =
        generateEncodedSignature (fun _ _ _ => [251]) "date: x".toList "secret".toList
          "hmac-sha1".toList ∧
      replaceWithUpperCase "%2bw%3d%3D".toList (FindAllString "%2bw%3d%3D".toList) =
        upperEscapes "%2bw%3d%3D".toList :=
  ⟨by decide, uppercase_escape_retry _ _ _ _ _ (by decide)⟩

/-! ## Splitting and trimming -/

theorem split_ne_nil (sep : Char) (s : Str) : Split sep s ≠ [] := by
  induction s with
  | nil => simp [Split]
  | cons c cs ih =>
    unfold Split
    split
    · simp
    · split <;> simp

theorem split_of_not_mem (sep : Char) (s : Str) (h : sep ∉ s) : Split sep s = [s] := by
  induction s with
  | nil => rfl
  | cons c cs ih =>
    have hc : c ≠ sep := fun e => h (by simp [e])
    have ht : sep ∉ cs := fun e => h (List.mem_cons_of_mem _ e)
    rw [Split, if_neg hc, ih ht]

theorem split_append_sep (sep : Char) (a b : Str) (h : sep ∉ a) :
    Split sep (a ++ sep :: b) = a :: Split sep b := by
  induction a with
  | nil => simp [Split]
  | cons c cs ih =>
    have hc : c ≠ sep := fun e => h (by simp [e])
    have ht : sep ∉ cs := fun e => h (List.mem_cons_of_mem _ e)
    rw [List.cons_append, Split, if_neg hc, ih ht]

theorem split_join (sep : Char) (parts : List Str) (hne : parts ≠ [])
    (h : ∀ p ∈ parts, sep ∉ p) : Split sep (Join sep parts) = parts := by
  induction parts with
  | nil => exact absurd rfl hne
  | cons a rest ih =>
    cases rest with
    | nil => exact split_of_not_mem sep a (h a (List.mem_cons_self _ _))
    | cons b rest =>
      rw [Join, split_append_sep sep a _ (h a (List.mem_cons_self _ _)),
        ih (by simp) (fun p hp => h p (List.mem_cons_of_mem _ hp))]

theorem trimBoth_skip (p : Char → Bool) (c : Char) (s : Str) (h : p c = true) :
    trimBoth p (c :: s) = trimBoth p s := by
  simp [trimBoth, List.dropWhile, h]

theorem trimBoth_concat (p : Char → Bool) (s : Str) (c : Char) (h : p c = true) :
    trimBoth p (s ++ [c]) = trimBoth p s := by
  unfold trimBoth
  rw [List.dropWhile_append]
  split
  · rename_i he
    have : List.dropWhile p s = [] := by simpa using he
    simp [this, List.dropWhile, h]
  · simp [List.dropWhile, h]

theorem trimBoth_keep (p : Char → Bool) (a z : Char) (m : Str) (ha : p a = false)
    (hz : p z = false) : trimBoth p (a :: (m ++ [z])) = a :: (m ++ [z]) := by
  unfold trimBoth
  rw [List.dropWhile_cons_of_neg (by simp [ha])]
  have : (a :: (m ++ [z])).reverse = z :: (m.reverse ++ [a]) := by simp
  rw [this, List.dropWhile_cons_of_neg (by simp [hz])]
  simp

/-- A quoted value is read back by `strings.Trim` when it neither begins nor
ends with a quote itself. -/
theorem trim_quoted (v : Str) (h : Trim v '"' = v) : Trim ('"' :: (v ++ ['"'])) '"' = v := by
  unfold Trim at h ⊢
  rw [trimBoth_skip _ _ _ (by simp), trimBoth_concat _ _ _ (by simp), h]

theorem split_fieldElement (name value : Str) (hn : '=' ∉ name) (hv : '=' ∉ value) :
    Split '=' (fieldElement name value) = [name, '"' :: (value ++ ['"'])] := by
  unfold fieldElement
  rw [split_append_sep _ _ _ hn, split_of_not_mem]
  intro hm
  simp only [List.mem_cons, List.mem_append, List.mem_singleton, List.not_mem_nil,
    or_false] at hm
  rcases hm with h | h | h
  · exact absurd h (by decide)
  · exact hv h
  · exact absurd h (by decide)

theorem not_mem_fieldElement (name value : Str) (hn : ',' ∉ name) (hv : ',' ∉ value) :
    ',' ∉ fieldElement name value := by
  unfold fieldElement
  intro hm
  simp only [List.mem_cons, List.mem_append, List.mem_singleton, List.not_mem_nil,
    or_false] at hm
  rcases hm with h | h | h | h | h
  · exact hn h
  · exact absurd h (by decide)
  · exact absurd h (by decide)
  · exact hv h
  · exact absurd h (by decide)

/-! ## Reading back a signed header -/

theorem upperhex_mem (n : Nat) : upperhex n ∈ "0123456789ABCDEF".toList := by
  unfold upperhex
  have hlen : n % 16 < "0123456789ABCDEF".toList.length := by
    have : "0123456789ABCDEF".toList.length = 16 := by decide
    rw [this]
    exact Nat.mod_lt _ (by decide)
  rw [List.getD_eq_getElem _ _ hlen]
  exact List.getElem_mem hlen

/-- No byte of escaped text is a comma, an equals sign or a quote. -/
theorem queryEscape_clean (s : Str) :
    ∀ c ∈ QueryEscape s, c ≠ ',' ∧ c ≠ '=' ∧ c ≠ '"' := by
  have hex : ∀ c ∈ "0123456789ABCDEF".toList, c ≠ ',' ∧ c ≠ '=' ∧ c ≠ '"' := by decide
  intro c hc
  simp only [QueryEscape, List.mem_flatMap] at hc
  obtain ⟨b, _, hb⟩ := hc
  unfold escapeByte at hb
  split at hb
  · split at hb
    · simp only [List.mem_singleton] at hb
      subst hb
      decide
    · simp only [List.mem_cons, List.mem_singleton, List.not_mem_nil, or_false] at hb
      rcases hb with rfl | rfl | rfl
      · decide
      · exact hex _ (upperhex_mem _)
      · exact hex _ (upperhex_mem _)
  · rename_i hs
    simp only [List.mem_singleton] at hb
    subst hb
    refine ⟨?_, ?_, ?_⟩ <;> (intro e; subst e; exact hs (by decide))

theorem trim_queryEscape (s : Str) : Trim (QueryEscape s) '"' = QueryEscape s := by
  have hclean := queryEscape_clean s
  generalize QueryEscape s = e at hclean
  cases e with
  | nil => rfl
  | cons a t =>
    have ha : a ≠ '"' := (hclean a (List.mem_cons_self _ _)).2.2
    rcases List.eq_nil_or_concat t with rfl | ⟨m, z, rfl⟩
    · simp [Trim, trimBoth, List.dropWhile, ha]
    · have hz : z ≠ '"' := (hclean z (by simp)).2.2
      rw [List.concat_eq_append]
      exact trimBoth_keep (fun c => decide (c = '"')) a z m (by simpa using ha)
        (by simpa using hz)

theorem stripSignature_signatureHeader (keyId algorithm : Str) (headers : List Str)
    (signature : Str) :
    stripSignature (signatureHeader keyId algorithm headers signature) =
      fieldElement "keyId".toList keyId ++ ',' ::
        (fieldElement "algorithm".toList algorithm ++ ',' ::
          (fieldElement "headers".toList (Join ' ' headers) ++ ',' ::
            fieldElement "signature".toList signature)) := by
  have hform : ∃ m : Str,
      fieldElement "keyId".toList keyId ++ ',' ::
        (fieldElement "algorithm".toList algorithm ++ ',' ::
          (fieldElement "headers".toList (Join ' ' headers) ++ ',' ::
            fieldElement "signature".toList signature)) = 'k' :: (m ++ ['"']) := by
    refine ⟨"eyId".toList ++ '=' :: '"' :: (keyId ++ ['"']) ++ ',' ::
        (fieldElement "algorithm".toList algorithm ++ ',' ::
          (fieldElement "headers".toList (Join ' ' headers) ++ ',' ::
            ("signature".toList ++ '=' :: '"' :: signature))), ?_⟩
    simp [fieldElement]
  obtain ⟨m, hm⟩ := hform
  unfold signatureHeader
  rw [hm]
  have e1 : "Signature ".toList ++ 'k' :: (m ++ ['"']) =
      "Signature".toList ++ ' ' :: 'k' :: (m ++ ['"']) := by simp
  have p1 : List.isPrefixOf "Signature".toList
      ("Signature".toList ++ ' ' :: 'k' :: (m ++ ['"'])) = true := by
    rw [List.isPrefixOf_iff_prefix]
    exact List.prefix_append _ _
  have p2 : List.isPrefixOf "signature".toList (' ' :: 'k' :: (m ++ ['"'])) = false := by
    simp [List.isPrefixOf]
  have t1 : TrimPrefix ("Signature".toList ++ ' ' :: 'k' :: (m ++ ['"'])) "Signature".toList =
      ' ' :: 'k' :: (m ++ ['"']) := by
    rw [TrimPrefix, if_pos p1, List.drop_left]
  have t2 : TrimPrefix (' ' :: 'k' :: (m ++ ['"'])) "signature".toList =
      ' ' :: 'k' :: (m ++ ['"']) := by
    rw [TrimPrefix, if_neg (by simp [p2])]
  have t3 : TrimSpace (' ' :: 'k' :: (m ++ ['"'])) = 'k' :: (m ++ ['"']) := by
    rw [TrimSpace, trimBoth_skip _ _ _ (by decide),
      trimBoth_keep _ _ _ _ (by decide) (by decide)]
  rw [e1]
  show TrimSpace (TrimPrefix (TrimPrefix _ "Signature".toList) "signature".toList) = _
  rw [t1, t2, t3]

theorem mem_join (sep : Char) (parts : List Str) (c : Char) (h : c ∈ Join sep parts) :
    c = sep ∨ ∃ p ∈ parts, c ∈ p := by
  induction parts with
  | nil => simp [Join] at h
  | cons a rest ih =>
    cases rest with
    | nil => exact Or.inr ⟨a, List.mem_cons_self _ _, h⟩
    | cons b rest =>
      rw [Join] at h
      simp only [List.mem_append, List.mem_cons] at h
      rcases h with h | h | h
      · exact Or.inr ⟨a, List.mem_cons_self _ _, h⟩
      · exact Or.inl h
      · rcases ih h with h | ⟨p, hp, hc⟩
        · exact Or.inl h
        · exact Or.inr ⟨p, List.mem_cons_of_mem _ hp, hc⟩

theorem loop_keyid (v : Str) (rest : List Str) (set : HMACFieldValues) (hv : '=' ∉ v)
    (ht : Trim v '"' = v) :
    getFieldValuesLoop (fieldElement "keyId".toList v :: rest) set =
      getFieldValuesLoop rest { set with KeyID := v } := by
  have l1 : ToLower "keyId".toList = "keyid".toList := by decide
  rw [getFieldValuesLoop, split_fieldElement _ _ (by decide) hv]
  simp only [l1, trim_quoted v ht, if_true]

theorem loop_algorithm (v : Str) (rest : List Str) (set : HMACFieldValues) (hv : '=' ∉ v)
    (ht : Trim v '"' = v) :
    getFieldValuesLoop (fieldElement "algorithm".toList v :: rest) set =
      getFieldValuesLoop rest { set with Algorthm := v } := by
  have l1 : ToLower "algorithm".toList = "algorithm".toList := by decide
  have n1 : ¬ ("algorithm".toList = "keyid".toList) := by decide
  rw [getFieldValuesLoop, split_fieldElement _ _ (by decide) hv]
  simp only [l1, trim_quoted v ht, if_true, n1, if_false]

theorem loop_headers (v : Str) (rest : List Str) (set : HMACFieldValues) (hv : '=' ∉ v)
    (ht : Trim v '"' = v) :
    getFieldValuesLoop (fieldElement "headers".toList v :: rest) set =
      getFieldValuesLoop rest { set with Headers := Split ' ' v } := by
  have l1 : ToLower "headers".toList = "headers".toList := by decide
  have n1 : ¬ ("headers".toList = "keyid".toList) := by decide
  have n2 : ¬ ("headers".toList = "algorithm".toList) := by decide
  rw [getFieldValuesLoop, split_fieldElement _ _ (by decide) hv]
  simp only [l1, trim_quoted v ht, if_true, n1, n2, if_false]

theorem loop_signature (v : Str) (rest : List Str) (set : HMACFieldValues) (hv : '=' ∉ v)
    (ht : Trim v '"' = v) :
    getFieldValuesLoop (fieldElement "signature".toList v :: rest) set =
      getFieldValuesLoop rest { set with Signature := v } := by
  have l1 : ToLower "signature".toList = "signature".toList := by decide
  have n1 : ¬ ("signature".toList = "keyid".toList) := by decide
  have n2 : ¬ ("signature".toList = "algorithm".toList) := by decide
  have n3 : ¬ ("signature".toList = "headers".toList) := by decide
  rw [getFieldValuesLoop, split_fieldElement _ _ (by decide) hv]
  simp only [l1, trim_quoted v ht, if_true, n1, n2, n3, if_false]

/-- Reading back a header built from clean texts yields the texts it was built
from. -/
theorem getFieldValues_signatureHeader (keyId algorithm : Str) (headers : List Str)
    (signature : Str)
    (hk : ',' ∉ keyId ∧ '=' ∉ keyId ∧ Trim keyId '"' = keyId)
    (ha : ',' ∉ algorithm ∧ '=' ∉ algorithm ∧ Trim algorithm '"' = algorithm)
    (hne : headers ≠ [])
    (hh : ∀ h ∈ headers, ',' ∉ h ∧ '=' ∉ h ∧ ' ' ∉ h)
    (hj : Trim (Join ' ' headers) '"' = Join ' ' headers)
    (hs : ',' ∉ signature ∧ '=' ∉ signature ∧ Trim signature '"' = signature) :
    getFieldValues (stripSignature (signatureHeader keyId algorithm headers signature)) =
      .ok { KeyID := keyId, Algorthm := algorithm, Headers := headers,
            Signature := signature } := by
  have jc : ',' ∉ Join ' ' headers := by
    intro h
    rcases mem_join _ _ _ h with h | ⟨p, hp, hc⟩
    · exact absurd h (by decide)
    · exact (hh p hp).1 hc
  have je : '=' ∉ Join ' ' headers := by
    intro h
    rcases mem_join _ _ _ h with h | ⟨p, hp, hc⟩
    · exact absurd h (by decide)
    · exact (hh p hp).2.1 hc
  rw [stripSignature_signatureHeader, getFieldValues,
    split_append_sep _ _ _ (not_mem_fieldElement _ _ (by decide) hk.1),
    split_append_sep _ _ _ (not_mem_fieldElement _ _ (by decide) ha.1),
    split_append_sep _ _ _ (not_mem_fieldElement _ _ (by decide) jc),
    split_of_not_mem _ _ (not_mem_fieldElement _ _ (by decide) hs.1),
    loop_keyid _ _ _ hk.2.1 hk.2.2, loop_algorithm _ _ _ ha.2.1 ha.2.2,
    loop_headers _ _ _ je hj, loop_signature _ _ _ hs.2.1 hs.2.2,
    split_join _ _ hne (fun p hp => (hh p hp).2.2)]
  have hlen : headers.length ≠ 0 := by
    intro h
    exact hne (List.length_eq_zero.1 h)
  simp [getFieldValuesLoop, hlen]

theorem signatureMatches_self (e : Str) : signatureMatches e e = true := by
  simp [signatureMatches]

theorem signatureHeader_ne_nil (keyId algorithm : Str) (headers : List Str) (signature : Str) :
    signatureHeader keyId algorithm headers signature ≠ [] := by
  simp [signatureHeader]

/-- C1 (amended). HMAC sign/verify round trip: for every method, path and
request headers, every non-empty secret, and every keyId, algorithm and
non-empty list of header names whose texts contain no comma and no equals sign
and (the header names) no space, the keyId, the algorithm and the space-joined
header names neither beginning nor ending with a double quote: if the request carries the `Signature` header built from the keyId, the
algorithm, the header names and
`generateEncodedSignature(generateHMACSignatureStringFromRequest(req, fields), secret, algorithm)`,
the session of the keyId holds that secret with HMAC enabled, the allow-list is
empty or holds the algorithm, and the clock-skew check passes, then
`HMACMiddleware.ProcessRequest` returns `(nil, 200)`. -/
theorem hmac_sign_verify_round_trip (hm : HMACMiddleware) (now : Int) (r : Request)
    (keyId secret algorithm signatureString : Str) (headers : List Str)
    (session : SessionState)
    (hk : ',' ∉ keyId ∧ '=' ∉ keyId ∧ Trim keyId '"' = keyId)
    (ha : ',' ∉ algorithm ∧ '=' ∉ algorithm ∧ Trim algorithm '"' = algorithm)
    (hne : headers ≠ [])
    (hh : ∀ h ∈ headers, ',' ∉ h ∧ '=' ∉ h ∧ ' ' ∉ h)
    (hj : Trim (Join ' ' headers) '"' = Join ' ' headers)
    (hsig : generateHMACSignatureStringFromRequest r
        { KeyID := keyId, Algorthm := algorithm, Headers := headers } = .ok signatureString)
    (hauth : r.HeaderGet "Authorization".toList =
      signatureHeader keyId algorithm headers
        (generateEncodedSignature hm.mac signatureString secret algorithm))
    (hsess : hm.CheckSessionAndIdentityForValidKey keyId = some session)
    (hsec : session.HmacSecret = secret) (hsecret : secret ≠ [])
    (hen : session.HMACEnabled = true)
    (hallow : hm.Spec.HmacAllowedAlgorithms = [] ∨ algorithm ∈ hm.Spec.HmacAllowedAlgorithms)
    (hskew : hm.checkClockSkew now (getDateHeader r).2 = true) :
    (hm.ProcessRequest now r).1 = (none, StatusOK) := by
  have hclean := queryEscape_clean
    (base64Encode (hm.mac
      (if algorithm = "hmac-sha256".toList then HashFunction.sha256
        else if algorithm = "hmac-sha384".toList then HashFunction.sha384
        else if algorithm = "hmac-sha512".toList then HashFunction.sha512
        else HashFunction.sha1) secret signatureString))
  have hs : ',' ∉ generateEncodedSignature hm.mac signatureString secret algorithm ∧
      '=' ∉ generateEncodedSignature hm.mac signatureString secret algorithm ∧
      Trim (generateEncodedSignature hm.mac signatureString secret algorithm) '"' =
        generateEncodedSignature hm.mac signatureString secret algorithm :=
    ⟨fun h => (hclean _ h).1 rfl, fun h => (hclean _ h).2.1 rfl, trim_queryEscape _⟩
  have hparse := getFieldValues_signatureHeader keyId algorithm headers _ hk ha hne hh hj hs
  have hsig2 : signatureString = signatureLines r headers := by
    simp only [generateHMACSignatureStringFromRequest, Except.ok.injEq] at hsig
    exact hsig.symm
  have hget : hm.getSecretAndSessionForKeyID r keyId = .ok (secret, session) := by
    unfold HMACMiddleware.getSecretAndSessionForKeyID
    rw [hsess]
    simp [hsec, hsecret, hen]
  have hal : ¬ (hm.Spec.HmacAllowedAlgorithms.length > 0 ∧
      ¬ algorithm ∈ hm.Spec.HmacAllowedAlgorithms) := by
    rintro ⟨h1, h2⟩
    rcases hallow with h | h
    · rw [h] at h1
      simp at h1
    · exact h2 h
  unfold HMACMiddleware.ProcessRequest
  simp only [hauth, signatureHeader_ne_nil, if_false, hparse,
    generateHMACSignatureStringFromRequest, hget, hal, ← hsig2, signatureMatches_self,
    hskew, Bool.true_eq_false]
  split <;> rfl

/-- The round trip at a concrete signed request: `GET /a` with a `Date` header,
signed over `(request-target)` and `date` for key `9876`. -/
theorem hmac_sign_verify_round_trip_witness :
    ((sampleHMAC "secret".toList).ProcessRequest 1136239445000000000
        (sampleSigned "9876".toList "secret".toList
          ["(request-target)".toList, "date".toList])).1 = (none, StatusOK) :=
  hmac_sign_verify_round_trip (sampleHMAC "secret".toList) 1136239445000000000
    (sampleSigned "9876".toList "secret".toList ["(request-target)".toList, "date".toList])
    "9876".toList "secret".toList "hmac-sha1".toList
    "(request-target): get /a\ndate: Mon, 02 Jan 2006 15:04:05 MST".toList
    ["(request-target)".toList, "date".toList]
    { HmacSecret := "secret".toList, HMACEnabled := true }
    (by decide) (by decide) (by decide) (by decide) (by decide)
    (congrArg Except.ok (by decide)) (by decide)
    (by decide) (by decide) (by decide) (by decide) (by decide) (by decide)

/-- C1, as stated, fails. (1) An empty secret: the request carries the header
built with the signature for the empty secret, the session of key `9876` holds
the empty secret with HMAC enabled, no allow-list, the clock-skew check passes,
and `ProcessRequest` answers 400. (2) A keyId with a comma, `98,76`: the header
built from it does not parse, 400. (3) An empty list of header names: the header
reads back as the one name `""`, the signing string recomputed is `": "` instead
of `""`, 400 (with the stand-in digest). -/
theorem hmac_sign_verify_round_trip_counterexample :
    ((sampleHMAC []).CheckSessionAndIdentityForValidKey "9876".toList =
        some { HmacSecret := [], HMACEnabled := true } ∧
      (sampleSigned "9876".toList [] ["date".toList]).HeaderGet "Authorization".toList =
        signatureHeader "9876".toList "hmac-sha1".toList ["date".toList]
          (generateEncodedSignature sampleMac
            (signatureLines (sampleSigned "9876".toList [] ["date".toList]) ["date".toList])
            [] "hmac-sha1".toList) ∧
      (sampleHMAC []).checkClockSkew 1136239445000000000
        (getDateHeader (sampleSigned "9876".toList [] ["date".toList])).2 = true ∧
      ((sampleHMAC []).ProcessRequest 1136239445000000000
        (sampleSigned "9876".toList [] ["date".toList])).1 =
        (some "Authorization field missing, malformed or invalid".toList, 400)) ∧
    ((sampleHMAC "secret".toList).ProcessRequest 1136239445000000000
        (sampleSigned "98,76".toList "secret".toList ["date".toList])).1 =
        (some "Authorization field missing, malformed or invalid".toList, 400) ∧
    (getFieldValues (stripSignature
          ((sampleSigned "9876".toList "secret".toList []).HeaderGet
            "Authorization".toList))).toOption.map (fun f => f.Headers) = some [[]] ∧
      signatureLines (sampleSigned "9876".toList "secret".toList []) [] = [] ∧
      signatureLines (sampleSigned "9876".toList "secret".toList []) [[]] = ": ".toList ∧
      ((sampleHMAC "secret".toList).ProcessRequest 1136239445000000000
        (sampleSigned "9876".toList "secret".toList [])).1 =
        (some "Authorization field missing, malformed or invalid".toList, 400) := by
  decide

/-! ## The loop dispatcher -/

theorem isLoop_of_tyk (r : Request) (h : r.URL.Scheme = "tyk".toList) :
    isLoop r =
      if r.ctx.LoopLevel > (if r.ctx.LoopLevelLimit = 0 then 5 else r.ctx.LoopLevelLimit) then
        (true, some (loopLevelError
          (if r.ctx.LoopLevelLimit = 0 then 5 else r.ctx.LoopLevelLimit)))
      else (true, none) := by
  simp [isLoop, h, ctxLoopLevel, ctxLoopLevelLimit, defaultLoopLevelLimit]

theorem loopDispatch_chain (target : APISpec) (r : Request) :
    ∃ r2, loopDispatch target true r = .chain target r2 :=
  ⟨_, rfl⟩

/-- The dispatch ends in the chain of the target or, on a nil chain, in a
panic. -/
theorem loopDispatch_cases (target : APISpec) (middlewareChain : Bool) (r : Request) :
    (∃ r2, loopDispatch target middlewareChain r = .chain target r2) ∨
      loopDispatch target middlewareChain r = .crashed := by
  cases middlewareChain
  · exact Or.inr rfl
  · exact Or.inl ⟨_, rfl⟩

theorem serveHTTP_not_deep (d : DummyProxyHandler) (r : Request)
    (h : isLoop r = (true, none)) (msg : Str) (r2 : Request)
    (he : d.ServeHTTP r = .error msg StatusInternalServerError r2) :
    msg = "Can't detect loop target".toList := by
  unfold DummyProxyHandler.ServeHTTP at he
  rw [h] at he
  simp only [] at he
  by_cases hs : (loopRewrite r).URL.Hostname = "self".toList
  · rw [if_pos hs] at he
    rcases loopDispatch_cases d.Spec d.middlewareChain (loopRewrite r) with ⟨r3, h3⟩ | h3
    · rw [h3] at he
      exact absurd he (by simp)
    · rw [h3] at he
      exact absurd he (by simp)
  · rw [if_neg hs] at he
    cases hf : fuzzyFindAPI d.replaceNonAlphaNumeric d.apisByID
        (ctxSetVersionInfo (loopRewrite r) none).URL.Hostname with
    | none =>
      rw [hf] at he
      exact absurd he (by simp)
    | some found =>
      rw [hf] at he
      cases found with
      | none =>
        simp only [Served.error.injEq] at he
        exact he.1.symm
      | some api =>
        simp only [] at he
        rcases loopDispatch_cases api.Spec api.middlewareChain
          (ctxSetVersionInfo (loopRewrite r) none) with ⟨r3, h3⟩ | h3
        · rw [h3] at he
          exact absurd he (by simp)
        · rw [h3] at he
          exact absurd he (by simp)

/-- C3. Loop depth ceiling: for a request whose URL scheme is `tyk`, with the
ceiling the loop-level limit of the context, or 5 when that limit is 0, the
handler answers 500 with a "Loop level too deep" error, handing the request to
no chain, if and only if the loop depth of the context is strictly greater than
the ceiling; and `isLoop` returns `(false, nil)` for every request of another
scheme, whatever the depth. -/
theorem loop_depth_ceiling (d : DummyProxyHandler) (r : Request) :
    (r.URL.Scheme = "tyk".toList →
      ((∃ msg r2, d.ServeHTTP r = .error msg 500 r2 ∧
          "Loop level too deep".toList <+: msg) ↔
        r.ctx.LoopLevel > (if r.ctx.LoopLevelLimit = 0 then 5 else r.ctx.LoopLevelLimit)) ∧
      (r.ctx.LoopLevel > (if r.ctx.LoopLevelLimit = 0 then 5 else r.ctx.LoopLevelLimit) →
        d.ServeHTTP r =
          .error (loopLevelError
            (if r.ctx.LoopLevelLimit = 0 then 5 else r.ctx.LoopLevelLimit)) 500 r)) ∧
    (r.URL.Scheme ≠ "tyk".toList → isLoop r = (false, none)) := by
  refine ⟨fun h => ?_, fun h => by rw [isLoop, if_pos h]⟩
  have hl := isLoop_of_tyk r h
  have hdeep : r.ctx.LoopLevel > (if r.ctx.LoopLevelLimit = 0 then 5 else r.ctx.LoopLevelLimit) →
      d.ServeHTTP r =
        .error (loopLevelError
          (if r.ctx.LoopLevelLimit = 0 then 5 else r.ctx.LoopLevelLimit)) 500 r := by
    intro hgt
    rw [if_pos hgt] at hl
    unfold DummyProxyHandler.ServeHTTP
    rw [hl]
    rfl
  refine ⟨⟨?_, fun hgt => ⟨_, _, hdeep hgt, ?_⟩⟩, hdeep⟩
  · rintro ⟨msg, r2, he, hp⟩
    by_contra hgt
    rw [if_neg hgt] at hl
    have := serveHTTP_not_deep d r hl msg r2 he
    rw [this] at hp
    exact absurd hp (by decide)
  · unfold loopLevelError
    rw [List.append_assoc]
    have hp : "Loop level too deep".toList <+: "Loop level too deep. Found more than ".toList := by
      decide
    exact hp.trans (List.prefix_append _ _)

/-! ## The count map and the collision loop -/

theorem mapGet_mapIncr (count : List (Str × Nat)) (key k : Str) :
    mapGet (mapIncr count key) k = mapGet count k + (if key = k then 1 else 0) := by
  induction count with
  | nil =>
    by_cases h : key = k <;> simp [mapIncr, mapGet, List.find?, h]
  | cons kv rest ih =>
    obtain ⟨a, n⟩ := kv
    by_cases ha : a = key
    · subst ha
      by_cases hk : a = k
      · simp [mapIncr, mapGet, List.find?, hk]
      · simp [mapIncr, mapGet, List.find?, hk]
    · by_cases hk : a = k
      · have : ¬ key = k := fun e => ha (hk.trans e.symm)
        subst hk
        simp [mapIncr, mapGet, List.find?, ha, this]
      · have := ih
        simp only [mapGet] at this
        simp [mapIncr, mapGet, List.find?, ha, hk, this]

theorem mapGet_foldl (specs : List APISpec) (init : List (Str × Nat)) (k : Str) :
    mapGet (specs.foldl (fun count spec =>
        mapIncr count (generateDomainPath spec.Domain spec.ListenPath)) init) k =
      mapGet init k +
        specs.countP (fun s => decide (generateDomainPath s.Domain s.ListenPath = k)) := by
  induction specs generalizing init with
  | nil => simp
  | cons s rest ih =>
    rw [List.foldl_cons, ih, mapGet_mapIncr, List.countP_cons]
    by_cases h : generateDomainPath s.Domain s.ListenPath = k
    · simp [h]
      omega
    · simp [h]

/-- The count map holds, for every key, the number of specs with that domain
and listen path. -/
theorem mapGet_countApisByListenHash (specs : List APISpec) (k : Str) :
    mapGet (countApisByListenHash specs) k =
      specs.countP (fun s => decide (generateDomainPath s.Domain s.ListenPath = k)) := by
  rw [countApisByListenHash, mapGet_foldl]
  simp [mapGet]

theorem length_le_maxKeyLength (count : List (Str × Nat)) (k : Str)
    (h : mapGet count k ≠ 0) : k.length ≤ maxKeyLength count := by
  induction count with
  | nil => simp [mapGet] at h
  | cons kv rest ih =>
    by_cases hk : kv.1 = k
    · simp only [maxKeyLength, List.foldr_cons]
      rw [hk]
      exact le_max_left _ _
    · have h2 : mapGet rest k ≠ 0 := by
        simpa [mapGet, List.find?, hk] using h
      have := ih h2
      simp only [maxKeyLength, List.foldr_cons] at this ⊢
      exact le_trans this (le_max_right _ _)

theorem collisionLoop_succ (apisByListen : List (Str × Nat)) (prev : Option APISpec)
    (domain apiID : Str) (fuel : Nat) (pathModified : Bool) (listenPath : Str) :
    collisionLoop apisByListen prev domain apiID (fuel + 1) pathModified listenPath =
      if mapGet apisByListen (generateDomainPath domain listenPath) < 2 then some listenPath
      else if pathModified = false then
        if prevHasListenPath prev listenPath then some listenPath
        else collisionLoop apisByListen prev domain apiID fuel true
          (listenPath ++ '-' :: apiID)
      else collisionLoop apisByListen prev domain apiID fuel true (listenPath ++ ['_']) :=
  rfl

/-- The collision loop terminates: once the path is longer than every key of
the count map it is no duplicate, and every turn makes it longer. -/
theorem collisionLoop_terminates (apisByListen : List (Str × Nat)) (prev : Option APISpec)
    (domain apiID : Str) (fuel : Nat) (pathModified : Bool) (listenPath : Str)
    (h : maxKeyLength apisByListen + 1 ≤ fuel + (generateDomainPath domain listenPath).length) :
    ∃ p, collisionLoop apisByListen prev domain apiID (fuel + 1) pathModified listenPath =
      some p := by
  induction fuel generalizing pathModified listenPath with
  | zero =>
    have hlt : mapGet apisByListen (generateDomainPath domain listenPath) < 2 := by
      by_contra hc
      have hne : mapGet apisByListen (generateDomainPath domain listenPath) ≠ 0 := by omega
      have := length_le_maxKeyLength apisByListen _ hne
      omega
    exact ⟨listenPath, by rw [collisionLoop_succ, if_pos hlt]⟩
  | succ fuel ih =>
    by_cases hlt : mapGet apisByListen (generateDomainPath domain listenPath) < 2
    · exact ⟨listenPath, by rw [collisionLoop_succ, if_pos hlt]⟩
    · have hne : mapGet apisByListen (generateDomainPath domain listenPath) ≠ 0 := by omega
      have hlen := length_le_maxKeyLength apisByListen _ hne
      rw [collisionLoop_succ, if_neg hlt]
      by_cases hm : pathModified = false
      · rw [if_pos hm]
        split
        · exact ⟨_, rfl⟩
        · apply ih
          simp only [generateDomainPath, List.length_append, List.length_cons] at hlen h ⊢
          omega
      · rw [if_neg hm]
        apply ih
        simp only [generateDomainPath, List.length_append, List.length_cons,
          List.length_nil] at hlen h ⊢
        omega

theorem collisionLoop_modified (apisByListen : List (Str × Nat)) (prev : Option APISpec)
    (domain apiID : Str) (fuel : Nat) (listenPath p : Str)
    (h : collisionLoop apisByListen prev domain apiID fuel true listenPath = some p) :
    ∃ k, p = listenPath ++ List.replicate k '_' ∧
      mapGet apisByListen (generateDomainPath domain p) < 2 := by
  induction fuel generalizing listenPath with
  | zero => simp [collisionLoop] at h
  | succ fuel ih =>
    rw [collisionLoop_succ] at h
    split at h
    · rename_i hlt
      simp only [Option.some.injEq] at h
      subst h
      exact ⟨0, by simp, hlt⟩
    · simp only [Bool.true_eq_false, if_false] at h
      obtain ⟨k, hk, hlt⟩ := ih _ h
      refine ⟨k + 1, ?_, hlt⟩
      rw [hk, List.replicate_succ]
      simp

/-- What the collision loop ends with, started on the listen path of a spec. -/
theorem collisionLoop_result (apisByListen : List (Str × Nat)) (prev : Option APISpec)
    (domain apiID : Str) (fuel : Nat) (listenPath p : Str)
    (h : collisionLoop apisByListen prev domain apiID fuel false listenPath = some p) :
    (mapGet apisByListen (generateDomainPath domain listenPath) < 2 → p = listenPath) ∧
    (2 ≤ mapGet apisByListen (generateDomainPath domain listenPath) →
      (prevHasListenPath prev listenPath = true → p = listenPath) ∧
      (prevHasListenPath prev listenPath = false →
        ∃ k, p = listenPath ++ '-' :: apiID ++ List.replicate k '_' ∧
          mapGet apisByListen (generateDomainPath domain p) < 2)) := by
  cases fuel with
  | zero => simp [collisionLoop] at h
  | succ fuel =>
    rw [collisionLoop_succ] at h
    by_cases hlt : mapGet apisByListen (generateDomainPath domain listenPath) < 2
    · rw [if_pos hlt] at h
      simp only [Option.some.injEq] at h
      exact ⟨fun _ => h.symm, fun h2 => absurd hlt (by omega)⟩
    · rw [if_neg hlt] at h
      simp only [if_true] at h
      refine ⟨fun h2 => absurd h2 hlt, fun _ => ⟨?_, ?_⟩⟩
      · intro hq
        rw [if_pos hq] at h
        simp only [Option.some.injEq] at h
        exact h.symm
      · intro hfalse
        rw [hfalse] at h
        simp only [Bool.false_eq_true, if_false] at h
        obtain ⟨k, hk, hlt2⟩ := collisionLoop_modified _ _ _ _ _ _ _ h
        exact ⟨k, by rw [hk], hlt2⟩

theorem resolveListenPath_eq (apisByListen : List (Str × Nat)) (apisByID : List LoadedAPI)
    (spec : APISpec) :
    collisionLoop apisByListen (getApiSpec apisByID spec.APIID) spec.Domain spec.APIID
        (maxKeyLength apisByListen + 2) false spec.ListenPath =
      some (resolveListenPath apisByListen apisByID spec) := by
  obtain ⟨p, hp⟩ := collisionLoop_terminates apisByListen (getApiSpec apisByID spec.APIID)
    spec.Domain spec.APIID (maxKeyLength apisByListen + 1) false spec.ListenPath (by omega)
  rw [resolveListenPath, hp]
  rfl

/-- When the suffixed path is no duplicate key, the loop ends with exactly
`<path>-<APIID>`. -/
theorem resolveListenPath_suffixed (apisByListen : List (Str × Nat)) (apisByID : List LoadedAPI)
    (spec : APISpec)
    (h2 : 2 ≤ mapGet apisByListen (generateDomainPath spec.Domain spec.ListenPath))
    (hprev : prevHasListenPath (getApiSpec apisByID spec.APIID) spec.ListenPath = false)
    (h0 : mapGet apisByListen
      (generateDomainPath spec.Domain (spec.ListenPath ++ '-' :: spec.APIID)) < 2) :
    resolveListenPath apisByListen apisByID spec = spec.ListenPath ++ '-' :: spec.APIID := by
  have hn : ¬ mapGet apisByListen (generateDomainPath spec.Domain spec.ListenPath) < 2 := by
    omega
  rw [resolveListenPath, collisionLoop_succ, if_neg hn, if_pos rfl, hprev,
    if_neg (by simp), collisionLoop_succ, if_pos h0]
  rfl

theorem sortByListenPath_perm (specs : List APISpec) :
    (sortByListenPath specs).Perm specs :=
  List.perm_insertionSort _ _

theorem processSpec_listenOn (urlParseOk : Str → Bool) (apisByID : List LoadedAPI)
    (spec : APISpec) (apisByListen : List (Str × Nat)) (subrouter : Str)
    (hvalid : skipSpecBecauseInvalid urlParseOk spec = false) :
    (processSpec urlParseOk apisByID spec apisByListen subrouter).ListenOn =
        resolveListenPath apisByListen apisByID spec ++ "\x7brest:.*\x7d".toList ∧
      (processSpec urlParseOk apisByID spec apisByListen subrouter).Spec.ListenPath =
        resolveListenPath apisByListen apisByID spec ∧
      (processSpec urlParseOk apisByID spec apisByListen subrouter).Skip = spec.Internal ∧
      (processSpec urlParseOk apisByID spec apisByListen subrouter).Subrouter = subrouter := by
  simp [processSpec, hvalid]

/-- C4 (amended). Listen-path collision resolution: for every list of specs
loaded together and every valid spec of it whose domain-and-listen-path key is
shared by two or more specs of the list: when its API id was already loaded
with this same listen path it keeps the path; otherwise it is suffixed, its
chain listening on `<path>-<APIID>` followed by zero or more `_`.  With nothing
loaded before, two valid specs with host "" and listen path `/v1` both register
suffixed, as `/v1-<APIID>` each with its own id. -/
theorem listen_path_collision (urlParseOk : Str → Bool) (enableCustomDomains : Bool)
    (apisByID : List LoadedAPI) (specs : List APISpec) (s1 s2 : APISpec) :
    (∀ p ∈ loadList urlParseOk enableCustomDomains apisByID (sortByListenPath specs),
      skipSpecBecauseInvalid urlParseOk p.1 = false →
      2 ≤ specs.countP (fun s => decide (generateDomainPath s.Domain s.ListenPath =
        generateDomainPath p.1.Domain p.1.ListenPath)) →
      (prevHasListenPath (getApiSpec apisByID p.1.APIID) p.1.ListenPath = true →
        p.2.ListenOn = p.1.ListenPath ++ "\x7brest:.*\x7d".toList) ∧
      (prevHasListenPath (getApiSpec apisByID p.1.APIID) p.1.ListenPath = false →
        ∃ k, p.2.ListenOn = p.1.ListenPath ++ '-' :: p.1.APIID ++ List.replicate k '_' ++
          "\x7brest:.*\x7d".toList)) ∧
    (s1.Domain = [] ∧ s1.ListenPath = "/v1".toList ∧ s1.Internal = false ∧
        urlParseOk s1.TargetURL = true ∧
      s2.Domain = [] ∧ s2.ListenPath = "/v1".toList ∧ s2.Internal = false ∧
        urlParseOk s2.TargetURL = true →
      registeredPaths (loadApps urlParseOk enableCustomDomains [] [s1, s2]) [] =
        ["/v1".toList ++ '-' :: s1.APIID, "/v1".toList ++ '-' :: s2.APIID]) := by
  constructor
  · intro p hp hvalid hdup
    simp only [loadList, List.mem_map] at hp
    obtain ⟨spec, _, rfl⟩ := hp
    simp only [] at hvalid hdup ⊢
    have hcount : 2 ≤ mapGet (countApisByListenHash (sortByListenPath specs))
        (generateDomainPath spec.Domain spec.ListenPath) := by
      rw [mapGet_countApisByListenHash, (sortByListenPath_perm specs).countP_eq]
      exact hdup
    have hres := collisionLoop_result _ _ _ _ _ _ _
      (resolveListenPath_eq (countApisByListenHash (sortByListenPath specs)) apisByID spec)
    have hon := (processSpec_listenOn urlParseOk apisByID spec
      (countApisByListenHash (sortByListenPath specs)) (routerFor enableCustomDomains spec)
      hvalid).1
    rw [hon]
    refine ⟨fun hprev => ?_, fun hprev => ?_⟩
    · rw [(hres.2 hcount).1 hprev]
    · obtain ⟨k, hk, _⟩ := (hres.2 hcount).2 hprev
      exact ⟨k, by rw [hk]⟩
  · rintro ⟨d1, l1, i1, u1, d2, l2, i2, u2⟩
    have hsort : sortByListenPath [s1, s2] = [s1, s2] := by
      simp [sortByListenPath, List.insertionSort, List.orderedInsert, longerListenPath, l1, l2]
    have v1 : skipSpecBecauseInvalid urlParseOk s1 = false := by
      simp [skipSpecBecauseInvalid, l1, u1]
    have v2 : skipSpecBecauseInvalid urlParseOk s2 = false := by
      simp [skipSpecBecauseInvalid, l2, u2]
    have hc : ∀ k, mapGet (countApisByListenHash [s1, s2]) k =
        if "/v1".toList = k then 2 else 0 := by
      intro k
      rw [mapGet_countApisByListenHash]
      simp only [List.countP_cons, List.countP_nil, generateDomainPath, d1, d2, l1, l2,
        List.nil_append, decide_eq_true_eq, Nat.zero_add]
      split_ifs <;> rfl
    have hne : ∀ id : Str, ¬ ("/v1".toList = "/v1".toList ++ '-' :: id) := by
      intro id h
      have := congrArg List.length h
      simp at this
    have r1 : resolveListenPath (countApisByListenHash [s1, s2]) [] s1 =
        "/v1".toList ++ '-' :: s1.APIID := by
      have := resolveListenPath_suffixed (countApisByListenHash [s1, s2]) [] s1
        (by rw [hc]; simp [generateDomainPath, d1, l1]) (by simp [getApiSpec, prevHasListenPath])
        (by rw [hc, generateDomainPath, d1, l1, List.nil_append, if_neg (hne _)]; decide)
      rw [this, l1]
    have r2 : resolveListenPath (countApisByListenHash [s1, s2]) [] s2 =
        "/v1".toList ++ '-' :: s2.APIID := by
      have := resolveListenPath_suffixed (countApisByListenHash [s1, s2]) [] s2
        (by rw [hc]; simp [generateDomainPath, d2, l2]) (by simp [getApiSpec, prevHasListenPath])
        (by rw [hc, generateDomainPath, d2, l2, List.nil_append, if_neg (hne _)]; decide)
      rw [this, l2]
    have p1 := processSpec_listenOn urlParseOk [] s1 (countApisByListenHash [s1, s2])
      (routerFor enableCustomDomains s1) v1
    have p2 := processSpec_listenOn urlParseOk [] s2 (countApisByListenHash [s1, s2])
      (routerFor enableCustomDomains s2) v2
    have q1 : routerFor enableCustomDomains s1 = [] := by simp [routerFor, d1]
    have q2 : routerFor enableCustomDomains s2 = [] := by simp [routerFor, d2]
    rw [r1] at p1
    rw [r2] at p2
    rw [q1] at p1
    rw [q2] at p2
    rw [loadApps, hsort, loadAppsSorted, loadList]
    simp only [List.map_cons, List.map_nil]
    rw [q1, q2]
    generalize processSpec urlParseOk [] s1 (countApisByListenHash [s1, s2]) [] = c1 at p1
    generalize processSpec urlParseOk [] s2 (countApisByListenHash [s1, s2]) [] = c2 at p2
    obtain ⟨-, a1, a2, a3⟩ := p1
    obtain ⟨-, b1, b2, b3⟩ := p2
    rw [i1] at a2
    rw [i2] at b2
    cases ho1 : c1.Open <;> cases ho2 : c2.Open <;>
      simp [registerRoutes, registeredPaths, a1, a2, a3, b1, b2, b3, ho1, ho2]

/-- C4, as stated, fails: two specs with host "" and listen path `/v1`, ids
`a` and `b`, nothing loaded before.  Both register suffixed, as `/v1-a` and
`/v1-b`; none registers as `/v1`. -/
theorem listen_path_collision_counterexample :
    registeredPaths (sampleLoad [sampleSpec "a" "/v1", sampleSpec "b" "/v1"]) [] =
        ["/v1-a".toList, "/v1-b".toList] ∧
      (registeredPaths (sampleLoad [sampleSpec "a" "/v1", sampleSpec "b" "/v1"]) []).count
        "/v1".toList = 0 := by
  decide

/-- C5 at its failing inputs.  (1) Specs `c` on `/v1-a` and `a`, `b` both on
`/v1`, nothing loaded before: `a` is renamed to `/v1-a`, which `c` holds, and
the two are registered under the same path.  (2) Specs `a` and `b` both on `/v1`
of the default host, loaded before on two other hosts with that listen path:
both keep `/v1`. -/
theorem distinct_registered_paths_fails :
    registeredPaths
        (sampleLoad [sampleSpec "c" "/v1-a", sampleSpec "a" "/v1", sampleSpec "b" "/v1"]) [] =
        ["/v1-a".toList, "/v1-a".toList, "/v1-b".toList] ∧
      registeredPaths
        (loadApps (fun _ => true) true
          [{ Spec := { sampleSpec "a" "/v1" with Domain := "one.example".toList } },
           { Spec := { sampleSpec "b" "/v1" with Domain := "two.example".toList } }]
          [sampleSpec "a" "/v1", sampleSpec "b" "/v1"]) [] =
        ["/v1".toList, "/v1".toList] := by
  decide

/-- C6 at its failing input.  Specs `q` on `/v1-beta` and `beta2`, `y` both on
`/v1`, nothing loaded before: they are registered in the order `/v1-beta`,
`/v1-beta2`, `/v1-y`, so that `/v1-beta` is a proper prefix of `/v1-beta2` and is
tried first; the request `/v1-beta2/users` goes to the chain of `q`. -/
theorem longest_prefix_routing_fails :
    registeredPaths
        (sampleLoad [sampleSpec "q" "/v1-beta", sampleSpec "beta2" "/v1", sampleSpec "y" "/v1"])
        [] = ["/v1-beta".toList, "/v1-beta2".toList, "/v1-y".toList] ∧
      (routeRequest
        (sampleLoad [sampleSpec "q" "/v1-beta", sampleSpec "beta2" "/v1", sampleSpec "y" "/v1"])
        [] "/v1-beta2/users".toList).map (fun rt => (rt.Handler.Spec.APIID, rt.Template)) =
        some ("q".toList, "/v1-beta\x7brest:.*\x7d".toList) := by
  decide

/-- C7, as stated, fails: two specs with listen path `/v1`, ids `x` and
`longid`, nothing loaded before, are registered as `/v1-x` then `/v1-longid`: the
lengths of the registered paths, 5 then 10, increase, while the listen paths the
sort compared have the same length. -/
theorem registration_order_counterexample :
    (registeredPaths (sampleLoad [sampleSpec "x" "/v1", sampleSpec "longid" "/v1"]) []).map
        List.length = [5, 10] ∧
      (sortByListenPath [sampleSpec "x" "/v1", sampleSpec "longid" "/v1"]).map
        (fun s => s.ListenPath.length) = [3, 3] := by
  decide

/-! ## Registration order -/

theorem registerRoutes_main (chains : List ChainObject) (router : Str) :
    ((registerRoutes chains).filter
        (fun rt => decide (rt.Router = router ∧ rt.RateLimit = false))).map
        (fun rt => rt.Handler) =
      chains.filter (fun c => decide (c.Skip = false ∧ c.Subrouter = router)) := by
  induction chains with
  | nil => simp [registerRoutes]
  | cons c rest ih =>
    rw [registerRoutes]
    cases hs : c.Skip
    · cases ho : c.Open
      · by_cases hr : c.Subrouter = router
        · simpa [List.filter_cons, hr, hs] using ih
        · simpa [List.filter_cons, hr, hs] using ih
      · by_cases hr : c.Subrouter = router
        · simpa [List.filter_cons, hr, hs] using ih
        · simpa [List.filter_cons, hr, hs] using ih
    · simpa [List.filter_cons, hs] using ih

theorem loadList_origins (urlParseOk : Str → Bool) (enableCustomDomains : Bool)
    (apisByID : List LoadedAPI) (specs : List APISpec) :
    (loadList urlParseOk enableCustomDomains apisByID specs).map (fun p => p.1) = specs := by
  rw [loadList, List.map_map]
  exact List.map_id _

/-- C7 (amended). Registration order: for every list of specs passed to
`loadApps` and every router, the chains registered on the router are those of
the specs that are not skipped, in the order of the sorted specs, which is the
non-increasing order of the length of the listen path as given (before any
collision suffix); paths of equal length keep the order the sort left them. -/
theorem registration_order (urlParseOk : Str → Bool) (enableCustomDomains : Bool)
    (apisByID : List LoadedAPI) (specs : List APISpec) (router : Str) :
    ((loadApps urlParseOk enableCustomDomains apisByID specs).filter
        (fun rt => decide (rt.Router = router ∧ rt.RateLimit = false))).map
        (fun rt => rt.Handler) =
      ((loadList urlParseOk enableCustomDomains apisByID (sortByListenPath specs)).filter
        (fun p => decide (p.2.Skip = false ∧ p.2.Subrouter = router))).map (fun p => p.2) ∧
    (((loadList urlParseOk enableCustomDomains apisByID (sortByListenPath specs)).filter
        (fun p => decide (p.2.Skip = false ∧ p.2.Subrouter = router))).map
        (fun p => p.1)).Pairwise
      (fun a b => a.ListenPath.length ≥ b.ListenPath.length) ∧
    ((loadList urlParseOk enableCustomDomains apisByID (sortByListenPath specs)).map
        (fun p => p.1)).Perm specs := by
  refine ⟨?_, ?_, ?_⟩
  · rw [loadApps, loadAppsSorted, registerRoutes_main, List.filter_map]
    rfl
  · have hsorted : (sortByListenPath specs).Pairwise longerListenPath :=
      List.sorted_insertionSort longerListenPath specs
    have hsub : (((loadList urlParseOk enableCustomDomains apisByID
        (sortByListenPath specs)).filter
        (fun p => decide (p.2.Skip = false ∧ p.2.Subrouter = router))).map
        (fun p => p.1)).Sublist (sortByListenPath specs) := by
      have := (List.filter_sublist
        (p := fun p : APISpec × ChainObject =>
          decide (p.2.Skip = false ∧ p.2.Subrouter = router))
        (loadList urlParseOk enableCustomDomains apisByID (sortByListenPath specs))).map
        (fun p => p.1)
      rwa [loadList_origins] at this
    exact hsorted.sublist hsub
  · rw [loadList_origins]
    exact sortByListenPath_perm specs

/-! ## The OAuth2 key check -/

/-- The run of `Oauth2KeyExists.ProcessRequest` on a bearer token whose session
exists. -/
theorem oauth_run_of_session (k : Oauth2KeyExists) (cache : UtilCache) (now : Int)
    (r : Request) (part0 accessToken : Str) (more : List Str) (session : SessionState)
    (hparts : Split ' ' (r.HeaderGet "Authorization".toList) = part0 :: accessToken :: more)
    (hbearer : ToLower part0 = "bearer".toList)
    (hsess : k.CheckSessionAndIdentityForValidKey accessToken = some session) :
    k.ProcessRequest cache now r =
      if (oauthClientDeletedCheck k cache now session).1 = true then
        ⟨(some "Key not authorised. OAuth client access was revoked".toList, StatusForbidden),
          r, (oauthClientDeletedCheck k cache now session).2.1,
          (oauthClientDeletedCheck k cache now session).2.2⟩
      else if k.Spec.BaseIdentityProvidedBy = OAuthKey ∨
          k.Spec.BaseIdentityProvidedBy = UnsetAuth then
        ⟨(none, StatusOK), setSessionValue k.HashKey r session accessToken false,
          (oauthClientDeletedCheck k cache now session).2.1,
          (oauthClientDeletedCheck k cache now session).2.2⟩
      else
        ⟨(none, StatusOK), r, (oauthClientDeletedCheck k cache now session).2.1,
          (oauthClientDeletedCheck k cache now session).2.2⟩ := by
  unfold Oauth2KeyExists.ProcessRequest
  simp only [hparts, hbearer, hsess, ne_eq, not_true_eq_false, if_false]

/-- C10. OAuth2 client-deleted cache protocol: for every request carrying a
bearer token with an existing session, with the cache key
`"oauth-del-" + apiID + clientID`: on a cache hit the cached flag alone decides,
`GetClient` is not called and the cache is left as it was; on a miss `GetClient`
is called exactly once, and if it reports an error the flag true is cached with
no expiry (`Set(key, true, -1)`) and the request is rejected with 403, otherwise
the flag false is cached for one second (`Set(key, false, 1s)`) and the request
passes with `(nil, 200)`.
The request is rejected (403, "OAuth client access was revoked") if and only if
the resulting flag is true. -/
theorem oauth_client_deleted_cache (k : Oauth2KeyExists) (cache : UtilCache) (now : Int)
    (r : Request) (part0 accessToken : Str) (more : List Str) (session : SessionState)
    (hparts : Split ' ' (r.HeaderGet "Authorization".toList) = part0 :: accessToken :: more)
    (hbearer : ToLower part0 = "bearer".toList)
    (hsess : k.CheckSessionAndIdentityForValidKey accessToken = some session) :
    (∀ flag, UtilCache.Get cache now
        ("oauth-del-".toList ++ k.Spec.APIID ++ session.OauthClientID) = some flag →
      (k.ProcessRequest cache now r).getClientCalls = [] ∧
      (k.ProcessRequest cache now r).cache = cache ∧
      (oauthClientDeletedCheck k cache now session).1 = flag) ∧
    (UtilCache.Get cache now
        ("oauth-del-".toList ++ k.Spec.APIID ++ session.OauthClientID) = none →
      (k.ProcessRequest cache now r).getClientCalls = [session.OauthClientID] ∧
      ((∃ e, k.GetClient session.OauthClientID = .error e) →
        (k.ProcessRequest cache now r).cache =
          UtilCache.Set cache now
            ("oauth-del-".toList ++ k.Spec.APIID ++ session.OauthClientID) true (-1) ∧
        UtilCache.Get (k.ProcessRequest cache now r).cache now
            ("oauth-del-".toList ++ k.Spec.APIID ++ session.OauthClientID) = some true ∧
        (oauthClientDeletedCheck k cache now session).1 = true ∧
        (k.ProcessRequest cache now r).result.2 = StatusForbidden) ∧
      (k.GetClient session.OauthClientID = .ok () →
        (k.ProcessRequest cache now r).cache =
          UtilCache.Set cache now
            ("oauth-del-".toList ++ k.Spec.APIID ++ session.OauthClientID) false 1000000000 ∧
        (oauthClientDeletedCheck k cache now session).1 = false ∧
        (k.ProcessRequest cache now r).result = (none, StatusOK))) ∧
    ((k.ProcessRequest cache now r).result =
        (some "Key not authorised. OAuth client access was revoked".toList, StatusForbidden) ↔
      (oauthClientDeletedCheck k cache now session).1 = true) ∧
    ((oauthClientDeletedCheck k cache now session).1 = false →
      (k.ProcessRequest cache now r).result = (none, StatusOK)) := by
  have hrun := oauth_run_of_session k cache now r part0 accessToken more session hparts hbearer
    hsess
  have hkey : oauthClientDeletedKey k session =
      "oauth-del-".toList ++ k.Spec.APIID ++ session.OauthClientID := rfl
  refine ⟨?_, ?_, ?_, ?_⟩
  · intro flag hget
    have hc : oauthClientDeletedCheck k cache now session = (flag, cache, []) := by
      rw [oauthClientDeletedCheck, hkey, hget]
    rw [hrun, hc]
    refine ⟨?_, ?_, rfl⟩ <;> (simp only []; split_ifs <;> rfl)
  · intro hget
    refine ⟨?_, ?_, ?_⟩
    · have hc : (oauthClientDeletedCheck k cache now session).2.2 = [session.OauthClientID] := by
        rw [oauthClientDeletedCheck, hkey, hget]
        simp only []
        split <;> rfl
      rw [hrun]
      split_ifs <;> exact hc
    · rintro ⟨e, he⟩
      have hc : oauthClientDeletedCheck k cache now session =
          (true, UtilCache.Set cache now (oauthClientDeletedKey k session) true (-1),
            [session.OauthClientID]) := by
        rw [oauthClientDeletedCheck, hkey, hget]
        simp only [he]
      rw [hrun, hc]
      refine ⟨rfl, ?_, rfl, rfl⟩
      simp [UtilCache.Set, UtilCache.Get, hkey]
    · intro hok
      have hc : oauthClientDeletedCheck k cache now session =
          (false, UtilCache.Set cache now (oauthClientDeletedKey k session) false
            checkOAuthClientDeletedInetrval, [session.OauthClientID]) := by
        rw [oauthClientDeletedCheck, hkey, hget]
        simp only [hok]
      rw [hrun, hc]
      refine ⟨?_, rfl, ?_⟩
      · simp only [Bool.false_eq_true, if_false]
        split_ifs <;> rfl
      · simp only [Bool.false_eq_true, if_false]
        split_ifs <;> rfl
  · rw [hrun]
    constructor
    · intro h
      by_contra hn
      rw [if_neg hn] at h
      split_ifs at h <;> simp [StatusOK, StatusForbidden] at h
    · intro h
      rw [if_pos h]
  · intro h
    rw [hrun, if_neg (by simp [h])]
    split_ifs <;> rfl

/-- The protocol at a concrete run: an empty cache and a client that the
storage has lost. -/
theorem oauth_client_deleted_cache_witness :
    (sampleOAuth.ProcessRequest [] 5 (sampleBearer "tok")).result =
        (some "Key not authorised. OAuth client access was revoked".toList, StatusForbidden) ↔
      (oauthClientDeletedCheck sampleOAuth [] 5 { OauthClientID := "cl".toList }).1 = true :=
  (oauth_client_deleted_cache sampleOAuth [] 5 (sampleBearer "tok") "Bearer".toList
    "tok".toList [] { OauthClientID := "cl".toList } (by decide) (by decide)
    (by decide)).2.2.1

/-! ## Unknown keys -/

/-- C9 (amended). Unknown key status: a request whose bearer token is well
formed but names a key that is not found is rejected by
`Oauth2KeyExists.ProcessRequest` with status 403; a request whose `Signature`
header parses but names a key that is not found is rejected by
`HMACMiddleware.ProcessRequest` with status 400, the status of every failure of
that middleware. -/
theorem unknown_key_status (k : Oauth2KeyExists) (cache : UtilCache) (hm : HMACMiddleware)
    (now : Int) (r : Request) :
    (∀ part0 accessToken more,
      Split ' ' (r.HeaderGet "Authorization".toList) = part0 :: accessToken :: more →
      ToLower part0 = "bearer".toList →
      k.CheckSessionAndIdentityForValidKey accessToken = none →
      (k.ProcessRequest cache now r).result =
        (some "Key not authorised".toList, StatusForbidden)) ∧
    (∀ fieldValues,
      r.HeaderGet "Authorization".toList ≠ [] →
      getFieldValues (stripSignature (r.HeaderGet "Authorization".toList)) = .ok fieldValues →
      hm.CheckSessionAndIdentityForValidKey fieldValues.KeyID = none →
      (hm.ProcessRequest now r).1 =
        (some "Authorization field missing, malformed or invalid".toList,
          StatusBadRequest)) := by
  constructor
  · intro part0 accessToken more hparts hbearer hnone
    unfold Oauth2KeyExists.ProcessRequest
    simp only [hparts, hbearer, hnone, ne_eq, not_true_eq_false, if_false]
  · intro fieldValues hne hparse hnone
    unfold HMACMiddleware.ProcessRequest
    simp only [hne, if_false, hparse, generateHMACSignatureStringFromRequest,
      HMACMiddleware.getSecretAndSessionForKeyID, hnone]
    rfl

/-- C9, as stated, fails for HMAC: the signed request names the key `1234`,
which the session store does not hold, its `Signature` header parses, and
`HMACMiddleware.ProcessRequest` answers 400, not 403. -/
theorem unknown_key_status_counterexample :
    (sampleHMAC "secret".toList).CheckSessionAndIdentityForValidKey "1234".toList = none ∧
      (getFieldValues (stripSignature
        ((sampleSigned "1234".toList "secret".toList ["date".toList]).HeaderGet
          "Authorization".toList))).toOption.map (fun f => f.KeyID) = some "1234".toList ∧
      ((sampleHMAC "secret".toList).ProcessRequest 1136239445000000000
        (sampleSigned "1234".toList "secret".toList ["date".toList])).1.2 = 400 := by
  decide

/-! ## Base identity -/

theorem setContextVars_session (hm : HMACMiddleware) (r : Request) (token : Str) :
    (hm.setContextVars r token).ctx.SessionData = r.ctx.SessionData ∧
      (hm.setContextVars r token).ctx.AuthToken = r.ctx.AuthToken := by
  unfold HMACMiddleware.setContextVars
  split
  · exact ⟨rfl, rfl⟩
  · split <;> exact ⟨rfl, rfl⟩

theorem setSessionValue_ctx (hashKey : Str → Str) (r : Request) (s : SessionState)
    (token : Str) :
    (setSessionValue hashKey r s token false).ctx.SessionData =
        some (withKeyHash hashKey s (if token = [] then GetAuthToken r else token)) ∧
      (setSessionValue hashKey r s token false).ctx.AuthToken =
        some (if token = [] then GetAuthToken r else token) := by
  simp [setSessionValue, withKeyHash]

/-- A run of `HMACMiddleware.ProcessRequest` that succeeds found the session of
the keyId of the header, and leaves the request as the final switch says. -/
theorem hmac_success (hm : HMACMiddleware) (now : Int) (r : Request)
    (h : (hm.ProcessRequest now r).1 = (none, StatusOK)) :
    ∃ fieldValues session,
      getFieldValues (stripSignature (r.HeaderGet "Authorization".toList)) =
        .ok fieldValues ∧
      hm.CheckSessionAndIdentityForValidKey fieldValues.KeyID = some session ∧
      (hm.ProcessRequest now r).2 =
        if hm.Spec.BaseIdentityProvidedBy = HMACKey ∨
            hm.Spec.BaseIdentityProvidedBy = UnsetAuth then
          hm.setContextVars (setSessionValue hm.HashKey r session fieldValues.KeyID false)
            fieldValues.KeyID
        else r := by
  have hbad : ¬ (hm.authorizationError r = (none, StatusOK)) := by
    intro hq
    simp [HMACMiddleware.authorizationError] at hq
  by_cases h0 : r.HeaderGet "Authorization".toList = []
  · simp only [HMACMiddleware.ProcessRequest, h0, if_true] at h
    exact absurd h hbad
  cases hparse : getFieldValues (stripSignature (r.HeaderGet "Authorization".toList)) with
  | error e =>
    simp only [HMACMiddleware.ProcessRequest, h0, if_false, hparse] at h
    exact absurd h hbad
  | ok fieldValues =>
    cases hget : hm.getSecretAndSessionForKeyID r fieldValues.KeyID with
    | error e =>
      simp only [HMACMiddleware.ProcessRequest, h0, if_false, hparse,
        generateHMACSignatureStringFromRequest, hget] at h
      exact absurd h hbad
    | ok found =>
      obtain ⟨secret, session⟩ := found
      have hsess : hm.CheckSessionAndIdentityForValidKey fieldValues.KeyID = some session := by
        unfold HMACMiddleware.getSecretAndSessionForKeyID at hget
        split at hget
        · exact absurd hget (by simp)
        · rename_i s hs
          split at hget
          · exact absurd hget (by simp)
          · simp only [Except.ok.injEq, Prod.mk.injEq] at hget
            rw [hs, hget.2]
      refine ⟨fieldValues, session, rfl, hsess, ?_⟩
      by_cases hal : hm.Spec.HmacAllowedAlgorithms.length > 0 ∧
          ¬ fieldValues.Algorthm ∈ hm.Spec.HmacAllowedAlgorithms
      · simp only [HMACMiddleware.ProcessRequest, h0, if_false, hparse,
          generateHMACSignatureStringFromRequest, hget, hal, if_true] at h
        exact absurd h hbad
      by_cases hm1 : signatureMatches
          (generateEncodedSignature hm.mac (signatureLines r fieldValues.Headers) secret
            fieldValues.Algorthm) fieldValues.Signature = false
      · simp only [HMACMiddleware.ProcessRequest, h0, if_false, hparse,
          generateHMACSignatureStringFromRequest, hget, hal, hm1, if_true] at h
        exact absurd h hbad
      by_cases hm2 : hm.checkClockSkew now (getDateHeader r).2 = false
      · simp only [HMACMiddleware.ProcessRequest, h0, if_false, hparse,
          generateHMACSignatureStringFromRequest, hget, hal, hm1, hm2, if_true] at h
        exact absurd h hbad
      simp only [HMACMiddleware.ProcessRequest, h0, if_false, hparse,
        generateHMACSignatureStringFromRequest, hget, hal, hm1, hm2, Bool.true_eq_false]
      split <;> rfl

/-- A run of `Oauth2KeyExists.ProcessRequest` that succeeds found the session
of the bearer token, and leaves the request as the final switch says. -/
theorem oauth_success (k : Oauth2KeyExists) (cache : UtilCache) (now : Int) (r : Request)
    (h : (k.ProcessRequest cache now r).result = (none, StatusOK)) :
    ∃ part0 accessToken more session,
      Split ' ' (r.HeaderGet "Authorization".toList) = part0 :: accessToken :: more ∧
      k.CheckSessionAndIdentityForValidKey accessToken = some session ∧
      (k.ProcessRequest cache now r).request =
        if k.Spec.BaseIdentityProvidedBy = OAuthKey ∨
            k.Spec.BaseIdentityProvidedBy = UnsetAuth then
          setSessionValue k.HashKey r session accessToken false
        else r := by
  cases hparts : Split ' ' (r.HeaderGet "Authorization".toList) with
  | nil =>
    simp only [Oauth2KeyExists.ProcessRequest, hparts] at h
    simp [StatusOK, StatusBadRequest] at h
  | cons part0 rest =>
    cases rest with
    | nil =>
      simp only [Oauth2KeyExists.ProcessRequest, hparts] at h
      simp [StatusOK, StatusBadRequest] at h
    | cons accessToken more =>
      by_cases hb : ToLower part0 = "bearer".toList
      · cases hsess : k.CheckSessionAndIdentityForValidKey accessToken with
        | none =>
          simp only [Oauth2KeyExists.ProcessRequest, hparts, hb, hsess, ne_eq,
            not_true_eq_false, if_false] at h
          simp [StatusOK, StatusForbidden] at h
        | some session =>
          refine ⟨part0, accessToken, more, session, rfl, hsess, ?_⟩
          have hrun := oauth_run_of_session k cache now r part0 accessToken more session
            hparts hb hsess
          rw [hrun] at h ⊢
          by_cases hc : (oauthClientDeletedCheck k cache now session).1 = true
          · rw [if_pos hc] at h
            simp [StatusOK, StatusForbidden] at h
          · rw [if_neg hc]
            split <;> rfl
      · simp only [Oauth2KeyExists.ProcessRequest, hparts, hb, ne_eq, not_false_eq_true,
          if_true] at h
        simp [StatusOK, StatusBadRequest] at h

/-- C8. Base identity selection: a run of HMAC (respectively OAuth2)
verification that succeeds returns `(nil, 200)`; while
`base_identity_provided_by` names another scheme (neither that scheme nor
unset) it leaves the request, and so the session and auth token of its context,
unchanged; when the selector names that scheme or is unset, the session of the
context becomes the session found for that scheme's key (its key hash filled in
when empty) and the auth token that key (keyId for HMAC, bearer token for
OAuth2; an empty key keeps the token of the context).  With Basic and standard
token and base identity `auth_token`, after both succeed the session of the
context is the token's, not the Basic one. -/
theorem base_identity_selection (hm : HMACMiddleware) (k : Oauth2KeyExists)
    (cache : UtilCache) (base : BaseMiddleware) (now : Int) (r : Request) :
    ((hm.ProcessRequest now r).1 = (none, StatusOK) →
      ∃ fieldValues session,
        getFieldValues (stripSignature (r.HeaderGet "Authorization".toList)) =
          .ok fieldValues ∧
        hm.CheckSessionAndIdentityForValidKey fieldValues.KeyID = some session ∧
        (hm.Spec.BaseIdentityProvidedBy ≠ HMACKey ∧ hm.Spec.BaseIdentityProvidedBy ≠ UnsetAuth →
          (hm.ProcessRequest now r).2 = r) ∧
        (hm.Spec.BaseIdentityProvidedBy = HMACKey ∨ hm.Spec.BaseIdentityProvidedBy = UnsetAuth →
          (hm.ProcessRequest now r).2.ctx.SessionData =
            some (withKeyHash hm.HashKey session
              (if fieldValues.KeyID = [] then GetAuthToken r else fieldValues.KeyID)) ∧
          (hm.ProcessRequest now r).2.ctx.AuthToken =
            some (if fieldValues.KeyID = [] then GetAuthToken r else fieldValues.KeyID))) ∧
    ((k.ProcessRequest cache now r).result = (none, StatusOK) →
      ∃ part0 accessToken more session,
        Split ' ' (r.HeaderGet "Authorization".toList) = part0 :: accessToken :: more ∧
        k.CheckSessionAndIdentityForValidKey accessToken = some session ∧
        (k.Spec.BaseIdentityProvidedBy ≠ OAuthKey ∧ k.Spec.BaseIdentityProvidedBy ≠ UnsetAuth →
          (k.ProcessRequest cache now r).request = r) ∧
        (k.Spec.BaseIdentityProvidedBy = OAuthKey ∨ k.Spec.BaseIdentityProvidedBy = UnsetAuth →
          (k.ProcessRequest cache now r).request.ctx.SessionData =
            some (withKeyHash k.HashKey session
              (if accessToken = [] then GetAuthToken r else accessToken)) ∧
          (k.ProcessRequest cache now r).request.ctx.AuthToken =
            some (if accessToken = [] then GetAuthToken r else accessToken))) ∧
    (∀ basicSession basicKey tokenSession tokenKey,
      base.Spec.BaseIdentityProvidedBy = AuthTokenType →
      (basicAuthProcessRequest base (some (basicSession, basicKey)) r).1 = (none, StatusOK) ∧
      (basicAuthProcessRequest base (some (basicSession, basicKey)) r).2 = r ∧
      (authKeyProcessRequest base (some (tokenSession, tokenKey))
        (basicAuthProcessRequest base (some (basicSession, basicKey)) r).2).1 =
        (none, StatusOK) ∧
      (authKeyProcessRequest base (some (tokenSession, tokenKey))
        (basicAuthProcessRequest base (some (basicSession, basicKey)) r).2).2.ctx.SessionData =
        some (withKeyHash base.HashKey tokenSession
          (if tokenKey = [] then GetAuthToken r else tokenKey))) := by
  refine ⟨fun h => ?_, fun h => ?_, ?_⟩
  · obtain ⟨fieldValues, session, hparse, hsess, hreq⟩ := hmac_success hm now r h
    refine ⟨fieldValues, session, hparse, hsess, ?_, ?_⟩
    · rintro ⟨h1, h2⟩
      rw [hreq, if_neg (by rintro (h | h) <;> contradiction)]
    · intro hsel
      rw [hreq, if_pos hsel]
      have h1 := setContextVars_session hm
        (setSessionValue hm.HashKey r session fieldValues.KeyID false) fieldValues.KeyID
      have h2 := setSessionValue_ctx hm.HashKey r session fieldValues.KeyID
      exact ⟨h1.1.trans h2.1, h1.2.trans h2.2⟩
  · obtain ⟨part0, accessToken, more, session, hparts, hsess, hreq⟩ :=
      oauth_success k cache now r h
    refine ⟨part0, accessToken, more, session, hparts, hsess, ?_, ?_⟩
    · rintro ⟨h1, h2⟩
      rw [hreq, if_neg (by rintro (h | h) <;> contradiction)]
    · intro hsel
      rw [hreq, if_pos hsel]
      exact setSessionValue_ctx k.HashKey r session accessToken
  · intro basicSession basicKey tokenSession tokenKey hsel
    have hb : ¬ (base.Spec.BaseIdentityProvidedBy = BasicAuthUser ∨
        base.Spec.BaseIdentityProvidedBy = UnsetAuth) := by
      rw [hsel]
      decide
    have hbasic : basicAuthProcessRequest base (some (basicSession, basicKey)) r =
        ((none, StatusOK), r) := by
      simp only [basicAuthProcessRequest, schemeProcessRequest, hb, if_false]
    have htoken : authKeyProcessRequest base (some (tokenSession, tokenKey)) r =
        ((none, StatusOK), setSessionValue base.HashKey r tokenSession tokenKey false) := by
      simp only [authKeyProcessRequest, schemeProcessRequest, hsel, true_or, if_true]
    rw [hbasic, htoken]
    exact ⟨rfl, rfl, rfl, (setSessionValue_ctx base.HashKey r tokenSession tokenKey).1⟩

/-- The HMAC part at a concrete signed request on which verification succeeds. -/
theorem base_identity_selection_witness :
    ∃ fieldValues session,
      getFieldValues (stripSignature
        ((sampleSigned "9876".toList "secret".toList ["date".toList]).HeaderGet
          "Authorization".toList)) = .ok fieldValues ∧
      (sampleHMAC "secret".toList).CheckSessionAndIdentityForValidKey fieldValues.KeyID =
        some session ∧
      ((sampleHMAC "secret".toList).Spec.BaseIdentityProvidedBy ≠ HMACKey ∧
          (sampleHMAC "secret".toList).Spec.BaseIdentityProvidedBy ≠ UnsetAuth →
        ((sampleHMAC "secret".toList).ProcessRequest 1136239445000000000
          (sampleSigned "9876".toList "secret".toList ["date".toList])).2 =
          sampleSigned "9876".toList "secret".toList ["date".toList]) ∧
      ((sampleHMAC "secret".toList).Spec.BaseIdentityProvidedBy = HMACKey ∨
          (sampleHMAC "secret".toList).Spec.BaseIdentityProvidedBy = UnsetAuth →
        ((sampleHMAC "secret".toList).ProcessRequest 1136239445000000000
          (sampleSigned "9876".toList "secret".toList ["date".toList])).2.ctx.SessionData =
          some (withKeyHash (sampleHMAC "secret".toList).HashKey session
            (if fieldValues.KeyID = [] then
              GetAuthToken (sampleSigned "9876".toList "secret".toList ["date".toList])
            else fieldValues.KeyID)) ∧
        ((sampleHMAC "secret".toList).ProcessRequest 1136239445000000000
          (sampleSigned "9876".toList "secret".toList ["date".toList])).2.ctx.AuthToken =
          some (if fieldValues.KeyID = [] then
              GetAuthToken (sampleSigned "9876".toList "secret".toList ["date".toList])
            else fieldValues.KeyID)) :=
  (base_identity_selection (sampleHMAC "secret".toList) sampleOAuth [] {}
    1136239445000000000 (sampleSigned "9876".toList "secret".toList ["date".toList])).1
    (by decide)

/-! ## A revoked client over time -/

theorem utilCache_get_set_self (c : UtilCache) (now t : Int) (key : Str) (value : Bool) :
    UtilCache.Get (UtilCache.Set c now key value (-1)) t key = some value := by
  simp [UtilCache.Get, UtilCache.Set]

theorem utilCache_get_set_ne (c : UtilCache) (now t : Int) (key other : Str) (value : Bool)
    (d : Int) (h : other ≠ key) :
    UtilCache.Get (UtilCache.Set c now other value d) t key = UtilCache.Get c t key := by
  have hf : List.find? (fun kv : Str × CacheItem => decide (kv.1 = key))
      (c.filter (fun kv => decide (kv.1 ≠ other))) =
      List.find? (fun kv : Str × CacheItem => decide (kv.1 = key)) c := by
    induction c with
    | nil => rfl
    | cons kv rest ih =>
      by_cases h1 : kv.1 = other
      · have h2 : ¬ kv.1 = key := fun e => h (h1.symm.trans e)
        rw [List.filter_cons_of_neg (by simp [h1]), ih,
          List.find?_cons_of_neg _ (by simp [h2])]
      · rw [List.filter_cons_of_pos (by simp [h1])]
        by_cases h2 : kv.1 = key
        · rw [List.find?_cons_of_pos _ (by simp [h2]), List.find?_cons_of_pos _ (by simp [h2])]
        · rw [List.find?_cons_of_neg _ (by simp [h2]), List.find?_cons_of_neg _ (by simp [h2]),
            ih]
  unfold UtilCache.Get UtilCache.Set
  rw [List.find?_cons_of_neg _ (by simp [h]), hf]

/-- The cache a run of `ProcessRequest` leaves is the cache it found, or the
cache its client check left. -/
theorem oauth_run_cache (k : Oauth2KeyExists) (cache : UtilCache) (now : Int) (r : Request) :
    (k.ProcessRequest cache now r).cache = cache ∨
      ∃ session, (k.ProcessRequest cache now r).cache =
        (oauthClientDeletedCheck k cache now session).2.1 := by
  cases hparts : Split ' ' (r.HeaderGet "Authorization".toList) with
  | nil =>
    left
    simp only [Oauth2KeyExists.ProcessRequest, hparts]
  | cons part0 rest =>
    cases rest with
    | nil =>
      left
      simp only [Oauth2KeyExists.ProcessRequest, hparts]
    | cons accessToken more =>
      by_cases hb : ToLower part0 = "bearer".toList
      · cases hsess : k.CheckSessionAndIdentityForValidKey accessToken with
        | none =>
          left
          simp only [Oauth2KeyExists.ProcessRequest, hparts, hb, hsess, ne_eq,
            not_true_eq_false, if_false]
        | some session =>
          right
          refine ⟨session, ?_⟩
          rw [oauth_run_of_session k cache now r part0 accessToken more session hparts hb hsess]
          split_ifs <;> rfl
      · left
        simp only [Oauth2KeyExists.ProcessRequest, hparts, hb, ne_eq, not_false_eq_true,
          if_true]

/-- No run of `ProcessRequest` removes or replaces a flag true that does not
expire. -/
theorem heldDeleted_run (k : Oauth2KeyExists) (cache : UtilCache) (now : Int) (r : Request)
    (key : Str) (h : heldDeleted cache key) :
    heldDeleted (k.ProcessRequest cache now r).cache key := by
  rcases oauth_run_cache k cache now r with hc | ⟨session, hc⟩
  · rw [hc]
    exact h
  · rw [hc]
    unfold oauthClientDeletedCheck
    cases hget : UtilCache.Get cache now (oauthClientDeletedKey k session) with
    | some val => exact h
    | none =>
      have hne : oauthClientDeletedKey k session ≠ key := by
        intro e
        rw [e, h now] at hget
        exact absurd hget (by simp)
      intro t
      cases k.GetClient session.OauthClientID with
      | error e => exact (utilCache_get_set_ne cache now t key _ true (-1) hne).trans (h t)
      | ok u => exact (utilCache_get_set_ne cache now t key _ false _ hne).trans (h t)

/-- While the flag true is held, a request for that API id and client id is
rejected with 403 and `GetClient` is not called. -/
theorem heldDeleted_rejects (k : Oauth2KeyExists) (cache : UtilCache) (now : Int) (r : Request)
    (part0 accessToken : Str) (more : List Str) (session : SessionState)
    (hparts : Split ' ' (r.HeaderGet "Authorization".toList) = part0 :: accessToken :: more)
    (hbearer : ToLower part0 = "bearer".toList)
    (hsess : k.CheckSessionAndIdentityForValidKey accessToken = some session)
    (h : heldDeleted cache (oauthClientDeletedKey k session)) :
    (k.ProcessRequest cache now r).result =
        (some "Key not authorised. OAuth client access was revoked".toList, StatusForbidden) ∧
      (k.ProcessRequest cache now r).getClientCalls = [] := by
  have hc : oauthClientDeletedCheck k cache now session = (true, cache, []) := by
    rw [oauthClientDeletedCheck, h now]
  rw [oauth_run_of_session k cache now r part0 accessToken more session hparts hbearer hsess,
    hc]
  exact ⟨rfl, rfl⟩

theorem oauthTrace_held (cache : UtilCache) (key : Str) (h : heldDeleted cache key)
    (later : List (Oauth2KeyExists × Int × Request)) :
    ∀ p ∈ List.zip later (oauthTrace cache later),
      ∃ before : UtilCache, heldDeleted before key ∧
        p.2 = p.1.1.ProcessRequest before p.1.2.1 p.1.2.2 := by
  induction later generalizing cache with
  | nil =>
    intro p hp
    rw [oauthTrace, List.zip_nil_left] at hp
    exact absurd hp (List.not_mem_nil _)
  | cons step rest ih =>
    intro p hp
    rw [oauthTrace, List.zip_cons_cons, List.mem_cons] at hp
    rcases hp with rfl | hp
    · exact ⟨cache, h, rfl⟩
    · exact ih _ (heldDeleted_run step.1 cache step.2.1 step.2.2 key h) p hp

/-- The run that finds the client absent: the flag true is written without
expiry, held from then on, and the request is rejected. -/
theorem oauth_first_rejection (k : Oauth2KeyExists) (cache : UtilCache) (now : Int)
    (r : Request) (part0 accessToken : Str) (more : List Str) (session : SessionState)
    (hparts : Split ' ' (r.HeaderGet "Authorization".toList) = part0 :: accessToken :: more)
    (hbearer : ToLower part0 = "bearer".toList)
    (hsess : k.CheckSessionAndIdentityForValidKey accessToken = some session)
    (hmiss : UtilCache.Get cache now (oauthClientDeletedKey k session) = none)
    (herr : ∃ e, k.GetClient session.OauthClientID = .error e) :
    (k.ProcessRequest cache now r).cache =
        UtilCache.Set cache now (oauthClientDeletedKey k session) true (-1) ∧
      (k.ProcessRequest cache now r).result =
        (some "Key not authorised. OAuth client access was revoked".toList, StatusForbidden) ∧
      (k.ProcessRequest cache now r).getClientCalls = [session.OauthClientID] ∧
      heldDeleted (k.ProcessRequest cache now r).cache (oauthClientDeletedKey k session) := by
  obtain ⟨e, he⟩ := herr
  have hc : oauthClientDeletedCheck k cache now session =
      (true, UtilCache.Set cache now (oauthClientDeletedKey k session) true (-1),
        [session.OauthClientID]) := by
    rw [oauthClientDeletedCheck, hmiss]
    simp only [he]
  rw [oauth_run_of_session k cache now r part0 accessToken more session hparts hbearer hsess,
    hc]
  exact ⟨rfl, rfl, rfl, fun t => utilCache_get_set_self cache now t _ true⟩

/-- C11. Revoked OAuth client stays rejected: once a request with a valid
bearer token has found its OAuth client id absent from storage (403), every
later request served through the same cache for the same API id and client id
is rejected with 403 without a call of `GetClient`, whatever the storage, the
instant and the requests in between are; the runs of `ProcessRequest` never
remove the entry, which was cached without expiry. -/
theorem revoked_client_stays_rejected (k : Oauth2KeyExists) (cache : UtilCache) (now : Int)
    (r : Request) (part0 accessToken : Str) (more : List Str) (session : SessionState)
    (hparts : Split ' ' (r.HeaderGet "Authorization".toList) = part0 :: accessToken :: more)
    (hbearer : ToLower part0 = "bearer".toList)
    (hsess : k.CheckSessionAndIdentityForValidKey accessToken = some session)
    (hmiss : UtilCache.Get cache now
      ("oauth-del-".toList ++ k.Spec.APIID ++ session.OauthClientID) = none)
    (herr : ∃ e, k.GetClient session.OauthClientID = .error e)
    (later : List (Oauth2KeyExists × Int × Request)) :
    (k.ProcessRequest cache now r).result.2 = StatusForbidden ∧
    ∀ p ∈ List.zip later (oauthTrace (k.ProcessRequest cache now r).cache later),
      ∀ (part0' accessToken' : Str) (more' : List Str) (session' : SessionState),
        Split ' ' (p.1.2.2.HeaderGet "Authorization".toList) =
          part0' :: accessToken' :: more' →
        ToLower part0' = "bearer".toList →
        p.1.1.CheckSessionAndIdentityForValidKey accessToken' = some session' →
        p.1.1.Spec.APIID = k.Spec.APIID →
        session'.OauthClientID = session.OauthClientID →
        p.2.result =
            (some "Key not authorised. OAuth client access was revoked".toList,
              StatusForbidden) ∧
          p.2.getClientCalls = [] := by
  obtain ⟨_, hres, _, hheld⟩ :=
    oauth_first_rejection k cache now r part0 accessToken more session hparts hbearer hsess
      hmiss herr
  refine ⟨by rw [hres], ?_⟩
  intro p hp part0' accessToken' more' session' hparts' hbearer' hsess' hapi hclient
  obtain ⟨before, hb, hrun⟩ := oauthTrace_held _ _ hheld later p hp
  have hkey : oauthClientDeletedKey p.1.1 session' = oauthClientDeletedKey k session := by
    rw [oauthClientDeletedKey, oauthClientDeletedKey, hapi, hclient]
  rw [hrun]
  exact heldDeleted_rejects p.1.1 before p.1.2.1 p.1.2.2 part0' accessToken' more' session'
    hparts' hbearer' hsess' (by rw [hkey]; exact hb)

/-- The second request at a concrete run: the storage has the client again two
seconds later, and the request is still rejected without a call. -/
theorem revoked_client_stays_rejected_witness :
    ((sampleOAuthWith (.ok ())).ProcessRequest
        (sampleOAuth.ProcessRequest [] 5 (sampleBearer "tok")).cache 2000000005
        (sampleBearer "tok")).result =
        (some "Key not authorised. OAuth client access was revoked".toList, StatusForbidden) ∧
      ((sampleOAuthWith (.ok ())).ProcessRequest
        (sampleOAuth.ProcessRequest [] 5 (sampleBearer "tok")).cache 2000000005
        (sampleBearer "tok")).getClientCalls = [] :=
  (revoked_client_stays_rejected sampleOAuth [] 5 (sampleBearer "tok") "Bearer".toList
    "tok".toList [] { OauthClientID := "cl".toList } (by decide) (by decide) (by decide)
    (by decide) ⟨"not found".toList, rfl⟩
    [(sampleOAuthWith (.ok ()), 2000000005, sampleBearer "tok")]).2
    ((sampleOAuthWith (.ok ()), 2000000005, sampleBearer "tok"),
      (sampleOAuthWith (.ok ())).ProcessRequest
        (sampleOAuth.ProcessRequest [] 5 (sampleBearer "tok")).cache 2000000005
        (sampleBearer "tok"))
    (List.mem_singleton.2 rfl) "Bearer".toList "tok".toList []
    { OauthClientID := "cl".toList } (by decide) (by decide) (by decide) rfl rfl

/-- C12 (amended). Storage errors and the negative cache: when the OAuth client
lookup fails with any error, a transient one included, `ProcessRequest` treats
the client as deleted: it caches the flag true without expiry and rejects the
request with 403, and the next request for the same API id and client id is
rejected from the cache, whatever the storage would answer then, without
consulting it. -/
theorem storage_error_is_cached (k : Oauth2KeyExists) (cache : UtilCache) (now : Int)
    (r : Request) (part0 accessToken : Str) (more : List Str) (session : SessionState)
    (e : Str)
    (hparts : Split ' ' (r.HeaderGet "Authorization".toList) = part0 :: accessToken :: more)
    (hbearer : ToLower part0 = "bearer".toList)
    (hsess : k.CheckSessionAndIdentityForValidKey accessToken = some session)
    (hmiss : UtilCache.Get cache now
      ("oauth-del-".toList ++ k.Spec.APIID ++ session.OauthClientID) = none)
    (herr : k.GetClient session.OauthClientID = .error e) :
    (k.ProcessRequest cache now r).cache =
        UtilCache.Set cache now
          ("oauth-del-".toList ++ k.Spec.APIID ++ session.OauthClientID) true (-1) ∧
      (k.ProcessRequest cache now r).result =
        (some "Key not authorised. OAuth client access was revoked".toList, StatusForbidden) ∧
      ∀ (next : Oauth2KeyExists) (now' : Int) (r' : Request) (part0' accessToken' : Str)
        (more' : List Str) (session' : SessionState),
        Split ' ' (r'.HeaderGet "Authorization".toList) = part0' :: accessToken' :: more' →
        ToLower part0' = "bearer".toList →
        next.CheckSessionAndIdentityForValidKey accessToken' = some session' →
        next.Spec.APIID = k.Spec.APIID →
        session'.OauthClientID = session.OauthClientID →
        (next.ProcessRequest (k.ProcessRequest cache now r).cache now' r').getClientCalls = [] ∧
          (next.ProcessRequest (k.ProcessRequest cache now r).cache now' r').result.2 =
            StatusForbidden := by
  obtain ⟨hcache, hres, _, hheld⟩ :=
    oauth_first_rejection k cache now r part0 accessToken more session hparts hbearer hsess
      hmiss ⟨e, herr⟩
  refine ⟨hcache, hres, ?_⟩
  intro next now' r' part0' accessToken' more' session' hparts' hbearer' hsess' hapi hclient
  have hkey : oauthClientDeletedKey next session' = oauthClientDeletedKey k session := by
    rw [oauthClientDeletedKey, oauthClientDeletedKey, hapi, hclient]
  obtain ⟨h1, h2⟩ := heldDeleted_rejects next _ now' r' part0' accessToken' more' session'
    hparts' hbearer' hsess' (by rw [hkey]; exact hheld)
  exact ⟨h2, by rw [h1]⟩

/-- The cached error at a concrete run: the storage times out once. -/
theorem storage_error_is_cached_witness :
    ((sampleOAuthWith (.error "i/o timeout".toList)).ProcessRequest [] 5
        (sampleBearer "tok")).result =
      (some "Key not authorised. OAuth client access was revoked".toList, StatusForbidden) :=
  (storage_error_is_cached (sampleOAuthWith (.error "i/o timeout".toList)) [] 5
    (sampleBearer "tok") "Bearer".toList "tok".toList [] { OauthClientID := "cl".toList }
    "i/o timeout".toList (by decide) (by decide) (by decide) (by decide) rfl).2.1

/-- C12, as stated, fails: the client lookup times out once (a transient
error), the flag true is written to the cache without expiry, and the next
request for the same API id and client id, the storage answering again, is
rejected with 403 without a call of `GetClient`. -/
theorem storage_error_is_cached_counterexample :
    ((sampleOAuthWith (.error "i/o timeout".toList)).ProcessRequest [] 5
        (sampleBearer "tok")).cache =
        [("oauth-del-apicl".toList, { Object := true, Expiration := 0 })] ∧
      ((sampleOAuthWith (.ok ())).ProcessRequest
        ((sampleOAuthWith (.error "i/o timeout".toList)).ProcessRequest [] 5
          (sampleBearer "tok")).cache 6 (sampleBearer "tok")).getClientCalls = [] ∧
      ((sampleOAuthWith (.ok ())).ProcessRequest
        ((sampleOAuthWith (.error "i/o timeout".toList)).ProcessRequest [] 5
          (sampleBearer "tok")).cache 6 (sampleBearer "tok")).result.2 = 403 := by
  decide

/-! ## The clock-skew check -/

theorem wrapInt64_of_fits (x : Int) (h : -(2 ^ 63) ≤ x ∧ x < 2 ^ 63) : wrapInt64 x = x := by
  unfold wrapInt64
  rw [Int.emod_eq_of_lt (by omega) (by omega)]
  omega

/-- The check on a date that parses to the instant `h` (`UnixNano`). -/
theorem checkClockSkew_parsed (hm : HMACMiddleware) (now : Int) (v : Str) (h : Int)
    (hparse : hm.timeParse "Mon, 02 Jan 2006 15:04:05 MST".toList v = some h ∨
      (hm.timeParse "Mon, 02 Jan 2006 15:04:05 MST".toList v = none ∧
        hm.timeParse "Mon, 02 Jan 2006 15:04:05 -07".toList v = some h)) :
    hm.checkClockSkew now v =
      if hm.Spec.HmacAllowedClockSkew ≤ 0 then true
      else if (((|(wrapInt64 (now - h)).tdiv 1000000| : Int) : ℚ)) >
          hm.Spec.HmacAllowedClockSkew then false
      else true := by
  unfold HMACMiddleware.checkClockSkew
  rcases hparse with h1 | ⟨h1, h2⟩
  · simp only [h1]
  · simp only [h1, h2]

/-- The check on a date that parses in neither layout. -/
theorem checkClockSkew_unparsed (hm : HMACMiddleware) (now : Int) (v : Str)
    (h1 : hm.timeParse "Mon, 02 Jan 2006 15:04:05 MST".toList v = none)
    (h2 : hm.timeParse "Mon, 02 Jan 2006 15:04:05 -07".toList v = none) :
    hm.checkClockSkew now v = false := by
  unfold HMACMiddleware.checkClockSkew
  simp only [h1, h2]

/-- C13 (amended). Clock-skew check disabled: when `HmacAllowedClockSkew` is
≤ 0, `checkClockSkew` returns true for every date header value that parses, in
the layout with a named zone or in the one with a numeric zone, and every
current time; for a value that parses in neither layout, the empty string
included when it does not parse, it returns false, whatever the skew is. -/
theorem clock_skew_disabled (hm : HMACMiddleware) (now : Int) (v : Str) :
    (hm.Spec.HmacAllowedClockSkew ≤ 0 →
      (hm.timeParse "Mon, 02 Jan 2006 15:04:05 MST".toList v ≠ none ∨
        hm.timeParse "Mon, 02 Jan 2006 15:04:05 -07".toList v ≠ none) →
      hm.checkClockSkew now v = true) ∧
    (hm.timeParse "Mon, 02 Jan 2006 15:04:05 MST".toList v = none →
      hm.timeParse "Mon, 02 Jan 2006 15:04:05 -07".toList v = none →
      hm.checkClockSkew now v = false) := by
  refine ⟨?_, checkClockSkew_unparsed hm now v⟩
  intro hskew hp
  have hex : ∃ h, hm.timeParse "Mon, 02 Jan 2006 15:04:05 MST".toList v = some h ∨
      (hm.timeParse "Mon, 02 Jan 2006 15:04:05 MST".toList v = none ∧
        hm.timeParse "Mon, 02 Jan 2006 15:04:05 -07".toList v = some h) := by
    cases h1 : hm.timeParse "Mon, 02 Jan 2006 15:04:05 MST".toList v with
    | some h => exact ⟨h, Or.inl rfl⟩
    | none =>
      cases h2 : hm.timeParse "Mon, 02 Jan 2006 15:04:05 -07".toList v with
      | some h => exact ⟨h, Or.inr ⟨rfl, rfl⟩⟩
      | none =>
        rcases hp with hp | hp
        · exact absurd h1 hp
        · exact absurd h2 hp
  obtain ⟨h, hh⟩ := hex
  rw [checkClockSkew_parsed hm now v h hh, if_pos hskew]

/-- C13, as stated, fails: with no clock-skew limit (`HmacAllowedClockSkew` 0)
the check returns false for the empty date and for a date that is no date,
which do not parse; for the date that parses it returns true at any distance. -/
theorem clock_skew_disabled_counterexample :
    (sampleHMAC "secret".toList).Spec.HmacAllowedClockSkew = 0 ∧
      (sampleHMAC "secret".toList).checkClockSkew 1136239445000000000 [] = false ∧
      (sampleHMAC "secret".toList).checkClockSkew 1136239445000000000 "yesterday".toList =
        false ∧
      (sampleHMAC "secret".toList).checkClockSkew 0 sampleDate = true := by
  decide

/-- C14 (amended). Clock-skew bound: for `HmacAllowedClockSkew > 0` and a date
header that parses (with a named zone, else with a numeric zone) to the instant
`h`, `checkClockSkew` at the current time `now` returns true if and only if the
difference `now − h`, taken in nanoseconds as an `int64` and truncated toward
zero to whole milliseconds, is in absolute value at most `HmacAllowedClockSkew`.
When `now − h` fits an `int64` (instants less than 292 years apart) this is the
mathematical difference: the check returns true if and only if the whole number
of milliseconds in `|now − h|` is at most the limit, the same for a date in the
past and one in the future. -/
theorem clock_skew_bound (hm : HMACMiddleware) (now : Int) (v : Str) (h : Int)
    (hskew : 0 < hm.Spec.HmacAllowedClockSkew)
    (hparse : hm.timeParse "Mon, 02 Jan 2006 15:04:05 MST".toList v = some h ∨
      (hm.timeParse "Mon, 02 Jan 2006 15:04:05 MST".toList v = none ∧
        hm.timeParse "Mon, 02 Jan 2006 15:04:05 -07".toList v = some h)) :
    (hm.checkClockSkew now v = true ↔
      (((|(wrapInt64 (now - h)).tdiv 1000000| : Int) : ℚ)) ≤
        hm.Spec.HmacAllowedClockSkew) ∧
    (-(2 ^ 63) ≤ now - h ∧ now - h < 2 ^ 63 →
      (hm.checkClockSkew now v = true ↔
        (((|(now - h).tdiv 1000000| : Int) : ℚ)) ≤ hm.Spec.HmacAllowedClockSkew) ∧
      |(now - h).tdiv 1000000| = |(h - now).tdiv 1000000| ∧
      |(now - h).tdiv 1000000| = (((now - h).natAbs / 1000000 : Nat) : Int)) := by
  have key : hm.checkClockSkew now v = true ↔
      (((|(wrapInt64 (now - h)).tdiv 1000000| : Int) : ℚ)) ≤
        hm.Spec.HmacAllowedClockSkew := by
    rw [checkClockSkew_parsed hm now v h hparse, if_neg (not_le.2 hskew)]
    by_cases hgt : (((|(wrapInt64 (now - h)).tdiv 1000000| : Int) : ℚ)) >
        hm.Spec.HmacAllowedClockSkew
    · rw [if_pos hgt]
      constructor
      · intro hf
        exact absurd hf (by simp)
      · intro hle
        exact absurd hgt (not_lt.2 hle)
    · rw [if_neg hgt]
      exact ⟨fun _ => not_lt.1 hgt, fun _ => rfl⟩
  refine ⟨key, fun hfits => ⟨?_, ?_, ?_⟩⟩
  · rw [wrapInt64_of_fits _ hfits] at key
    exact key
  · have : h - now = -(now - h) := by ring
    rw [this, Int.neg_tdiv, abs_neg]
  · rw [Int.abs_eq_natAbs, Int.natAbs_tdiv]
    rfl

/-- The bound at a concrete run: a limit of 1000 ms, a date 999.9 ms in the
future. -/
theorem clock_skew_bound_witness :
    ({ sampleHMAC "secret".toList with
        Spec := { HmacAllowedClockSkew := 1000 } } : HMACMiddleware).checkClockSkew
        1136239444000100000 sampleDate = true ↔
      (((|((1136239444000100000 : Int) - 1136239445000000000).tdiv 1000000| : Int) : ℚ)) ≤
        ({ sampleHMAC "secret".toList with
          Spec := { HmacAllowedClockSkew := 1000 } } : HMACMiddleware).Spec.HmacAllowedClockSkew :=
  ((clock_skew_bound
    ({ sampleHMAC "secret".toList with Spec := { HmacAllowedClockSkew := 1000 } })
    1136239444000100000 sampleDate 1136239445000000000 (by decide)
    (Or.inl (by decide))).2 (by decide)).1

/-! ## The steps of `HMACMiddleware.ProcessRequest` after the secret is found -/

/-- The run of `ProcessRequest` on a request whose header parses and whose key
has a secret. -/
theorem hmac_run_of_secret (hm : HMACMiddleware) (now : Int) (r : Request)
    (fieldValues : HMACFieldValues) (secret : Str) (session : SessionState)
    (hauth : r.HeaderGet "Authorization".toList ≠ [])
    (hparse : getFieldValues (stripSignature (r.HeaderGet "Authorization".toList)) =
      .ok fieldValues)
    (hget : hm.getSecretAndSessionForKeyID r fieldValues.KeyID = .ok (secret, session)) :
    hm.ProcessRequest now r =
      if hm.Spec.HmacAllowedAlgorithms.length > 0 ∧
          ¬ fieldValues.Algorthm ∈ hm.Spec.HmacAllowedAlgorithms then
        (hm.authorizationError r, r)
      else if signatureMatches
          (generateEncodedSignature hm.mac (signatureLines r fieldValues.Headers) secret
            fieldValues.Algorthm) fieldValues.Signature = false then
        (hm.authorizationError r, r)
      else if hm.checkClockSkew now (getDateHeader r).2 = false then
        (hm.authorizationError r, r)
      else if hm.Spec.BaseIdentityProvidedBy = HMACKey ∨
          hm.Spec.BaseIdentityProvidedBy = UnsetAuth then
        ((none, StatusOK),
          hm.setContextVars (setSessionValue hm.HashKey r session fieldValues.KeyID false)
            fieldValues.KeyID)
      else ((none, StatusOK), r) := by
  unfold HMACMiddleware.ProcessRequest
  simp only [hauth, if_false, hparse, generateHMACSignatureStringFromRequest, hget]

/-- C15. Algorithm allow-list: for every request whose `Signature` header
parses and whose key has an HMAC secret, if `HmacAllowedAlgorithms` is not empty
and the declared algorithm (the empty string when the field is omitted) is not
an element of it, `ProcessRequest` rejects the request with 400, whatever the
signature and the digest are, and leaves the request, and so the session of its
context, as it was; if the list is empty or holds the declared algorithm, a
request whose signature matches and whose date passes the clock-skew check is
let through with `(nil, 200)`. -/
theorem algorithm_allow_list (hm : HMACMiddleware) (now : Int) (r : Request)
    (fieldValues : HMACFieldValues) (secret : Str) (session : SessionState)
    (hauth : r.HeaderGet "Authorization".toList ≠ [])
    (hparse : getFieldValues (stripSignature (r.HeaderGet "Authorization".toList)) =
      .ok fieldValues)
    (hget : hm.getSecretAndSessionForKeyID r fieldValues.KeyID = .ok (secret, session)) :
    (hm.Spec.HmacAllowedAlgorithms ≠ [] →
      ¬ fieldValues.Algorthm ∈ hm.Spec.HmacAllowedAlgorithms →
      hm.ProcessRequest now r =
        ((some "Authorization field missing, malformed or invalid".toList, StatusBadRequest),
          r)) ∧
    (hm.Spec.HmacAllowedAlgorithms = [] ∨
        fieldValues.Algorthm ∈ hm.Spec.HmacAllowedAlgorithms →
      signatureMatches
        (generateEncodedSignature hm.mac (signatureLines r fieldValues.Headers) secret
          fieldValues.Algorthm) fieldValues.Signature = true →
      hm.checkClockSkew now (getDateHeader r).2 = true →
      (hm.ProcessRequest now r).1 = (none, StatusOK)) := by
  have hrun := hmac_run_of_secret hm now r fieldValues secret session hauth hparse hget
  constructor
  · intro hne hnot
    have hlen : hm.Spec.HmacAllowedAlgorithms.length > 0 := List.length_pos.2 hne
    rw [hrun, if_pos ⟨hlen, hnot⟩]
    rfl
  · intro hallow hmatch hskew
    have hal : ¬ (hm.Spec.HmacAllowedAlgorithms.length > 0 ∧
        ¬ fieldValues.Algorthm ∈ hm.Spec.HmacAllowedAlgorithms) := by
      rintro ⟨h1, h2⟩
      rcases hallow with h | h
      · rw [h] at h1
        simp at h1
      · exact h2 h
    rw [hrun, if_neg hal, if_neg (by simp [hmatch]), if_neg (by simp [hskew])]
    split <;> rfl

/-- The allow-list at a concrete run: only `hmac-sha256` is admitted, the
request is signed with `hmac-sha1`. -/
theorem algorithm_allow_list_witness :
    (sampleHMACAllowing "secret".toList ["hmac-sha256".toList]).ProcessRequest
        1136239445000000000 (sampleSigned "9876".toList "secret".toList ["date".toList]) =
      ((some "Authorization field missing, malformed or invalid".toList, StatusBadRequest),
        sampleSigned "9876".toList "secret".toList ["date".toList]) :=
  (algorithm_allow_list (sampleHMACAllowing "secret".toList ["hmac-sha256".toList])
    1136239445000000000 (sampleSigned "9876".toList "secret".toList ["date".toList])
    { KeyID := "9876".toList, Algorthm := "hmac-sha1".toList, Headers := ["date".toList],
      Signature := generateEncodedSignature sampleMac
        "date: Mon, 02 Jan 2006 15:04:05 MST".toList "secret".toList "hmac-sha1".toList }
    "secret".toList { HmacSecret := "secret".toList, HMACEnabled := true }
    (by decide) (by decide) (by decide)).1 (by decide) (by decide)

/-- C16. Unknown algorithm falls through to SHA-1: for every signing string and
secret, and every algorithm string that is not exactly `hmac-sha256`,
`hmac-sha384` or `hmac-sha512` (the empty string, a misspelling, another letter
case), `generateEncodedSignature` returns what it returns for `hmac-sha1`, the
digest of `sha1.New`. -/
theorem unknown_algorithm_sha1 (mac : Mac) (signatureString secret algorithm : Str)
    (h256 : algorithm ≠ "hmac-sha256".toList) (h384 : algorithm ≠ "hmac-sha384".toList)
    (h512 : algorithm ≠ "hmac-sha512".toList) :
    generateEncodedSignature mac signatureString secret algorithm =
        generateEncodedSignature mac signatureString secret "hmac-sha1".toList ∧
      generateEncodedSignature mac signatureString secret algorithm =
        QueryEscape (base64Encode (mac HashFunction.sha1 secret signatureString)) := by
  have e1 : generateEncodedSignature mac signatureString secret algorithm =
      QueryEscape (base64Encode (mac HashFunction.sha1 secret signatureString)) := by
    simp only [generateEncodedSignature, h256, h384, h512, if_false]
  have n1 : ¬ ("hmac-sha1".toList = "hmac-sha256".toList) := by decide
  have n2 : ¬ ("hmac-sha1".toList = "hmac-sha384".toList) := by decide
  have n3 : ¬ ("hmac-sha1".toList = "hmac-sha512".toList) := by decide
  have e2 : generateEncodedSignature mac signatureString secret "hmac-sha1".toList =
      QueryEscape (base64Encode (mac HashFunction.sha1 secret signatureString)) := by
    simp only [generateEncodedSignature, n1, n2, n3, if_false]
  exact ⟨e1.trans e2.symm, e1⟩

/-- The fall-through at a concrete algorithm in another letter case, with a
digest that tells the hash functions apart. -/
theorem unknown_algorithm_sha1_witness :
    generateEncodedSignature (fun hash _ _ => if hash = HashFunction.sha1 then [1] else [2])
        "date: x".toList "secret".toList "HMAC-SHA256".toList =
      generateEncodedSignature (fun hash _ _ => if hash = HashFunction.sha1 then [1] else [2])
        "date: x".toList "secret".toList "hmac-sha1".toList :=
  (unknown_algorithm_sha1 _ _ _ "HMAC-SHA256".toList (by decide) (by decide) (by decide)).1

/-! ## The canonical signing string -/

theorem trimBoth_eq_rdropWhile (p : Char → Bool) (s : Str) :
    trimBoth p s = (s.dropWhile p).rdropWhile p := rfl

/-- Trimming twice is trimming once. -/
theorem trimBoth_idempotent (p : Char → Bool) (s : Str) :
    trimBoth p (trimBoth p s) = trimBoth p s := by
  rw [trimBoth_eq_rdropWhile p s, trimBoth_eq_rdropWhile]
  have hd : List.dropWhile p ((s.dropWhile p).rdropWhile p) = (s.dropWhile p).rdropWhile p := by
    cases ht : (s.dropWhile p).rdropWhile p with
    | nil => rfl
    | cons a t =>
      have hpre : (a :: t) <+: s.dropWhile p := by
        rw [← ht]
        exact List.rdropWhile_prefix p _
      obtain ⟨rest, hrest⟩ := hpre
      have hnot := List.head?_dropWhile_not p s
      rw [← hrest] at hnot
      simp only [List.cons_append, List.head?_cons] at hnot
      rw [List.dropWhile_cons_of_neg (by simp [hnot])]
  rw [hd, List.rdropWhile_idempotent]

theorem getDateHeader_cases (r : Request) :
    getDateHeader r =
      if r.HeaderGet "x-aux-date".toList ≠ [] then
        ("x-aux-date".toList, r.HeaderGet "x-aux-date".toList)
      else if r.HeaderGet "Date".toList ≠ [] then ("date".toList, r.HeaderGet "Date".toList)
      else ([], []) := by
  have l1 : ToLower altHeaderSpec = "x-aux-date".toList := by decide
  have l2 : ToLower dateHeaderSpec = "date".toList := by decide
  unfold getDateHeader
  simp only [l1, l2]
  rfl

theorem dateLine_eq (r : Request) :
    TrimSpace (getDateHeader r).1 ++ ": ".toList ++ TrimSpace (getDateHeader r).2 =
      dateLine r := by
  have t1 : TrimSpace "x-aux-date".toList = "x-aux-date".toList := by decide
  have t2 : TrimSpace "date".toList = "date".toList := by decide
  have t3 : TrimSpace [] = [] := by decide
  rw [getDateHeader_cases, dateLine]
  split
  · simp only [t1]
    rfl
  · split
    · simp only [t2]
      rfl
    · simp only [t3]
      rfl

theorem signatureLine_eq (r : Request) (header : Str) (last : Bool) :
    signatureLine r header last =
      if last then canonicalLine r header else canonicalLine r header ++ ['\n'] := by
  have hline : (if TrimSpace (ToLower header) = "(request-target)".toList then
        "(request-target): ".toList ++ ToLower r.Method ++ " ".toList ++ r.URL.Path
      else
        TrimSpace (if TrimSpace (ToLower header) = "date".toList then getDateHeader r
            else (TrimSpace (ToLower header),
              r.HeaderGet (TrimSpace (ToLower header)))).1 ++ ": ".toList ++
          TrimSpace (if TrimSpace (ToLower header) = "date".toList then getDateHeader r
            else (TrimSpace (ToLower header),
              r.HeaderGet (TrimSpace (ToLower header)))).2) = canonicalLine r header := by
    unfold canonicalLine
    split
    · rfl
    · split
      · exact dateLine_eq r
      · show TrimSpace (TrimSpace (ToLower header)) ++ _ ++ _ = _
        rw [TrimSpace, TrimSpace, trimBoth_idempotent]
  unfold signatureLine
  simp only []
  rw [hline]

theorem signatureLines_eq (r : Request) (headers : List Str) :
    signatureLines r headers = Join '\n' (headers.map (canonicalLine r)) := by
  induction headers with
  | nil => rfl
  | cons h rest ih =>
    cases rest with
    | nil =>
      rw [signatureLines, signatureLine_eq]
      rfl
    | cons h2 rest =>
      have e : signatureLines r (h :: h2 :: rest) =
          signatureLine r h false ++ signatureLines r (h2 :: rest) := rfl
      rw [e, signatureLine_eq, ih]
      simp only [Bool.false_eq_true, if_false, List.map_cons, Join, List.append_assoc,
        List.singleton_append]

/-- C17 (amended). Canonical signing string: for every request and every list
of header names `[h1..hn]`, `generateHMACSignatureStringFromRequest` returns,
without error, the `n` lines of the names joined by a single newline, with no
trailing newline.  A name is read in lower case and without surrounding white
space.  The line of `(request-target)` is `"(request-target): "`, the method in
lower case, a space and the URL path; the line of `date` is the one of
`getDateHeader`: `x-aux-date: ` and the trimmed auxiliary date when that header
is there, else `date: ` and the trimmed `Date` value, else `": "`; the line of
every other name is the name, `": "` and the trimmed value of that header. -/
theorem canonical_signing_string (r : Request) (fieldValues : HMACFieldValues) :
    generateHMACSignatureStringFromRequest r fieldValues =
        .ok (Join '\n' (fieldValues.Headers.map (canonicalLine r))) ∧
      (fieldValues.Headers.map (canonicalLine r)).length = fieldValues.Headers.length ∧
      (∀ header, TrimSpace (ToLower header) = "(request-target)".toList →
        canonicalLine r header =
          "(request-target): ".toList ++ ToLower r.Method ++ " ".toList ++ r.URL.Path) ∧
      (∀ header, TrimSpace (ToLower header) = "date".toList →
        canonicalLine r header = dateLine r) ∧
      (∀ header, TrimSpace (ToLower header) ≠ "(request-target)".toList →
        TrimSpace (ToLower header) ≠ "date".toList →
        canonicalLine r header =
          TrimSpace (ToLower header) ++ ": ".toList ++
            TrimSpace (r.HeaderGet (TrimSpace (ToLower header)))) := by
  refine ⟨?_, List.length_map _ _, ?_, ?_, ?_⟩
  · rw [generateHMACSignatureStringFromRequest, signatureLines_eq]
  · intro header h
    rw [canonicalLine, if_pos h]
  · intro header h
    have hn : ¬ ("date".toList = "(request-target)".toList) := by decide
    rw [canonicalLine, h, if_neg hn, if_pos rfl]
  · intro header h1 h2
    rw [canonicalLine, if_neg h1, if_neg h2]

/-- C17, as stated, fails for the name `date`: on a request with a `Date` header
and the auxiliary date header the line is `x-aux-date: ` with the auxiliary
value, not `date: ` with the value of `Date`; on a request with neither it is
`": "`. -/
theorem canonical_signing_string_counterexample :
    generateHMACSignatureStringFromRequest sampleAuxRequest { Headers := ["date".toList] } =
        .ok "x-aux-date: Tue, 03 Jan 2006 15:04:05 MST".toList ∧
      sampleAuxRequest.HeaderGet "date".toList = "Mon, 02 Jan 2006 15:04:05 MST".toList ∧
      generateHMACSignatureStringFromRequest { Method := "GET".toList }
        { Headers := ["date".toList] } = .ok ": ".toList := by
  decide

/-! ## The date of a request -/

/-- C18. Auxiliary date preference: `getDateHeader` returns `x-aux-date` and
the value of that header whenever it is not empty, also when `Date` is present;
otherwise `date` and the value of `Date` when that is not empty; otherwise two
empty strings.  What it returns is what the signing string holds for the name
`date`, and its value is the date whose clock skew `ProcessRequest` checks: a
request that passed every earlier check is let through if and only if
`checkClockSkew` accepts that value. -/
theorem auxiliary_date_preference (hm : HMACMiddleware) (now : Int) (r : Request) :
    (r.HeaderGet "x-aux-date".toList ≠ [] →
      getDateHeader r = ("x-aux-date".toList, r.HeaderGet "x-aux-date".toList)) ∧
    (r.HeaderGet "x-aux-date".toList = [] → r.HeaderGet "Date".toList ≠ [] →
      getDateHeader r = ("date".toList, r.HeaderGet "Date".toList)) ∧
    (r.HeaderGet "x-aux-date".toList = [] → r.HeaderGet "Date".toList = [] →
      getDateHeader r = ([], [])) ∧
    (∀ header last, TrimSpace (ToLower header) = "date".toList →
      signatureLine r header last =
        TrimSpace (getDateHeader r).1 ++ ": ".toList ++ TrimSpace (getDateHeader r).2 ++
          (if last then [] else ['\n'])) ∧
    (∀ fieldValues secret session,
      r.HeaderGet "Authorization".toList ≠ [] →
      getFieldValues (stripSignature (r.HeaderGet "Authorization".toList)) =
        .ok fieldValues →
      hm.getSecretAndSessionForKeyID r fieldValues.KeyID = .ok (secret, session) →
      (hm.Spec.HmacAllowedAlgorithms = [] ∨
        fieldValues.Algorthm ∈ hm.Spec.HmacAllowedAlgorithms) →
      signatureMatches
        (generateEncodedSignature hm.mac (signatureLines r fieldValues.Headers) secret
          fieldValues.Algorthm) fieldValues.Signature = true →
      ((hm.ProcessRequest now r).1 = (none, StatusOK) ↔
        hm.checkClockSkew now (getDateHeader r).2 = true)) := by
  refine ⟨?_, ?_, ?_, ?_, ?_⟩
  · intro h
    rw [getDateHeader_cases, if_pos h]
  · intro h1 h2
    rw [getDateHeader_cases, if_neg (not_not.mpr h1), if_pos h2]
  · intro h1 h2
    rw [getDateHeader_cases, if_neg (not_not.mpr h1), if_neg (not_not.mpr h2)]
  · intro header last h
    have hn : ¬ ("date".toList = "(request-target)".toList) := by decide
    rw [signatureLine_eq, canonicalLine, h, if_neg hn, if_pos rfl, dateLine_eq]
    cases last <;> simp
  · intro fieldValues secret session hauth hparse hget hallow hmatch
    have hal : ¬ (hm.Spec.HmacAllowedAlgorithms.length > 0 ∧
        ¬ fieldValues.Algorthm ∈ hm.Spec.HmacAllowedAlgorithms) := by
      rintro ⟨h1, h2⟩
      rcases hallow with h | h
      · rw [h] at h1
        simp at h1
      · exact h2 h
    rw [hmac_run_of_secret hm now r fieldValues secret session hauth hparse hget, if_neg hal,
      if_neg (by simp [hmatch])]
    cases hskew : hm.checkClockSkew now (getDateHeader r).2
    · simp [HMACMiddleware.authorizationError, StatusOK, StatusBadRequest]
    · simp only [Bool.true_eq_false, if_false, iff_true]
      split <;> rfl

theorem keyText_of_split {e k v : Str} (hs : Split '=' e = [k, v]) : keyText e = ToLower k := by
  rw [keyText, hs]; rfl

theorem valueText_of_split {e k v : Str} (hs : Split '=' e = [k, v]) :
    valueText e = Trim v '"' := by
  rw [valueText, hs]; rfl

theorem getFieldValuesLoop_pair {e k v : Str} (hs : Split '=' e = [k, v]) (rest : List Str)
    (set : HMACFieldValues) :
    getFieldValuesLoop (e :: rest) set =
      if ToLower k = "keyid".toList then
        getFieldValuesLoop rest { set with KeyID := Trim v '"' }
      else if ToLower k = "algorithm".toList then
        getFieldValuesLoop rest { set with Algorthm := Trim v '"' }
      else if ToLower k = "headers".toList then
        getFieldValuesLoop rest { set with Headers := Split ' ' (Trim v '"') }
      else if ToLower k = "signature".toList then
        getFieldValuesLoop rest { set with Signature := Trim v '"' }
      else .error "Header key is not valid, not in allowed parameter list".toList := by
  rw [getFieldValuesLoop, hs]

theorem getFieldValuesLoop_malformed {e : Str} (hs : ¬ splitsInTwo e) (rest : List Str)
    (set : HMACFieldValues) :
    getFieldValuesLoop (e :: rest) set =
      .error "Header field value malformed (need two elements in field)".toList := by
  rw [getFieldValuesLoop]
  split
  · rename_i k v h
    exact absurd (by rw [splitsInTwo, h]; rfl) hs
  · rfl

theorem splitsInTwo_cases (e : Str) : ¬ splitsInTwo e ∨ ∃ k v, Split '=' e = [k, v] := by
  unfold splitsInTwo
  rcases hs : Split '=' e with _ | ⟨k, _ | ⟨v, _ | ⟨w, t⟩⟩⟩
  · left; simp
  · left; simp
  · right; exact ⟨k, v, rfl⟩
  · left; simp

theorem mem_fieldNames (k : Str) :
    k ∈ fieldNames ↔ k = "keyid".toList ∨ k = "algorithm".toList ∨ k = "headers".toList ∨
      k = "signature".toList := by
  simp only [fieldNames, List.mem_cons, List.mem_singleton, List.mem_nil_iff, or_false]

theorem getFieldValuesLoop_good {e k v : Str} (hs : Split '=' e = [k, v])
    (hk : ToLower k ∈ fieldNames) (rest : List Str) (set : HMACFieldValues) :
    getFieldValuesLoop (e :: rest) set =
      getFieldValuesLoop rest
        { KeyID := if ToLower k = "keyid".toList then Trim v '"' else set.KeyID,
          Algorthm := if ToLower k = "algorithm".toList then Trim v '"' else set.Algorthm,
          Headers :=
            if ToLower k = "headers".toList then Split ' ' (Trim v '"') else set.Headers,
          Signature := if ToLower k = "signature".toList then Trim v '"' else set.Signature } := by
  rw [getFieldValuesLoop_pair hs]
  rcases (mem_fieldNames _).1 hk with h | h | h | h <;> rw [h] <;> rfl

theorem getFieldValuesLoop_badKey {e k v : Str} (hs : Split '=' e = [k, v])
    (hk : ToLower k ∉ fieldNames) (rest : List Str) (set : HMACFieldValues) :
    getFieldValuesLoop (e :: rest) set =
      .error "Header key is not valid, not in allowed parameter list".toList := by
  rw [mem_fieldNames] at hk
  rw [getFieldValuesLoop_pair hs, if_neg (fun h => hk (Or.inl h)),
    if_neg (fun h => hk (Or.inr (Or.inl h))), if_neg (fun h => hk (Or.inr (Or.inr (Or.inl h)))),
    if_neg (fun h => hk (Or.inr (Or.inr (Or.inr h))))]

theorem getFieldValuesLoop_error_iff (es : List Str) : ∀ set : HMACFieldValues,
    (∃ err, getFieldValuesLoop es set = .error err) ↔
      ∃ e ∈ es, ¬ (splitsInTwo e ∧ keyText e ∈ fieldNames) := by
  induction es with
  | nil =>
    intro set
    simp [getFieldValuesLoop]
  | cons e rest ih =>
    intro set
    rcases splitsInTwo_cases e with hs | ⟨k, v, hs⟩
    · rw [getFieldValuesLoop_malformed hs]
      exact ⟨fun _ => ⟨e, List.mem_cons_self _ _, fun h => hs h.1⟩, fun _ => ⟨_, rfl⟩⟩
    · have h2 : splitsInTwo e := by rw [splitsInTwo, hs]; rfl
      have hk := keyText_of_split hs
      by_cases hmem : ToLower k ∈ fieldNames
      · rw [getFieldValuesLoop_good hs hmem, ih]
        have good : splitsInTwo e ∧ keyText e ∈ fieldNames := ⟨h2, by rw [hk]; exact hmem⟩
        constructor
        · rintro ⟨x, hx, hbad⟩
          exact ⟨x, List.mem_cons_of_mem _ hx, hbad⟩
        · rintro ⟨x, hx, hbad⟩
          rcases List.mem_cons.1 hx with rfl | hx
          · exact absurd good hbad
          · exact ⟨x, hx, hbad⟩
      · rw [getFieldValuesLoop_badKey hs hmem]
        exact ⟨fun _ => ⟨e, List.mem_cons_self _ _, fun h => hmem (by rw [← hk]; exact h.2)⟩,
          fun _ => ⟨_, rfl⟩⟩

theorem getLast?_cons_getD {α : Type} (a : α) (l : List α) :
    (a :: l).getLast? = some (l.getLast?.getD a) := by
  cases l with
  | nil => rfl
  | cons b t =>
    rw [List.getLast?_cons_cons]
    cases h : (b :: t).getLast? with
    | none => simp at h
    | some x => rfl

theorem lastCarrying_cons {β : Type} (key e : Str) (rest : List Str) (f : Str → β) (d : β) :
    ((lastCarrying key (e :: rest)).map f).getD d =
      ((lastCarrying key rest).map f).getD (if keyText e = key then f e else d) := by
  unfold lastCarrying
  by_cases h : keyText e = key
  · rw [List.filter_cons_of_pos (by simpa using h), getLast?_cons_getD, if_pos h]
    cases (List.filter (fun e => decide (keyText e = key)) rest).getLast? <;> rfl
  · rw [List.filter_cons_of_neg (by simpa using h), if_neg h]

theorem getFieldValuesLoop_values (es : List Str) : ∀ set fv : HMACFieldValues,
    getFieldValuesLoop es set = .ok fv →
      fv.KeyID = ((lastCarrying "keyid".toList es).map valueText).getD set.KeyID ∧
      fv.Algorthm = ((lastCarrying "algorithm".toList es).map valueText).getD set.Algorthm ∧
      fv.Signature = ((lastCarrying "signature".toList es).map valueText).getD set.Signature ∧
      fv.Headers = ((lastCarrying "headers".toList es).map
        (fun e => Split ' ' (valueText e))).getD set.Headers := by
  induction es with
  | nil =>
    intro set fv h
    rw [getFieldValuesLoop] at h
    cases h
    exact ⟨rfl, rfl, rfl, rfl⟩
  | cons e rest ih =>
    intro set fv h
    rcases splitsInTwo_cases e with hs | ⟨k, v, hs⟩
    · rw [getFieldValuesLoop_malformed hs] at h
      cases h
    · by_cases hmem : ToLower k ∈ fieldNames
      · rw [getFieldValuesLoop_good hs hmem] at h
        have := ih _ _ h
        rw [lastCarrying_cons, lastCarrying_cons, lastCarrying_cons, lastCarrying_cons,
          keyText_of_split hs, valueText_of_split hs]
        exact this
      · rw [getFieldValuesLoop_badKey hs hmem] at h
        cases h

/-! ## Parsing the `Signature` header -/

/-- C19. Signature header parsing fails exactly on malformed input: for every
header string `h`, `getFieldValues h` returns an error if and only if some
comma-separated element of `h` does not split on `=` into exactly two parts, or
the lower-cased text before the `=` of some element is not one of `keyid`,
`algorithm`, `headers`, `signature`; otherwise it succeeds, and each of `KeyID`,
`Algorthm` and `Signature` is the value of the last element carrying that key,
with leading and trailing double quotes removed, and empty if no element
carries it. -/
theorem signature_header_parsing (h : Str) :
    ((∃ err, getFieldValues h = .error err) ↔
      (∃ e ∈ Split ',' h, ¬ splitsInTwo e) ∨ (∃ e ∈ Split ',' h, keyText e ∉ fieldNames)) ∧
    (¬ ((∃ e ∈ Split ',' h, ¬ splitsInTwo e) ∨ (∃ e ∈ Split ',' h, keyText e ∉ fieldNames)) →
      ∃ fv, getFieldValues h = .ok fv ∧
        fv.KeyID = lastValue "keyid".toList (Split ',' h) ∧
        fv.Algorthm = lastValue "algorithm".toList (Split ',' h) ∧
        fv.Signature = lastValue "signature".toList (Split ',' h)) := by
  have hbad : (∃ e ∈ Split ',' h, ¬ (splitsInTwo e ∧ keyText e ∈ fieldNames)) ↔
      (∃ e ∈ Split ',' h, ¬ splitsInTwo e) ∨ (∃ e ∈ Split ',' h, keyText e ∉ fieldNames) := by
    constructor
    · rintro ⟨e, he, hn⟩
      by_cases h2 : splitsInTwo e
      · exact Or.inr ⟨e, he, fun hk => hn ⟨h2, hk⟩⟩
      · exact Or.inl ⟨e, he, h2⟩
    · rintro (⟨e, he, hn⟩ | ⟨e, he, hn⟩)
      · exact ⟨e, he, fun hg => hn hg.1⟩
      · exact ⟨e, he, fun hg => hn hg.2⟩
  have herr : (∃ err, getFieldValues h = .error err) ↔
      ∃ err, getFieldValuesLoop (Split ',' h) {} = .error err := by
    unfold getFieldValues
    cases hl : getFieldValuesLoop (Split ',' h) {} with
    | error e => exact ⟨fun _ => ⟨e, rfl⟩, fun _ => ⟨e, rfl⟩⟩
    | ok set =>
      constructor
      · rintro ⟨err, he⟩
        dsimp only at he
        split at he <;> cases he
      · rintro ⟨err, he⟩
        cases he
  refine ⟨by rw [herr, getFieldValuesLoop_error_iff, hbad], ?_⟩
  intro hgood
  rw [← hbad, ← getFieldValuesLoop_error_iff (Split ',' h) {}] at hgood
  cases hl : getFieldValuesLoop (Split ',' h) {} with
  | error e => exact absurd ⟨e, hl⟩ hgood
  | ok set =>
    obtain ⟨h1, h2, h3, _⟩ := getFieldValuesLoop_values _ _ _ hl
    unfold getFieldValues
    rw [hl]
    dsimp only
    split
    · exact ⟨_, rfl, h1, h2, h3⟩
    · exact ⟨_, rfl, h1, h2, h3⟩

/-- C20 fails for a `headers` field whose value is empty. The header
`keyId="k",headers="",signature="x"` is accepted with the header-name list
`[""]`, one empty name, not `["date"]`; the same header without the `headers`
field gives `["date"]`.  The signing string of the list `[""]` is `": "` for a
request that carries dates. -/
theorem default_signed_headers_fails :
    getFieldValues
        (fieldElement "keyId".toList "k".toList ++ ',' ::
          (fieldElement "headers".toList [] ++ ',' ::
            fieldElement "signature".toList "x".toList)) =
      .ok { KeyID := "k".toList, Headers := [[]], Signature := "x".toList } ∧
    getFieldValues
        (fieldElement "keyId".toList "k".toList ++ ',' ::
          fieldElement "signature".toList "x".toList) =
      .ok { KeyID := "k".toList, Headers := ["date".toList], Signature := "x".toList } ∧
    generateHMACSignatureStringFromRequest sampleAuxRequest { Headers := [[]] } =
      .ok ": ".toList := by
  decide

/-- C14, as stated, fails when `now − h` does not fit an `int64`: the limit is
9 000 000 000 000 ms, the date is 1 January 1700 and the current time is
4 November 2026, so the two instants are 10 314 086 400 000 ms apart, more than
the limit; the check returns true, the `int64` difference having wrapped to
−8 132 657 673 709 551 616 ns. -/
theorem clock_skew_bound_counterexample :
    0 < sampleOldDateHMAC.Spec.HmacAllowedClockSkew ∧
      sampleOldDateHMAC.timeParse "Mon, 02 Jan 2006 15:04:05 MST".toList
        "Fri, 01 Jan 1700 00:00:00 GMT".toList = some (-8520336000000000000) ∧
      |(1793750400000000000 : Int) - (-8520336000000000000)| / 1000000 = 10314086400000 ∧
      ¬ ((10314086400000 : ℚ) ≤ sampleOldDateHMAC.Spec.HmacAllowedClockSkew) ∧
      wrapInt64 (1793750400000000000 - (-8520336000000000000)) = -8132657673709551616 ∧
      sampleOldDateHMAC.checkClockSkew 1793750400000000000
        "Fri, 01 Jan 1700 00:00:00 GMT".toList = true := by
  decide

/-! ## Loop dispatches: limit, version binding and depth -/

theorem loopRewrite_ctx (r : Request) : (loopRewrite r).ctx = r.ctx := by
  unfold loopRewrite
  dsimp only
  split <;> rfl

theorem loopRewrite_host (r : Request) : (loopRewrite r).URL.Host = r.URL.Host := by
  unfold loopRewrite
  dsimp only
  split <;> rfl

theorem loopRewrite_query (r : Request) : (loopRewrite r).URL.Query = r.URL.Query := by
  unfold loopRewrite
  dsimp only
  split <;> rfl

theorem loopRewrite_hostname (r : Request) : (loopRewrite r).URL.Hostname = r.URL.Hostname := by
  unfold URL.Hostname
  rw [loopRewrite_host]

/-- What `loopDispatch` hands to a chain that is set: the depth grown by one, a
limit of the URL as the new ceiling, the version binding untouched. -/
theorem loopDispatch_ctx (target : APISpec) (r : Request) :
    ∃ r2, loopDispatch target true r = .chain target r2 ∧
      r2.ctx.LoopLevel = r.ctx.LoopLevel + 1 ∧
      r2.ctx.LoopLevelLimit =
        (if AtoiOrZero (r.URL.QueryGet "loop_limit".toList) = 0 then r.ctx.LoopLevelLimit
          else AtoiOrZero (r.URL.QueryGet "loop_limit".toList)) ∧
      r2.ctx.VersionData = r.ctx.VersionData := by
  unfold loopDispatch
  refine ⟨_, rfl, ?_, ?_, ?_⟩
  all_goals
    dsimp only [ctxIncLoopLevel, ctxSetCheckLoopLimits, ctxGetOrigRequestURL]
    try (cases r.ctx.OrigRequestURL <;> rfl)

/-- The loop branch of `ServeHTTP` for a request that is not too deep. -/
theorem serveHTTP_dispatch (d : DummyProxyHandler) (r : Request)
    (h : isLoop r = (true, none)) :
    d.ServeHTTP r =
      if r.URL.Hostname = "self".toList then
        loopDispatch d.Spec d.middlewareChain (loopRewrite r)
      else
        match fuzzyFindAPI d.replaceNonAlphaNumeric d.apisByID r.URL.Hostname with
        | none => .crashed
        | some (some targetAPI) =>
          loopDispatch targetAPI.Spec targetAPI.middlewareChain
            (ctxSetVersionInfo (loopRewrite r) none)
        | some none =>
          .error "Can't detect loop target".toList StatusInternalServerError
            (ctxSetVersionInfo (loopRewrite r) none) := by
  unfold DummyProxyHandler.ServeHTTP
  rw [h]
  dsimp only
  have e : (ctxSetVersionInfo (loopRewrite r) none).URL.Hostname = r.URL.Hostname :=
    loopRewrite_hostname r
  rw [loopRewrite_hostname, e]

theorem isLoop_cases (r : Request) :
    isLoop r = (false, none) ∨ isLoop r = (true, none) ∨ ∃ e, isLoop r = (true, some e) := by
  by_cases hs : r.URL.Scheme = "tyk".toList
  · rw [isLoop_of_tyk r hs]
    by_cases hd :
        r.ctx.LoopLevel > (if r.ctx.LoopLevelLimit = 0 then 5 else r.ctx.LoopLevelLimit)
    · rw [if_pos hd]
      exact Or.inr (Or.inr ⟨_, rfl⟩)
    · rw [if_neg hd]
      exact Or.inr (Or.inl rfl)
  · left
    rw [isLoop, if_pos hs]

theorem isLoop_not_deep (r : Request) (hs : r.URL.Scheme = "tyk".toList)
    (hd : ¬ r.ctx.LoopLevel > (if r.ctx.LoopLevelLimit = 0 then 5 else r.ctx.LoopLevelLimit)) :
    isLoop r = (true, none) := by
  rw [isLoop_of_tyk r hs, if_neg hd]

/-- The handler answers 500 "Loop level too deep" exactly above the ceiling. -/
theorem serveHTTP_too_deep_iff (d : DummyProxyHandler) (r : Request)
    (hs : r.URL.Scheme = "tyk".toList) :
    (∃ msg r2, d.ServeHTTP r = .error msg 500 r2 ∧ "Loop level too deep".toList <+: msg) ↔
      r.ctx.LoopLevel > (if r.ctx.LoopLevelLimit = 0 then 5 else r.ctx.LoopLevelLimit) := by
  have hl := isLoop_of_tyk r hs
  constructor
  · rintro ⟨msg, r2, he, hp⟩
    by_contra hgt
    rw [if_neg hgt] at hl
    have := serveHTTP_not_deep d r hl msg r2 he
    rw [this] at hp
    exact absurd hp (by decide)
  · intro hgt
    rw [if_pos hgt] at hl
    refine ⟨loopLevelError (if r.ctx.LoopLevelLimit = 0 then 5 else r.ctx.LoopLevelLimit), r,
      ?_, ?_⟩
    · unfold DummyProxyHandler.ServeHTTP
      rw [hl]
      rfl
    · unfold loopLevelError
      rw [List.append_assoc]
      have hp : "Loop level too deep".toList <+:
          "Loop level too deep. Found more than ".toList := by decide
      exact hp.trans (List.prefix_append _ _)

theorem loopDispatch_chain_set (target : APISpec) (middlewareChain : Bool) (r : Request)
    (target2 : APISpec) (r2 : Request)
    (h : loopDispatch target middlewareChain r = .chain target2 r2) :
    middlewareChain = true := by
  cases middlewareChain
  · exact absurd h (by simp [loopDispatch])
  · rfl

/-- A request handed to a chain went through the loop branch, and the chain of
its target was set. -/
theorem serveHTTP_chain_inv (d : DummyProxyHandler) (r : Request) (target : APISpec)
    (r2 : Request) (h : d.ServeHTTP r = .chain target r2) :
    isLoop r = (true, none) ∧
      ((r.URL.Hostname = "self".toList ∧
          loopDispatch d.Spec true (loopRewrite r) = .chain target r2) ∨
        (r.URL.Hostname ≠ "self".toList ∧
          ∃ api, fuzzyFindAPI d.replaceNonAlphaNumeric d.apisByID r.URL.Hostname =
              some (some api) ∧
            loopDispatch api.Spec true (ctxSetVersionInfo (loopRewrite r) none) =
              .chain target r2)) := by
  rcases isLoop_cases r with hl | hl | ⟨e, hl⟩
  · unfold DummyProxyHandler.ServeHTTP at h
    rw [hl] at h
    exact absurd h (by simp)
  · refine ⟨hl, ?_⟩
    rw [serveHTTP_dispatch d r hl] at h
    by_cases hself : r.URL.Hostname = "self".toList
    · rw [if_pos hself] at h
      have hset := loopDispatch_chain_set _ _ _ _ _ h
      rw [hset] at h
      exact Or.inl ⟨hself, h⟩
    · rw [if_neg hself] at h
      refine Or.inr ⟨hself, ?_⟩
      cases hf : fuzzyFindAPI d.replaceNonAlphaNumeric d.apisByID r.URL.Hostname with
      | none =>
        rw [hf] at h
        exact absurd h (by simp)
      | some found =>
        rw [hf] at h
        cases found with
        | none => exact absurd h (by simp)
        | some api =>
          have h2 : loopDispatch api.Spec api.middlewareChain
              (ctxSetVersionInfo (loopRewrite r) none) = .chain target r2 := h
          have hset := loopDispatch_chain_set _ _ _ _ _ h2
          rw [hset] at h2
          exact ⟨api, rfl, h2⟩
  · unfold DummyProxyHandler.ServeHTTP at h
    rw [hl] at h
    exact absurd h (by simp)

/-- Every request handed to a chain has its depth grown by one. -/
theorem serveHTTP_chain_depth (d : DummyProxyHandler) (r : Request) (target : APISpec)
    (r2 : Request) (h : d.ServeHTTP r = .chain target r2) :
    r2.ctx.LoopLevel = r.ctx.LoopLevel + 1 := by
  obtain ⟨_, ⟨_, hd⟩ | ⟨_, api, _, hd⟩⟩ := serveHTTP_chain_inv d r target r2 h
  · obtain ⟨r3, h3, hlevel, _⟩ := loopDispatch_ctx d.Spec (loopRewrite r)
    rw [h3] at hd
    injection hd with _ hr
    rw [← hr, hlevel, loopRewrite_ctx]
  · obtain ⟨r3, h3, hlevel, _⟩ := loopDispatch_ctx api.Spec (ctxSetVersionInfo (loopRewrite r) none)
    rw [h3] at hd
    injection hd with _ hr
    rw [← hr, hlevel]
    show (loopRewrite r).ctx.LoopLevel + 1 = _
    rw [loopRewrite_ctx]

/-- A found API whose middleware chain is nil: `handler.ServeHTTP` panics. -/
theorem serveHTTP_nil_chain (d : DummyProxyHandler) (r : Request)
    (hl : isLoop r = (true, none)) (hself : r.URL.Hostname ≠ "self".toList) (api : LoadedAPI)
    (hfind : fuzzyFindAPI d.replaceNonAlphaNumeric d.apisByID r.URL.Hostname = some (some api))
    (hnil : api.middlewareChain = false) :
    d.ServeHTTP r = .crashed := by
  rw [serveHTTP_dispatch d r hl, if_neg hself, hfind]
  show loopDispatch api.Spec api.middlewareChain _ = _
  rw [hnil]
  rfl

/-- C21 (amended). Loop limit 0 in the loop URL: a looped request whose loop URL
carries `loop_limit=0`, which is read as the limit 0 like an absent parameter,
is answered 500 "Loop level too deep" if and only if the depth of its context
is above the ceiling of its context (the limit stored there, 5 when that is 0),
as any other loop request is; otherwise, when its target is `self` or an API
that `fuzzyFindAPI` finds, and the middleware chain of the target is set, it is
handed to the target chain. -/
theorem forced_zero_loop_limit (d : DummyProxyHandler) (r : Request)
    (hs : r.URL.Scheme = "tyk".toList)
    (hq : r.URL.QueryGet "loop_limit".toList = "0".toList) :
    AtoiOrZero (r.URL.QueryGet "loop_limit".toList) = AtoiOrZero [] ∧
    ((∃ msg r2, d.ServeHTTP r = .error msg 500 r2 ∧ "Loop level too deep".toList <+: msg) ↔
      r.ctx.LoopLevel > (if r.ctx.LoopLevelLimit = 0 then 5 else r.ctx.LoopLevelLimit)) ∧
    (¬ r.ctx.LoopLevel > (if r.ctx.LoopLevelLimit = 0 then 5 else r.ctx.LoopLevelLimit) →
      (r.URL.Hostname = "self".toList → d.middlewareChain = true →
        ∃ r2, d.ServeHTTP r = .chain d.Spec r2) ∧
      (r.URL.Hostname ≠ "self".toList →
        ∀ api, fuzzyFindAPI d.replaceNonAlphaNumeric d.apisByID r.URL.Hostname =
            some (some api) →
          api.middlewareChain = true →
          ∃ r2, d.ServeHTTP r = .chain api.Spec r2)) := by
  refine ⟨by rw [hq]; decide, serveHTTP_too_deep_iff d r hs, ?_⟩
  intro hd
  have hl := isLoop_not_deep r hs hd
  rw [serveHTTP_dispatch d r hl]
  constructor
  · intro hself hset
    rw [if_pos hself, hset]
    exact loopDispatch_chain d.Spec (loopRewrite r)
  · intro hself api hfind hset
    rw [if_neg hself, hfind]
    show ∃ r2, loopDispatch api.Spec api.middlewareChain _ = _
    rw [hset]
    exact loopDispatch_chain api.Spec (ctxSetVersionInfo (loopRewrite r) none)

/-- The request `tyk://self/a?loop_limit=0` at depth 0 is handed to the chain. -/
theorem forced_zero_loop_limit_witness :
    ∃ r2, ({} : DummyProxyHandler).ServeHTTP sampleLoopZero = .chain {} r2 :=
  ((forced_zero_loop_limit {} sampleLoopZero (by decide) (by decide)).2.2 (by decide)).1
    (by decide) rfl

/-- C21, as stated, fails: the loop request `tyk://self/a?loop_limit=0`, at
depth 0, is not answered 500; it is handed to the chain of the API, at depth 1
and with the limit 0, which `isLoop` reads as the default ceiling 5. -/
theorem forced_zero_loop_limit_counterexample :
    sampleLoopZero.URL.QueryGet "loop_limit".toList = "0".toList ∧
      ({} : DummyProxyHandler).ServeHTTP sampleLoopZero =
        .chain {}
          { sampleLoopZero with
            URL := { sampleLoopZero.URL with Scheme := "http".toList },
            ctx := { LoopLevel := 1, LoopLevelLimit := 0 } } ∧
      isLoop
        { sampleLoopZero with ctx := { LoopLevel := 1, LoopLevelLimit := 0 } } =
        (true, none) := by
  decide

/-- C22 (amended). Version binding on dispatch: on every loop dispatch that
reaches the chain of an API named by the host of the loop URL, the host not
being `self`, `ServeHTTP` clears the version binding in the request context
before handing the request to that chain; on a dispatch to `self` the request is
handed to the chain of the same API with the version binding as it was.  A
request that is not too deep reaches the chain of its target when that chain is
set. -/
theorem version_binding_on_dispatch (d : DummyProxyHandler) (r : Request) :
    (r.URL.Scheme = "tyk".toList →
      ¬ r.ctx.LoopLevel > (if r.ctx.LoopLevelLimit = 0 then 5 else r.ctx.LoopLevelLimit) →
      (r.URL.Hostname = "self".toList → d.middlewareChain = true →
        ∃ r2, d.ServeHTTP r = .chain d.Spec r2 ∧ r2.ctx.VersionData = r.ctx.VersionData) ∧
      (r.URL.Hostname ≠ "self".toList →
        ∀ api, fuzzyFindAPI d.replaceNonAlphaNumeric d.apisByID r.URL.Hostname =
            some (some api) →
          api.middlewareChain = true →
          ∃ r2, d.ServeHTTP r = .chain api.Spec r2 ∧ r2.ctx.VersionData = none)) ∧
    (∀ target r2, d.ServeHTTP r = .chain target r2 →
      r2.ctx.VersionData =
        if r.URL.Hostname = "self".toList then r.ctx.VersionData else none) := by
  constructor
  · intro hs hd
    have hl := isLoop_not_deep r hs hd
    constructor
    · intro hself hset
      obtain ⟨r2, h2, _, _, hv⟩ := loopDispatch_ctx d.Spec (loopRewrite r)
      rw [loopRewrite_ctx] at hv
      exact ⟨r2, by rw [serveHTTP_dispatch d r hl, if_pos hself, hset, h2], hv⟩
    · intro hself api hfind hset
      obtain ⟨r2, h2, _, _, hv⟩ :=
        loopDispatch_ctx api.Spec (ctxSetVersionInfo (loopRewrite r) none)
      refine ⟨r2, ?_, hv⟩
      rw [serveHTTP_dispatch d r hl, if_neg hself, hfind]
      show loopDispatch api.Spec api.middlewareChain _ = _
      rw [hset]
      exact h2
  · intro target r2 h
    obtain ⟨_, ⟨hself, hd⟩ | ⟨hself, api, _, hd⟩⟩ := serveHTTP_chain_inv d r target r2 h
    · obtain ⟨r3, h3, _, _, hv⟩ := loopDispatch_ctx d.Spec (loopRewrite r)
      rw [h3] at hd
      injection hd with _ hr
      rw [if_pos hself, ← hr, hv, loopRewrite_ctx]
    · obtain ⟨r3, h3, _, _, hv⟩ :=
        loopDispatch_ctx api.Spec (ctxSetVersionInfo (loopRewrite r) none)
      rw [h3] at hd
      injection hd with _ hr
      rw [if_neg hself, ← hr, hv]
      rfl

/-- C22, as stated, fails for the host `self`: the loop request `tyk://self/a`
with the version `v1` bound is handed to the chain with `v1` still bound. -/
theorem version_binding_on_dispatch_counterexample :
    sampleLoopVersioned.ctx.VersionData = some "v1".toList ∧
      ({} : DummyProxyHandler).ServeHTTP sampleLoopVersioned =
        .chain {}
          { sampleLoopVersioned with
            URL := { sampleLoopVersioned.URL with Scheme := "http".toList },
            ctx := { VersionData := some "v1".toList, LoopLevel := 1 } } := by
  decide

theorem nestedDispatches_depth (stages : List ((Request → Request) × DummyProxyHandler)) :
    ∀ (r : Request),
      (∀ s ∈ stages, ∀ x : Request, (s.1 x).ctx.LoopLevel = x.ctx.LoopLevel) →
      ∀ (n : Nat) (hn : n < (nestedDispatches stages r).length),
        ((nestedDispatches stages r).get ⟨n, hn⟩).ctx.LoopLevel = r.ctx.LoopLevel + (n + 1) := by
  induction stages with
  | nil =>
    intro r _ n hn
    exact absurd hn (by simp [nestedDispatches])
  | cons s rest ih =>
    intro r hframe n hn
    obtain ⟨rewrite, d⟩ := s
    have hrw : (rewrite r).ctx.LoopLevel = r.ctx.LoopLevel :=
      hframe (rewrite, d) (List.mem_cons_self _ _) r
    have hrest : ∀ s ∈ rest, ∀ x : Request, (s.1 x).ctx.LoopLevel = x.ctx.LoopLevel :=
      fun s hs => hframe s (List.mem_cons_of_mem _ hs)
    cases hserve : d.ServeHTTP (rewrite r) with
    | chain target r2 =>
      have e : nestedDispatches ((rewrite, d) :: rest) r = r2 :: nestedDispatches rest r2 := by
        simp only [nestedDispatches, hserve]
      have hdepth : r2.ctx.LoopLevel = r.ctx.LoopLevel + 1 := by
        rw [serveHTTP_chain_depth d (rewrite r) target r2 hserve, hrw]
      cases n with
      | zero =>
        simp only [e, List.get_eq_getElem, List.getElem_cons_zero]
        rw [hdepth]
        rfl
      | succ m =>
        have hm : m < (nestedDispatches rest r2).length := by
          rw [e] at hn
          simpa using hn
        have := ih r2 hrest m hm
        simp only [e, List.get_eq_getElem, List.getElem_cons_succ] at this ⊢
        rw [this, hdepth]
        push_cast
        ring
    | error msg code r2 =>
      exact absurd hn (by simp [nestedDispatches, hserve])
    | proxied r2 =>
      exact absurd hn (by simp [nestedDispatches, hserve])
    | crashed =>
      exact absurd hn (by simp [nestedDispatches, hserve])

/-- C23. Loop depth counts dispatches: for every sequence of nested loop
dispatches through `ServeHTTP` that starts from a request at depth 0, the
chains in between leaving the depth as it is, the depth in the context of the
request handed to the target chain by the n-th dispatch is n; every dispatch
that reaches a target chain grows the depth by exactly one, and no outcome of
the dispatcher leaves a request with a smaller depth. -/
theorem loop_depth_counts_dispatches
    (stages : List ((Request → Request) × DummyProxyHandler)) (r : Request)
    (h0 : r.ctx.LoopLevel = 0)
    (hframe : ∀ s ∈ stages, ∀ x : Request, (s.1 x).ctx.LoopLevel = x.ctx.LoopLevel) :
    (∀ (n : Nat) (hn : n < (nestedDispatches stages r).length),
      ((nestedDispatches stages r).get ⟨n, hn⟩).ctx.LoopLevel = ((n + 1 : Nat) : Int)) ∧
    (∀ (d : DummyProxyHandler) (x : Request) (target : APISpec) (x2 : Request),
      d.ServeHTTP x = .chain target x2 → x2.ctx.LoopLevel = x.ctx.LoopLevel + 1) ∧
    (∀ (d : DummyProxyHandler) (x : Request),
      match d.ServeHTTP x with
      | .error _ _ x2 => x.ctx.LoopLevel ≤ x2.ctx.LoopLevel
      | .chain _ x2 => x.ctx.LoopLevel ≤ x2.ctx.LoopLevel
      | .proxied x2 => x.ctx.LoopLevel ≤ x2.ctx.LoopLevel
      | .crashed => True) := by
  refine ⟨?_, serveHTTP_chain_depth, ?_⟩
  · intro n hn
    rw [nestedDispatches_depth stages r hframe n hn, h0]
    push_cast
    ring
  · intro d x
    cases hserve : d.ServeHTTP x with
    | chain target x2 =>
      have := serveHTTP_chain_depth d x target x2 hserve
      show x.ctx.LoopLevel ≤ x2.ctx.LoopLevel
      omega
    | crashed => trivial
    | proxied x2 =>
      show x.ctx.LoopLevel ≤ x2.ctx.LoopLevel
      rcases isLoop_cases x with hl | hl | ⟨e, hl⟩
      · unfold DummyProxyHandler.ServeHTTP at hserve
        rw [hl] at hserve
        injection hserve with hx
        rw [← hx]
      · rw [serveHTTP_dispatch d x hl] at hserve
        split at hserve
        · rcases loopDispatch_cases d.Spec d.middlewareChain (loopRewrite x) with
            ⟨r3, h3⟩ | h3
          · rw [h3] at hserve
            cases hserve
          · rw [h3] at hserve
            cases hserve
        · split at hserve
          · cases hserve
          · rename_i api _
            rcases loopDispatch_cases api.Spec api.middlewareChain
              (ctxSetVersionInfo (loopRewrite x) none) with ⟨r3, h3⟩ | h3
            · rw [h3] at hserve
              cases hserve
            · rw [h3] at hserve
              cases hserve
          · cases hserve
      · unfold DummyProxyHandler.ServeHTTP at hserve
        rw [hl] at hserve
        cases hserve
    | error msg code x2 =>
      show x.ctx.LoopLevel ≤ x2.ctx.LoopLevel
      rcases isLoop_cases x with hl | hl | ⟨e, hl⟩
      · unfold DummyProxyHandler.ServeHTTP at hserve
        rw [hl] at hserve
        cases hserve
      · rw [serveHTTP_dispatch d x hl] at hserve
        split at hserve
        · rcases loopDispatch_cases d.Spec d.middlewareChain (loopRewrite x) with
            ⟨r3, h3⟩ | h3
          · rw [h3] at hserve
            cases hserve
          · rw [h3] at hserve
            cases hserve
        · split at hserve
          · cases hserve
          · rename_i api _
            rcases loopDispatch_cases api.Spec api.middlewareChain
              (ctxSetVersionInfo (loopRewrite x) none) with ⟨r3, h3⟩ | h3
            · rw [h3] at hserve
              cases hserve
            · rw [h3] at hserve
              cases hserve
          · injection hserve with _ _ hx
            rw [← hx]
            show x.ctx.LoopLevel ≤ (loopRewrite x).ctx.LoopLevel
            rw [loopRewrite_ctx]
      · unfold DummyProxyHandler.ServeHTTP at hserve
        rw [hl] at hserve
        injection hserve with _ _ hx
        rw [← hx]

/-- Two nested dispatches to `self` from depth 0: the chains are handed the
request at depth 1 and at depth 2. -/
theorem loop_depth_counts_dispatches_witness :
    (nestedDispatches [(id, {}), (sampleLoopAgain, {})] sampleLoopVersioned).length = 2 ∧
      ∀ (n : Nat)
        (hn : n < (nestedDispatches [(id, {}), (sampleLoopAgain, {})]
          sampleLoopVersioned).length),
        ((nestedDispatches [(id, {}), (sampleLoopAgain, {})] sampleLoopVersioned).get
          ⟨n, hn⟩).ctx.LoopLevel = ((n + 1 : Nat) : Int) :=
  ⟨by decide,
    (loop_depth_counts_dispatches [(id, {}), (sampleLoopAgain, {})] sampleLoopVersioned
      (by decide)
      (by
        intro s hs x
        simp only [List.mem_cons, List.mem_singleton, List.mem_nil_iff, or_false] at hs
        rcases hs with rfl | rfl <;> rfl)).1⟩

/-! ## Category trimming -/

theorem indexOf_hash_append (pre post : Str) (h : '#' ∉ pre) :
    (pre ++ '#' :: post).indexOf? '#' = some pre.length := by
  induction pre with
  | nil => simp [List.indexOf?, List.findIdx?_cons]
  | cons c pre ih =>
    have hc : c ≠ '#' := fun e => h (by rw [e]; exact List.mem_cons_self _ _)
    have hp : '#' ∉ pre := fun e => h (List.mem_cons_of_mem _ e)
    have := ih hp
    simp only [List.indexOf?] at this ⊢
    simp [List.findIdx?_cons, hc, this]

theorem indexOf_hash_none (name : Str) (h : '#' ∉ name) : name.indexOf? '#' = none := by
  induction name with
  | nil => simp [List.indexOf?]
  | cons c rest ih =>
    have hc : c ≠ '#' := fun e => h (by rw [e]; exact List.mem_cons_self _ _)
    have hp : '#' ∉ rest := fun e => h (List.mem_cons_of_mem _ e)
    have := ih hp
    simp only [List.indexOf?] at this ⊢
    simp [List.findIdx?_cons, hc, this]

theorem split_at_hash (name : Str) (h : '#' ∈ name) :
    ∃ pre post, '#' ∉ pre ∧ name = pre ++ '#' :: post := by
  induction name with
  | nil => exact absurd h (List.not_mem_nil _)
  | cons c rest ih =>
    by_cases hc : c = '#'
    · exact ⟨[], rest, List.not_mem_nil _, by rw [hc]; rfl⟩
    · have hr : '#' ∈ rest := by
        rcases List.mem_cons.1 h with e | e
        · exact absurd e.symm hc
        · exact e
      obtain ⟨pre, post, hp, he⟩ := ih hr
      refine ⟨c :: pre, post, ?_, by rw [he]; rfl⟩
      intro hm
      rcases List.mem_cons.1 hm with e | e
      · exact hc e.symm
      · exact hp e

/-- C28. Category trimming: `trimCategories` fails (the slice bound −1) exactly
when the first `#` of the name is at index 0; for a name whose first `#` is at
index i ≥ 1 it returns the first i−1 bytes of the name, which drops the
character before the `#` as well; a name without `#` is returned unchanged.  The
failure reaches `fuzzyFindAPI` when the loop comes to such a name. -/
theorem category_trimming (name : Str) :
    (trimCategories name = none ↔ ∃ rest, name = '#' :: rest) ∧
    (∀ pre post, '#' ∉ pre → name = pre ++ '#' :: post → 1 ≤ pre.length →
      trimCategories name = some (name.take (pre.length - 1)) ∧
        name.take (pre.length - 1) = pre.dropLast) ∧
    ('#' ∉ name → trimCategories name = some name) ∧
    (∀ (normalize : Str → Str) (api : LoadedAPI) (apis : List LoadedAPI) (search rest : Str),
      api.Spec.Name = name → name = '#' :: rest → search ≠ [] →
      api.Spec.APIID ≠ search → api.IdHex ≠ search →
      fuzzyFindAPI normalize (api :: apis) search = none) := by
  have hzero : ∀ rest, name = '#' :: rest → trimCategories name = none := by
    intro rest h
    have := indexOf_hash_append [] rest (List.not_mem_nil _)
    rw [List.nil_append, ← h] at this
    rw [trimCategories, this]
    rfl
  have hpos : ∀ pre post, '#' ∉ pre → name = pre ++ '#' :: post → 1 ≤ pre.length →
      trimCategories name = some (name.take (pre.length - 1)) := by
    intro pre post hp h hlen
    have := indexOf_hash_append pre post hp
    rw [← h] at this
    rw [trimCategories, this]
    dsimp only
    rw [if_neg (by omega)]
  have hnone : '#' ∉ name → trimCategories name = some name := by
    intro h
    rw [trimCategories, indexOf_hash_none name h]
  refine ⟨⟨?_, fun ⟨rest, h⟩ => hzero rest h⟩, ?_, hnone, ?_⟩
  · intro h
    by_cases hm : '#' ∈ name
    · obtain ⟨pre, post, hp, he⟩ := split_at_hash name hm
      cases pre with
      | nil => exact ⟨post, he⟩
      | cons c pre =>
        rw [hpos (c :: pre) post hp he (by simp)] at h
        cases h
    · rw [hnone hm] at h
      cases h
  · intro pre post hp h hlen
    refine ⟨hpos pre post hp h hlen, ?_⟩
    rw [h, List.take_append_of_le_length (by omega), List.dropLast_eq_take]
  · intro normalize api apis search rest hname h hsearch hid hhex
    rw [fuzzyFindAPI, if_neg hsearch, fuzzyFindLoop, if_neg (by tauto), hname, hzero rest h]

/-! ## Termination of the collision loop -/

theorem mem_keys_of_mapGet (count : List (Str × Nat)) (k : Str) (h : mapGet count k ≠ 0) :
    k ∈ count.map Prod.fst := by
  induction count with
  | nil => simp [mapGet] at h
  | cons kv rest ih =>
    by_cases hk : kv.1 = k
    · rw [List.map_cons, ← hk]
      exact List.mem_cons_self _ _
    · have h2 : mapGet rest k ≠ 0 := by
        simpa [mapGet, List.find?, hk] using h
      exact List.mem_cons_of_mem _ (ih h2)

/-- More turns change nothing once the loop has ended. -/
theorem collisionLoop_mono (apisByListen : List (Str × Nat)) (prev : Option APISpec)
    (domain apiID : Str) (fuel : Nat) :
    ∀ (pathModified : Bool) (listenPath p : Str),
      collisionLoop apisByListen prev domain apiID fuel pathModified listenPath = some p →
      collisionLoop apisByListen prev domain apiID (fuel + 1) pathModified listenPath =
        some p := by
  induction fuel with
  | zero =>
    intro pathModified listenPath p h
    simp [collisionLoop] at h
  | succ fuel ih =>
    intro pathModified listenPath p h
    rw [collisionLoop_succ] at h
    rw [collisionLoop_succ]
    by_cases hlt : mapGet apisByListen (generateDomainPath domain listenPath) < 2
    · rw [if_pos hlt] at h ⊢
      exact h
    · rw [if_neg hlt] at h ⊢
      by_cases hm : pathModified = false
      · rw [if_pos hm] at h ⊢
        by_cases hq : prevHasListenPath prev listenPath = true
        · rw [if_pos hq] at h ⊢
          exact h
        · rw [if_neg hq] at h ⊢
          exact ih _ _ _ h
      · rw [if_neg hm] at h ⊢
        exact ih _ _ _ h

theorem collisionLoop_mono_le (apisByListen : List (Str × Nat)) (prev : Option APISpec)
    (domain apiID : Str) (fuel fuel2 : Nat) (hle : fuel ≤ fuel2) (pathModified : Bool)
    (listenPath p : Str)
    (h : collisionLoop apisByListen prev domain apiID fuel pathModified listenPath = some p) :
    collisionLoop apisByListen prev domain apiID fuel2 pathModified listenPath = some p := by
  induction hle with
  | refl => exact h
  | step _ ih => exact collisionLoop_mono _ _ _ _ _ _ _ _ ih

/-- Every `_` the loop adds answers a key of the map that is a duplicate. -/
theorem collisionLoop_modified_keys (apisByListen : List (Str × Nat)) (prev : Option APISpec)
    (domain apiID : Str) (fuel : Nat) (listenPath p : Str)
    (h : collisionLoop apisByListen prev domain apiID fuel true listenPath = some p) :
    ∃ k, p = listenPath ++ List.replicate k '_' ∧
      ∀ j, j < k →
        2 ≤ mapGet apisByListen
          (generateDomainPath domain (listenPath ++ List.replicate j '_')) := by
  induction fuel generalizing listenPath with
  | zero => simp [collisionLoop] at h
  | succ fuel ih =>
    rw [collisionLoop_succ] at h
    by_cases hlt : mapGet apisByListen (generateDomainPath domain listenPath) < 2
    · rw [if_pos hlt] at h
      simp only [Option.some.injEq] at h
      subst h
      exact ⟨0, by simp, fun j hj => absurd hj (by omega)⟩
    · rw [if_neg hlt] at h
      simp only [Bool.true_eq_false, if_false] at h
      obtain ⟨k, hk, hkeys⟩ := ih _ h
      refine ⟨k + 1, ?_, ?_⟩
      · rw [hk, List.replicate_succ]
        simp
      · intro j hj
        cases j with
        | zero =>
          rw [List.replicate_zero, List.append_nil]
          omega
        | succ j =>
          have := hkeys j (by omega)
          rw [List.replicate_succ]
          simpa using this

/-- The loop adds at most as many `_` as the map has keys. -/
theorem underscores_le_mapLen (apisByListen : List (Str × Nat)) (domain listenPath : Str)
    (k : Nat)
    (hkeys : ∀ j, j < k →
      2 ≤ mapGet apisByListen
        (generateDomainPath domain (listenPath ++ List.replicate j '_'))) :
    k ≤ mapLen apisByListen := by
  have hnodup : ((List.range k).map
      (fun j => generateDomainPath domain (listenPath ++ List.replicate j '_'))).Nodup := by
    apply List.Nodup.map_on _ (List.nodup_range k)
    intro a _ b _ hab
    have := congrArg List.length hab
    simp only [generateDomainPath, List.length_append, List.length_replicate] at this
    omega
  have hsub : ((List.range k).map
      (fun j => generateDomainPath domain (listenPath ++ List.replicate j '_'))) ⊆
      (apisByListen.map Prod.fst).dedup := by
    intro key hkey
    obtain ⟨j, hj, rfl⟩ := List.mem_map.1 hkey
    rw [List.mem_dedup]
    exact mem_keys_of_mapGet _ _ (by have := hkeys j (List.mem_range.1 hj); omega)
  have := (List.subperm_of_subset hnodup hsub).length_le
  simpa [mapLen] using this

/-- C29. Collision loop terminates: for every spec and every count map that
`countApisByListenHash` makes of a list of specs, the collision loop of
`processSpec` ends (with a listen path, the same for every number of turns
allowed from the bound on); what it ends with is the listen path of the spec,
or that path with `-` and the API id and then at most as many `_` as the count
map has keys; when the count of the spec's own key is below 2 the listen path is
left unchanged. -/
theorem collision_loop_terminates (specs : List APISpec) (apisByID : List LoadedAPI)
    (spec : APISpec) :
    ∃ p,
      (∀ fuel, maxKeyLength (countApisByListenHash specs) + 2 ≤ fuel →
        collisionLoop (countApisByListenHash specs) (getApiSpec apisByID spec.APIID)
          spec.Domain spec.APIID fuel false spec.ListenPath = some p) ∧
      resolveListenPath (countApisByListenHash specs) apisByID spec = p ∧
      (p = spec.ListenPath ∨
        ∃ k, k ≤ mapLen (countApisByListenHash specs) ∧
          p = spec.ListenPath ++ '-' :: spec.APIID ++ List.replicate k '_') ∧
      (mapGet (countApisByListenHash specs)
          (generateDomainPath spec.Domain spec.ListenPath) < 2 → p = spec.ListenPath) := by
  have h := resolveListenPath_eq (countApisByListenHash specs) apisByID spec
  refine ⟨resolveListenPath (countApisByListenHash specs) apisByID spec,
    fun fuel hle => collisionLoop_mono_le _ _ _ _ _ _ hle _ _ _ h, rfl, ?_,
    (collisionLoop_result _ _ _ _ _ _ _ h).1⟩
  have h2 := h
  rw [show maxKeyLength (countApisByListenHash specs) + 2 =
    (maxKeyLength (countApisByListenHash specs) + 1) + 1 from rfl, collisionLoop_succ] at h2
  by_cases hlt : mapGet (countApisByListenHash specs)
      (generateDomainPath spec.Domain spec.ListenPath) < 2
  · rw [if_pos hlt] at h2
    simp only [Option.some.injEq] at h2
    exact Or.inl h2.symm
  · rw [if_neg hlt] at h2
    simp only [if_true] at h2
    by_cases hq : prevHasListenPath (getApiSpec apisByID spec.APIID) spec.ListenPath = true
    · rw [if_pos hq] at h2
      simp only [Option.some.injEq] at h2
      exact Or.inl h2.symm
    · rw [if_neg hq] at h2
      obtain ⟨k, hk, hkeys⟩ := collisionLoop_modified_keys _ _ _ _ _ _ _ h2
      exact Or.inr ⟨k, underscores_le_mapLen _ _ _ k hkeys, by rw [hk]⟩

/-! ## Skipped specs -/

theorem registerRoutes_mem (chains : List ChainObject) (rt : Route) :
    rt ∈ registerRoutes chains ↔
      ∃ c ∈ chains, c.Skip = false ∧
        (rt = { Router := c.Subrouter, Template := c.ListenOn, Handler := c } ∨
          (c.Open = false ∧
            rt =
              { Router := c.Subrouter, Template := c.RateLimitPath, RateLimit := true,
                Handler := c })) := by
  induction chains with
  | nil => simp [registerRoutes]
  | cons c rest ih =>
    rw [registerRoutes]
    simp only [List.mem_cons, or_and_right, exists_or, exists_eq_left]
    rw [← ih]
    cases hs : c.Skip
    · cases ho : c.Open
      · simp only [Bool.false_eq_true, if_false, List.mem_cons, true_and]
        constructor
        · rintro (h | h | h)
          · exact Or.inl (Or.inr h)
          · exact Or.inl (Or.inl h)
          · exact Or.inr h
        · rintro ((h | h) | h)
          · exact Or.inr (Or.inl h)
          · exact Or.inl h
          · exact Or.inr (Or.inr h)
      · simp only [Bool.false_eq_true, if_false, if_true, List.mem_cons, true_and,
          Bool.true_eq_false, false_and, or_false]
    · simp only [if_true, Bool.true_eq_false, false_and, false_or]

theorem skipSpecBecauseInvalid_iff (urlParseOk : Str → Bool) (spec : APISpec) :
    skipSpecBecauseInvalid urlParseOk spec = true ↔
      spec.ListenPath = [] ∨ ' ' ∈ spec.ListenPath ∨ urlParseOk spec.TargetURL = false := by
  unfold skipSpecBecauseInvalid
  by_cases h1 : spec.ListenPath = []
  · simp [h1]
  · by_cases h2 : ' ' ∈ spec.ListenPath
    · simp [h1, h2]
    · by_cases h3 : urlParseOk spec.TargetURL = false
      · simp [h1, h2, h3]
      · simp [h1, h2, h3]

/-- C25. Invalid specs are skipped, siblings load: `processSpec` returns a chain
object with `Skip = true` and no handler for every spec whose listen path is
empty, whose listen path contains a space, or whose target URL does not parse;
for every other spec the chain object has a handler, and `Skip` is set only for
an internal one.  `loadApps` processes every spec of the list and registers
exactly the routes of the chain objects that are not skipped: the listen route
of each, and before it the rate-limit route when the API is not open. -/
theorem invalid_specs_skipped (urlParseOk : Str → Bool) (enableCustomDomains : Bool)
    (apisByID : List LoadedAPI) (specs : List APISpec) :
    (∀ (spec : APISpec) (apisByListen : List (Str × Nat)) (subrouter : Str),
      (skipSpecBecauseInvalid urlParseOk spec = true ↔
        spec.ListenPath = [] ∨ ' ' ∈ spec.ListenPath ∨ urlParseOk spec.TargetURL = false) ∧
      (skipSpecBecauseInvalid urlParseOk spec = true →
        (processSpec urlParseOk apisByID spec apisByListen subrouter).Skip = true ∧
          (processSpec urlParseOk apisByID spec apisByListen subrouter).ThisHandler = none) ∧
      (skipSpecBecauseInvalid urlParseOk spec = false →
        (processSpec urlParseOk apisByID spec apisByListen subrouter).Skip = spec.Internal ∧
          (processSpec urlParseOk apisByID spec apisByListen subrouter).ThisHandler ≠ none)) ∧
    ((loadList urlParseOk enableCustomDomains apisByID (sortByListenPath specs)).map
      (fun p => p.1)).Perm specs ∧
    (∀ rt : Route, rt ∈ loadApps urlParseOk enableCustomDomains apisByID specs ↔
      ∃ spec ∈ specs,
        (processSpec urlParseOk apisByID spec (countApisByListenHash (sortByListenPath specs))
          (routerFor enableCustomDomains spec)).Skip = false ∧
        (rt =
            { Router := (processSpec urlParseOk apisByID spec
                (countApisByListenHash (sortByListenPath specs))
                (routerFor enableCustomDomains spec)).Subrouter,
              Template := (processSpec urlParseOk apisByID spec
                (countApisByListenHash (sortByListenPath specs))
                (routerFor enableCustomDomains spec)).ListenOn,
              Handler := processSpec urlParseOk apisByID spec
                (countApisByListenHash (sortByListenPath specs))
                (routerFor enableCustomDomains spec) } ∨
          ((processSpec urlParseOk apisByID spec
              (countApisByListenHash (sortByListenPath specs))
              (routerFor enableCustomDomains spec)).Open = false ∧
            rt =
              { Router := (processSpec urlParseOk apisByID spec
                  (countApisByListenHash (sortByListenPath specs))
                  (routerFor enableCustomDomains spec)).Subrouter,
                Template := (processSpec urlParseOk apisByID spec
                  (countApisByListenHash (sortByListenPath specs))
                  (routerFor enableCustomDomains spec)).RateLimitPath,
                RateLimit := true,
                Handler := processSpec urlParseOk apisByID spec
                  (countApisByListenHash (sortByListenPath specs))
                  (routerFor enableCustomDomains spec) }))) := by
  refine ⟨?_, ?_, ?_⟩
  · intro spec apisByListen subrouter
    refine ⟨skipSpecBecauseInvalid_iff urlParseOk spec, ?_, ?_⟩
    · intro h
      rw [processSpec, if_pos h]
      exact ⟨rfl, rfl⟩
    · intro h
      rw [processSpec, if_neg (by rw [h]; exact Bool.false_ne_true)]
      exact ⟨rfl, by simp⟩
  · rw [loadList_origins]
    exact sortByListenPath_perm specs
  · intro rt
    rw [loadApps, loadAppsSorted, registerRoutes_mem]
    constructor
    · rintro ⟨c, hc, hskip, hrt⟩
      rw [loadList, List.map_map] at hc
      obtain ⟨spec, hspec, rfl⟩ := List.mem_map.1 hc
      exact ⟨spec, (sortByListenPath_perm specs).mem_iff.1 hspec, hskip, hrt⟩
    · rintro ⟨spec, hspec, hskip, hrt⟩
      refine ⟨_, ?_, hskip, hrt⟩
      rw [loadList, List.map_map]
      exact List.mem_map.2 ⟨spec, (sortByListenPath_perm specs).mem_iff.2 hspec, rfl⟩

/-! ## The host sub-routers -/

theorem strLess_irrefl (s : Str) : strLess s s = false := by
  induction s with
  | nil => rfl
  | cons a s ih => simp [strLess, ih]

theorem strLess_trans : ∀ (a b c : Str), strLess a b = true → strLess b c = true →
    strLess a c = true
  | [], [], _, h, _ => by simp [strLess] at h
  | [], _ :: _, [], _, h => by simp [strLess] at h
  | [], _ :: _, _ :: _, _, _ => by simp [strLess]
  | _ :: _, [], _, h, _ => by simp [strLess] at h
  | _ :: _, _ :: _, [], _, h => by simp [strLess] at h
  | x :: a, y :: b, z :: c, h1, h2 => by
    simp only [strLess] at h1 h2 ⊢
    by_cases hxy : x.toNat < y.toNat
    · by_cases hyz : y.toNat < z.toNat
      · rw [if_pos (by omega)]
      · rw [if_neg hyz] at h2
        by_cases hzy : z.toNat < y.toNat
        · rw [if_pos hzy] at h2
          exact absurd h2 (by simp)
        · rw [if_pos (by omega)]
    · rw [if_neg hxy] at h1
      by_cases hyx : y.toNat < x.toNat
      · rw [if_pos hyx] at h1
        exact absurd h1 (by simp)
      · rw [if_neg hyx] at h1
        by_cases hyz : y.toNat < z.toNat
        · rw [if_pos (by omega)]
        · rw [if_neg hyz] at h2
          by_cases hzy : z.toNat < y.toNat
          · rw [if_pos hzy] at h2
            exact absurd h2 (by simp)
          · rw [if_neg hzy] at h2
            rw [if_neg (by omega), if_neg (by omega)]
            exact strLess_trans a b c h1 h2

theorem strLess_total : ∀ (a b : Str), a.length = b.length → a ≠ b →
    strLess a b = true ∨ strLess b a = true
  | [], [], _, h => absurd rfl h
  | [], _ :: _, h, _ => by simp at h
  | _ :: _, [], h, _ => by simp at h
  | x :: a, y :: b, hlen, hne => by
    simp only [strLess]
    by_cases hxy : x.toNat < y.toNat
    · left
      rw [if_pos hxy]
    · by_cases hyx : y.toNat < x.toNat
      · right
        rw [if_pos hyx]
      · rw [if_neg hxy, if_neg hyx, if_neg hyx, if_neg hxy]
        have hx : x = y := char_eq_of_toNat (by omega)
        have hab : a ≠ b := fun e => hne (by rw [hx, e])
        exact strLess_total a b (by simpa using hlen) hab

theorem hostLess_irrefl (a : Str) : ¬ hostLess a a := by
  unfold hostLess
  rw [if_neg (by simp), strLess_irrefl]
  simp

theorem hostLess_trans {a b c : Str} (h1 : hostLess a b) (h2 : hostLess b c) :
    hostLess a c := by
  unfold hostLess at h1 h2 ⊢
  by_cases hab : a.length ≠ b.length
  · rw [if_pos hab] at h1
    by_cases hbc : b.length ≠ c.length
    · rw [if_pos hbc] at h2
      rw [if_pos (by omega)]
      omega
    · rw [if_neg hbc] at h2
      rw [if_pos (by omega)]
      omega
  · rw [if_neg hab] at h1
    by_cases hbc : b.length ≠ c.length
    · rw [if_pos hbc] at h2
      rw [if_pos (by omega)]
      omega
    · rw [if_neg hbc] at h2
      rw [if_neg (by omega)]
      exact strLess_trans c b a h2 h1

theorem hostLess_total {a b : Str} (hne : a ≠ b) : hostLess a b ∨ hostLess b a := by
  unfold hostLess
  by_cases hab : a.length ≠ b.length
  · rw [if_pos hab, if_pos (Ne.symm hab)]
    omega
  · rw [if_neg hab, if_neg (by omega)]
    exact (strLess_total a b (by omega) hne).symm

theorem hostLess_asymm {a b : Str} (h1 : hostLess a b) (h2 : hostLess b a) : False :=
  hostLess_irrefl a (hostLess_trans h1 h2)

theorem hostBefore_total (a b : Str) : hostBefore a b ∨ hostBefore b a := by
  unfold hostBefore
  by_cases h : hostLess b a
  · exact Or.inr (fun h2 => hostLess_asymm h h2)
  · exact Or.inl h

theorem hostBefore_trans {a b c : Str} (hab : hostBefore a b) (hbc : hostBefore b c) :
    hostBefore a c := by
  unfold hostBefore at *
  intro hca
  by_cases hbc2 : b = c
  · subst hbc2
    exact hab hca
  · rcases hostLess_total hbc2 with h | h
    · exact hab (hostLess_trans h hca)
    · exact hbc h

theorem sortHosts_sorted (hosts : List Str) : (sortHosts hosts).Pairwise hostBefore := by
  haveI : IsTotal Str hostBefore := ⟨hostBefore_total⟩
  haveI : IsTrans Str hostBefore := ⟨fun _ _ _ => hostBefore_trans⟩
  exact List.sorted_insertionSort hostBefore hosts

theorem sortHosts_perm (hosts : List Str) : (sortHosts hosts).Perm hosts :=
  List.perm_insertionSort _ _

theorem createHostRouters_mem (l : List Str) : ∀ (keys : List Str) (h : Str),
    h ∈ createHostRouters true l keys ↔ h ∈ l ∧ h ∉ keys := by
  induction l with
  | nil =>
    intro keys h
    simp [createHostRouters]
  | cons host rest ih =>
    intro keys h
    rw [createHostRouters, if_neg (by simp)]
    by_cases hk : host ∈ keys
    · rw [if_pos hk, ih, List.mem_cons]
      constructor
      · rintro ⟨h1, h2⟩
        exact ⟨Or.inr h1, h2⟩
      · rintro ⟨h1 | h1, h2⟩
        · rw [h1] at h2
          exact absurd hk h2
        · exact ⟨h1, h2⟩
    · rw [if_neg hk, List.mem_cons, ih, List.mem_cons, List.mem_cons]
      constructor
      · rintro (h1 | ⟨h1, h2⟩)
        · rw [h1]
          exact ⟨Or.inl rfl, hk⟩
        · exact ⟨Or.inr h1, fun h3 => h2 (Or.inr h3)⟩
      · rintro ⟨h1 | h1, h2⟩
        · exact Or.inl h1
        · by_cases he : h = host
          · exact Or.inl he
          · exact Or.inr ⟨h1, fun h3 => h3.elim he h2⟩

theorem createHostRouters_sublist (l : List Str) : ∀ keys : List Str,
    (createHostRouters true l keys).Sublist l := by
  induction l with
  | nil =>
    intro keys
    simp [createHostRouters]
  | cons host rest ih =>
    intro keys
    rw [createHostRouters, if_neg (by simp)]
    by_cases hk : host ∈ keys
    · rw [if_pos hk]
      exact (ih keys).cons _
    · rw [if_neg hk]
      exact (ih _).cons₂ _

theorem createHostRouters_nodup (l : List Str) : ∀ keys : List Str,
    (createHostRouters true l keys).Nodup := by
  induction l with
  | nil =>
    intro keys
    simp [createHostRouters]
  | cons host rest ih =>
    intro keys
    rw [createHostRouters, if_neg (by simp)]
    by_cases hk : host ∈ keys
    · rw [if_pos hk]
      exact ih keys
    · rw [if_neg hk, List.nodup_cons]
      refine ⟨?_, ih _⟩
      rw [createHostRouters_mem]
      exact fun h => h.2 (List.mem_cons_self _ _)

/-- On hosts in sorted order the sub-routers are created in strictly decreasing
order. -/
theorem createHostRouters_sorted (l keys : List Str) (hl : l.Pairwise hostBefore) :
    (createHostRouters true l keys).Pairwise hostLess := by
  have h1 : (createHostRouters true l keys).Pairwise hostBefore :=
    hl.sublist (createHostRouters_sublist l keys)
  have h2 : (createHostRouters true l keys).Pairwise (fun a b => a ≠ b) :=
    createHostRouters_nodup l keys
  refine (h1.and h2).imp ?_
  rintro a b ⟨hb, hne⟩
  rcases hostLess_total hne with h | h
  · exact h
  · exact absurd h hb

/-- Two strictly decreasing lists of hosts with the same members are equal. -/
theorem hostLess_sorted_unique (l1 l2 : List Str) (h1 : l1.Pairwise hostLess)
    (h2 : l2.Pairwise hostLess) (hmem : ∀ h, h ∈ l1 ↔ h ∈ l2) : l1 = l2 := by
  haveI : IsAntisymm Str hostLess := ⟨fun _ _ h1 h2 => (hostLess_asymm h1 h2).elim⟩
  have hne : ∀ {a b : Str}, hostLess a b → a ≠ b := by
    intro a b h e
    rw [e] at h
    exact hostLess_irrefl b h
  have n1 : l1.Pairwise (fun a b => a ≠ b) := h1.imp hne
  have n2 : l2.Pairwise (fun a b => a ≠ b) := h2.imp hne
  exact List.eq_of_perm_of_sorted ((List.perm_ext_iff_of_nodup n1 n2).2 hmem) h1 h2

theorem hostSubRouters_mem (specs : List APISpec) (h : Str) :
    h ∈ hostSubRouters true specs ↔ h ≠ [] ∧ ∃ spec ∈ specs, spec.Domain = h := by
  rw [hostSubRouters, createHostRouters_mem, (sortHosts_perm _).mem_iff, List.mem_map,
    List.mem_singleton]
  constructor
  · rintro ⟨⟨spec, hs, he⟩, hne⟩
    exact ⟨hne, spec, (sortByListenPath_perm specs).mem_iff.1 hs, he⟩
  · rintro ⟨hne, spec, hs, he⟩
    exact ⟨⟨spec, (sortByListenPath_perm specs).mem_iff.2 hs, he⟩, hne⟩

/-- C26. Deterministic host routers: with custom domains enabled, `loadApps`
creates exactly one host sub-router for each distinct non-empty domain of the
specs, in the order of decreasing host length and, among hosts of one length,
decreasing lexicographic order; the sequence of creation depends on the set of
domains only, so every permutation of the specs, and every way `sort.Slice` may
order the hosts, gives the same; the empty domain uses the root router and gets
no sub-router of its own. -/
theorem deterministic_host_routers (specs : List APISpec) :
    (hostSubRouters true specs).Nodup ∧
    (∀ h, h ∈ hostSubRouters true specs ↔ h ≠ [] ∧ ∃ spec ∈ specs, spec.Domain = h) ∧
    (hostSubRouters true specs).Pairwise hostLess ∧
    (∀ a b : Str, hostLess a b ↔
      a.length > b.length ∨ (a.length = b.length ∧ strLess b a = true)) ∧
    (∀ specs2 : List APISpec,
      (∀ h, (∃ spec ∈ specs2, spec.Domain = h) ↔ ∃ spec ∈ specs, spec.Domain = h) →
      hostSubRouters true specs2 = hostSubRouters true specs) ∧
    (∀ specs2 : List APISpec, specs2.Perm specs →
      hostSubRouters true specs2 = hostSubRouters true specs) ∧
    (∀ sorted : List Str,
      sorted.Perm ((sortByListenPath specs).map (fun spec => spec.Domain)) →
      sorted.Pairwise hostBefore →
      createHostRouters true sorted [[]] = hostSubRouters true specs) ∧
    [] ∉ hostSubRouters true specs ∧
    (∀ spec : APISpec, spec.Domain = [] → routerFor true spec = []) := by
  have hsorted : ∀ l : List APISpec, (hostSubRouters true l).Pairwise hostLess :=
    fun l => createHostRouters_sorted _ _ (sortHosts_sorted _)
  have hset : ∀ specs2 : List APISpec,
      (∀ h, (∃ spec ∈ specs2, spec.Domain = h) ↔ ∃ spec ∈ specs, spec.Domain = h) →
      hostSubRouters true specs2 = hostSubRouters true specs := by
    intro specs2 hdom
    apply hostLess_sorted_unique _ _ (hsorted specs2) (hsorted specs)
    intro h
    rw [hostSubRouters_mem, hostSubRouters_mem, hdom]
  refine ⟨createHostRouters_nodup _ _, hostSubRouters_mem specs, hsorted specs, ?_, hset, ?_, ?_,
    ?_, ?_⟩
  · intro a b
    unfold hostLess
    by_cases hlen : a.length ≠ b.length
    · rw [if_pos hlen]
      constructor
      · exact fun h => Or.inl h
      · rintro (h | ⟨h, _⟩)
        · exact h
        · exact absurd h hlen
    · rw [if_neg hlen]
      constructor
      · exact fun h => Or.inr ⟨by omega, h⟩
      · rintro (h | ⟨_, h⟩)
        · omega
        · exact h
  · intro specs2 hperm
    apply hset
    intro h
    constructor
    · rintro ⟨spec, hs, he⟩
      exact ⟨spec, hperm.mem_iff.1 hs, he⟩
    · rintro ⟨spec, hs, he⟩
      exact ⟨spec, hperm.mem_iff.2 hs, he⟩
  · intro sorted hperm hsort
    apply hostLess_sorted_unique _ _ (createHostRouters_sorted _ _ hsort) (hsorted specs)
    intro h
    rw [hostSubRouters, createHostRouters_mem, createHostRouters_mem, hperm.mem_iff,
      (sortHosts_perm _).mem_iff]
  · intro h
    exact ((hostSubRouters_mem specs []).1 h).1 rfl
  · intro spec h
    rw [routerFor, if_pos rfl, h]

/-- The creation order at a concrete list of specs. -/
theorem hostSubRouters_sample :
    hostSubRouters true
        [{ Domain := "b.com".toList, ListenPath := "/x".toList },
          { Domain := "a.com".toList, ListenPath := "/long".toList },
          { ListenPath := "/y".toList },
          { Domain := "api.example.com".toList, ListenPath := "/".toList },
          { Domain := "a.com".toList, ListenPath := "/z".toList }] =
      ["api.example.com".toList, "b.com".toList, "a.com".toList] := by
  decide

/-! ## The session of the request context -/

/-- C27. Session context round trip: for every request, session `s`, token `t`
and flag, `SetSession` on the session stores it: afterwards `GetSession` returns
`s`, its key hash set to the hash of the token when it was empty and every field
unchanged otherwise, and `GetAuthToken` returns `t` when `t` is not empty and
the auth token the context held before (`""` if none) when it is; `GetSession`
returns nil on a request whose context holds no session; `SetSession` with a nil
session panics and stores nothing, so a session read back after a `SetSession`
that returned is never nil. -/
theorem session_context_round_trip (hashKey : Str → Str) (r : Request) (s : SessionState)
    (t : Str) (flag : Bool) :
    (∃ r2, SetSession hashKey r (some s) t flag = some r2 ∧
      GetSession r2 =
        some (if s.KeyHash = [] then
          { s with KeyHash := hashKey (if t = [] then GetAuthToken r else t) } else s) ∧
      (t ≠ [] → GetAuthToken r2 = t) ∧
      (t = [] → GetAuthToken r2 = GetAuthToken r) ∧
      (s.KeyHash ≠ [] → GetSession r2 = some s) ∧
      GetSession r2 ≠ none) ∧
    SetSession hashKey r none t flag = none ∧
    (∀ (so : Option SessionState) (r2 : Request),
      SetSession hashKey r so t flag = some r2 → so ≠ none ∧ GetSession r2 ≠ none) ∧
    (r.ctx.SessionData = none → GetSession r = none) ∧
    GetSession { r with ctx := {} } = none ∧
    GetAuthToken { r with ctx := {} } = [] := by
  have hget : GetSession (setSessionValue hashKey r s t flag) =
      some (if s.KeyHash = [] then
        { s with KeyHash := hashKey (if t = [] then GetAuthToken r else t) } else s) := by
    unfold GetSession setSessionValue
    cases flag <;> rfl
  have htok : GetAuthToken (setSessionValue hashKey r s t flag) =
      if t = [] then GetAuthToken r else t := by
    unfold setSessionValue
    cases flag <;> rfl
  refine ⟨⟨setSessionValue hashKey r s t flag, rfl, hget, ?_, ?_, ?_, ?_⟩, rfl, ?_,
    fun h => h, rfl, rfl⟩
  · intro h
    rw [htok, if_neg h]
  · intro h
    rw [htok, if_pos h]
  · intro h
    rw [hget, if_neg h]
  · rw [hget]
    exact Option.some_ne_none _
  · intro so r2 h
    cases so with
    | none => cases h
    | some s2 =>
      refine ⟨Option.some_ne_none _, ?_⟩
      have e : r2 = setSessionValue hashKey r s2 t flag := by
        injection h with h
        exact h.symm
      rw [e]
      unfold GetSession setSessionValue
      cases flag <;> exact Option.some_ne_none _

/-! ## The auth sub-chain -/

theorem mwAppendEnabled_fst (chain : List AuthProcessor) (mw : AuthProcessor) (enabled : Bool) :
    (mwAppendEnabled chain mw enabled).1 = chain ++ (if enabled then [mw] else []) := by
  cases enabled <;> simp [mwAppendEnabled]

theorem ite_append_right (c : Bool) (chain extra : List AuthProcessor) :
    (if c = true then chain ++ extra else chain) = chain ++ (if c = true then extra else []) := by
  cases c <;> simp

/-- The auth sub-chain in three parts: the five schemes, the custom key-check
hook and the standard token. -/
theorem authArray_parts (setup : AuthSetup) (spec : APISpec)
    (hk : spec.UseKeylessAccess = false) :
    ∃ schemes custom : List AuthProcessor,
      authArray setup spec =
        (schemes ++ custom) ++
          (if (spec.UseStandardAuth || (schemes ++ custom).length == 0) = true then [.authKey]
            else []) ∧
      (schemes.map AuthProcessor.slot).Sublist [.OAuth2, .Basic, .HMAC, .JWT, .OpenID] ∧
      (custom.map AuthProcessor.slot).Sublist [.customKeyCheck] := by
  have hne : (setup.mwDriver != setup.OttoDriver) = !(setup.mwDriver == setup.OttoDriver) := rfl
  unfold authArray
  rw [hk]
  simp only [Bool.false_eq_true, if_false, mwAppendEnabled_fst, hne]
  generalize EnabledForSpec setup spec .coprocess = ec
  generalize EnabledForSpec setup spec .goplugin = eg
  generalize setup.EnableCoProcess = c
  generalize (setup.mwDriver == setup.OttoDriver) = bo
  generalize (setup.mwDriver == setup.GoPluginDriver) = bg
  generalize spec.EnableCoProcessAuth = ca
  generalize spec.UseGoPluginAuth = ga
  generalize spec.UseStandardAuth = st
  refine ⟨[] ++ (if EnabledForSpec setup spec .oauth2 = true then [.oauth2] else []) ++
      (if EnabledForSpec setup spec .basic = true then [.basic] else []) ++
      (if EnabledForSpec setup spec .hmac = true then [.hmac] else []) ++
      (if EnabledForSpec setup spec .jwt = true then [.jwt] else []) ++
      (if EnabledForSpec setup spec .openID = true then [.openID] else []),
    (if (c && !bo && ca) = true then (if ec = true then [.coprocess] else []) else []) ++
      (if (!(c && !bo && ca) && bo && ca) = true then [.dynamic] else []) ++
      (if (!(c && !bo && ca) && !(!(c && !bo && ca) && bo && ca) && bg && ga) = true then
        (if eg = true then [.goplugin] else []) else []), ?_, ?_, ?_⟩
  · generalize [] ++ (if EnabledForSpec setup spec .oauth2 = true then [.oauth2] else []) ++
      (if EnabledForSpec setup spec .basic = true then [.basic] else []) ++
      (if EnabledForSpec setup spec .hmac = true then [.hmac] else []) ++
      (if EnabledForSpec setup spec .jwt = true then [.jwt] else []) ++
      (if EnabledForSpec setup spec .openID = true then [AuthProcessor.openID] else []) = schemes
    cases ec <;> cases eg <;> cases c <;> cases bo <;> cases bg <;> cases ca <;> cases ga <;>
      simp <;> split <;> simp
  · generalize EnabledForSpec setup spec .oauth2 = e1
    generalize EnabledForSpec setup spec .basic = e2
    generalize EnabledForSpec setup spec .hmac = e3
    generalize EnabledForSpec setup spec .jwt = e4
    generalize EnabledForSpec setup spec .openID = e5
    cases e1 <;> cases e2 <;> cases e3 <;> cases e4 <;> cases e5 <;> decide
  · cases ec <;> cases eg <;> cases c <;> cases bo <;> cases bg <;> cases ca <;> cases ga <;>
      decide

/-- C24. Auth sub-chain shape: for every non-keyless spec, the auth sub-chain
`processSpec` builds is a subsequence of the fixed order OAuth2, Basic, HMAC,
JWT, OpenID, custom key-check hook, standard token; it holds at most one custom
key-check hook (coprocess, scripted or native); the standard token processor is
in it if and only if standard auth is requested or no other processor was
appended; and it is never empty. -/
theorem auth_sub_chain_shape (setup : AuthSetup) (spec : APISpec)
    (hk : spec.UseKeylessAccess = false) :
    ((authArray setup spec).map AuthProcessor.slot).Sublist fixedOrder ∧
    List.count AuthSlot.customKeyCheck ((authArray setup spec).map AuthProcessor.slot) ≤ 1 ∧
    (AuthProcessor.authKey ∈ authArray setup spec ↔
      spec.UseStandardAuth = true ∨ ∀ p ∈ authArray setup spec, p = AuthProcessor.authKey) ∧
    authArray setup spec ≠ [] := by
  obtain ⟨schemes, custom, he, hs, hc⟩ := authArray_parts setup spec hk
  have hpre : ((schemes ++ custom).map AuthProcessor.slot).Sublist
      [.OAuth2, .Basic, .HMAC, .JWT, .OpenID, .customKeyCheck] := by
    rw [List.map_append]
    exact hs.append hc
  have hnot : ∀ p ∈ schemes ++ custom, p ≠ AuthProcessor.authKey := by
    intro p hp e
    have h1 : AuthProcessor.slot p ∈ (schemes ++ custom).map AuthProcessor.slot :=
      List.mem_map_of_mem _ hp
    have h2 := hpre.subset h1
    rw [e] at h2
    exact absurd h2 (by decide)
  have hsub : ((authArray setup spec).map AuthProcessor.slot).Sublist fixedOrder := by
    rw [he, List.map_append]
    have ht : ((if (spec.UseStandardAuth || (schemes ++ custom).length == 0) = true then
        [AuthProcessor.authKey] else []).map AuthProcessor.slot).Sublist
        [AuthSlot.standardToken] := by
      split
      · exact List.Sublist.refl _
      · exact List.nil_sublist _
    exact hpre.append ht
  refine ⟨hsub, ?_, ?_, ?_⟩
  · have := hsub.count_le AuthSlot.customKeyCheck
    have h1 : List.count AuthSlot.customKeyCheck fixedOrder = 1 := by decide
    omega
  · rw [he]
    generalize schemes ++ custom = pre at hnot
    cases hst : spec.UseStandardAuth
    · cases pre with
      | nil => simp
      | cons a rest =>
        have ha := hnot a (List.mem_cons_self _ _)
        simp only [Bool.false_or, List.length_cons, Nat.add_one_ne_zero, beq_iff_eq,
          if_false, List.append_nil, Bool.false_eq_true, false_or, List.mem_cons]
        constructor
        · rintro (h | h)
          · exact absurd h.symm ha
          · exact absurd rfl (hnot _ (List.mem_cons_of_mem _ h))
        · intro h
          exact absurd (h a (Or.inl rfl)) ha
    · simp
  · rw [he]
    cases hpre2 : schemes ++ custom with
    | nil => simp
    | cons a rest => simp

/-- The shape at a concrete spec: OAuth2 and JWT enabled, a scripted key-check
hook, no standard auth; and the chain of a spec with nothing enabled. -/
theorem auth_sub_chain_shape_witness :
    authArray { mwDriver := "otto".toList, enabledForSpec := fun p => decide (p = .jwt) }
        { UseOauth2 := true, EnableCoProcessAuth := true } =
        [.oauth2, .jwt, .dynamic] ∧
      authArray {} {} = [.authKey] ∧
      ((authArray { mwDriver := "otto".toList, enabledForSpec := fun p => decide (p = .jwt) }
        { UseOauth2 := true, EnableCoProcessAuth := true }).map AuthProcessor.slot).Sublist
        fixedOrder :=
  ⟨by decide, by decide,
    (auth_sub_chain_shape
      { mwDriver := "otto".toList, enabledForSpec := fun p => decide (p = .jwt) }
      { UseOauth2 := true, EnableCoProcessAuth := true } (by decide)).1⟩

end Tyk
